import Mathlib

/-!
# ministaller: diff engine and transactional applier

A shallow embedding of `diffgenerator.go` and `installer.go`.

* Machine integers are `Nat`/`Int` with explicit wrap-around: `uint64` values are
  naturals reduced modulo `2^64`, `int64`/`int` values are integers in
  `[-2^63, 2^63)` (a 64-bit target).
* Goroutines and channels are sequentialised: a channel is the list of the values
  sent on it in program order, a consumer loop is a fold over that list. The one
  place where the order of the goroutines changes the outcome, the senders of
  `backupsChan` when `installPackage` returns an error, is a parameter of the
  environment (`Schedule`).
* A run-time panic in a goroutine ends the process: the function that models the run
  returns `none`.
-/

namespace Ministaller

/-! ## Machine integers -/

/-- Conversion to `uint64`: the value modulo `2^64`. -/
def toUInt64 (x : Int) : Nat := (x % 2 ^ 64).toNat

/-- Conversion to `int64` (and to `int` on a 64-bit target): two's complement wrap-around. -/
def toInt64 (x : Int) : Int := (x + 2 ^ 63) % 2 ^ 64 - 2 ^ 63

/-! ## Price constants (installer.go, lines 15-27) -/

def CopyPrice : Int := 100
def RenamePrice : Int := CopyPrice
def RemoveBackupPrice : Int := 30
def RemoveFactor : Int := RenamePrice
def UpdateFactor : Int := RenamePrice + CopyPrice
def AddFactor : Int := CopyPrice

def BackupExt : String := ".bak"

/-! ## Data model (diffgenerator.go, lines 10-20) -/

/-- Go struct `UpdateFileInfo`; `FileSize` is an `int64`. -/
structure UpdateFileInfo where
  Filepath : String
  Sha1 : String
  FileSize : Int
deriving DecidableEq, Repr

/-- The three lists an `UpdateFilesProvider` hands out. -/
structure DiffResult where
  filesToAdd : List UpdateFileInfo
  filesToRemove : List UpdateFileInfo
  filesToUpdate : List UpdateFileInfo
deriving DecidableEq, Repr

/-! ## Progress reporter (installer.go, lines 47-56 and 484-531) -/

/-- Go struct `ProgressReporter`. `progressChan` holds the ticks sent so far, oldest
first; `handled` is the list of arguments `HandlePercentChange` was called with. -/
structure ProgressReporter where
  grandTotal : Nat
  currentProgress : Nat
  progressChan : List Int
  percent : Int
  handled : List Int
deriving DecidableEq, Repr

/-- Tick sent by `accountRemove`: `(progress*RemoveFactor)/100` in `int64`. -/
def removeTick (progress : Int) : Int := Int.tdiv (toInt64 (progress * RemoveFactor)) 100

/-- Tick sent by `accountUpdate`: `(progress*UpdateFactor)/100` in `int64`. -/
def updateTick (progress : Int) : Int := Int.tdiv (toInt64 (progress * UpdateFactor)) 100

/-- Tick sent by `accountAdd`: `(progress*AddFactor)/100` in `int64`. -/
def addTick (progress : Int) : Int := Int.tdiv (toInt64 (progress * AddFactor)) 100

def ProgressReporter.accountRemove (pr : ProgressReporter) (progress : Int) : ProgressReporter :=
  { pr with progressChan := pr.progressChan ++ [removeTick progress] }

def ProgressReporter.accountUpdate (pr : ProgressReporter) (progress : Int) : ProgressReporter :=
  { pr with progressChan := pr.progressChan ++ [updateTick progress] }

def ProgressReporter.accountAdd (pr : ProgressReporter) (progress : Int) : ProgressReporter :=
  { pr with progressChan := pr.progressChan ++ [addTick progress] }

def ProgressReporter.accountBackupRemove (pr : ProgressReporter) : ProgressReporter :=
  { pr with progressChan := pr.progressChan ++ [RemoveBackupPrice] }

/-- One iteration of the body of `reportingLoop` for the received `chunk`.
`none` is the run-time panic of the integer division when `grandTotal` is zero. -/
def reportChunk (pr : ProgressReporter) (chunk : Int) : Option ProgressReporter :=
  let current := (pr.currentProgress + toUInt64 chunk) % 2 ^ 64
  if pr.grandTotal = 0 then none
  else
    let percent : Nat := (current * 100 % 2 ^ 64) / pr.grandTotal
    let newPercent := toInt64 (Int.ofNat percent)
    let percentsChanged := decide (newPercent > pr.percent)
    some { pr with
      currentProgress := current
      percent := newPercent
      handled := if percentsChanged then pr.handled ++ [newPercent] else pr.handled }

/-- The loop `for chunk := range pr.progressChan` over the ticks `chunks`. -/
def reportChunks : ProgressReporter → List Int → Option ProgressReporter
  | pr, [] => some pr
  | pr, chunk :: rest =>
    match reportChunk pr chunk with
    | none => none
    | some pr1 => reportChunks pr1 rest

/-- Drains `progressChan`: `reportingLoop` run until the channel is closed. -/
def ProgressReporter.reportingLoop (pr : ProgressReporter) : Option ProgressReporter :=
  reportChunks { pr with progressChan := [] } pr.progressChan

/-- A fresh reporter, as the zero-valued Go struct. -/
def ProgressReporter.new : ProgressReporter :=
  { grandTotal := 0, currentProgress := 0, progressChan := [], percent := 0, handled := [] }

/-! ## Grand total (installer.go, lines 96-114) -/

/-- The term `uint64(fi.FileSize * factor) / 100`: the product is an `int64`. -/
def priceTerm (size factor : Int) : Nat := toUInt64 (toInt64 (size * factor)) / 100

/-- Body of the loop over `FilesToRemove` and `FilesToUpdate`, `sum` being a `uint64`. -/
def addPrices (factor : Int) (sum : Nat) (fi : UpdateFileInfo) : Nat :=
  let sum1 := (sum + priceTerm fi.FileSize factor) % 2 ^ 64
  (sum1 + priceTerm fi.FileSize RemoveBackupPrice) % 2 ^ 64

/-- Body of the loop over `FilesToAdd`. -/
def addPriceOnly (sum : Nat) (fi : UpdateFileInfo) : Nat :=
  (sum + priceTerm fi.FileSize AddFactor) % 2 ^ 64

def calculateGrandTotals (d : DiffResult) : Nat :=
  let sum0 := d.filesToRemove.foldl (addPrices RemoveFactor) 0
  let sum1 := d.filesToUpdate.foldl (addPrices UpdateFactor) sum0
  d.filesToAdd.foldl addPriceOnly sum1

/-! ## Directory trees and the diff engine (diffgenerator.go, lines 22-222)

A tree is the sequence of entries `filepath.Walk` visits below its root, each under
its slash-separated path relative to the root, as `filepath.Rel` and
`filepath.ToSlash` give it. `os.Stat` of `root/p` answers from the same sequence: it
succeeds on an entry, reports the not-exist error for an absent path, and fails with
another error when a component of the path is an entry that is not a directory.
Symbolic links are not part of a tree. -/

/-- An entry of a directory tree: a regular file with its bytes, a directory, or
another entry (a device, a socket, a named pipe), the last two with the size
`FileInfo.Size()` reports for them. -/
inductive Node
  | file (content : String)
  | dir (size : Int)
  | other (size : Int)
deriving DecidableEq, Repr

/-- Result of `info.Mode().IsRegular()`. -/
def Node.isRegular : Node → Bool
  | .file _ => true
  | _ => false

/-- Result of `info.IsDir()`. -/
def Node.isDir : Node → Bool
  | .dir _ => true
  | _ => false

/-- Result of `info.Size()`: the byte length of a regular file. -/
def Node.size : Node → Int
  | .file content => Int.ofNat content.utf8ByteSize
  | .dir size => size
  | .other size => size

abbrev Tree := List (String × Node)

/-- Whether `path` lies below `dir`: `dir` followed by a separator is a prefix of it. -/
def isBelow (dir path : String) : Bool := (dir.data ++ ['/']).isPrefixOf path.data

/-- The entry of the tree at `path`. -/
def Tree.lookup : Tree → String → Option Node
  | [], _ => none
  | (p, node) :: rest, path => if p = path then some node else Tree.lookup rest path

/-- How `os.Stat` ends. -/
inductive StatResult
  /-- the path exists: `err == nil` -/
  | ok (info : Node)
  /-- the path does not exist: `os.IsNotExist(err)` -/
  | notExist
  /-- another error, and a nil `FileInfo`: a component of the path is not a directory -/
  | failed
deriving DecidableEq, Repr

/-- Result of `os.Stat(filepath.Join(root, path))`. -/
def stat (t : Tree) (path : String) : StatResult :=
  if t.any (fun e => !e.2.isDir && isBelow e.1 path) then .failed
  else
    match t.lookup path with
    | some node => .ok node
    | none => .notExist

/-- Go struct `DiffGenerator`: the hash maps (an absent key reads as the empty
string), the two flags and the three result queues. -/
structure DiffGenerator where
  installDirHashes : String → String
  packageDirHashes : String → String
  keepMissing : Bool
  forceUpdate : Bool
  filesToAdd : List UpdateFileInfo
  filesToRemove : List UpdateFileInfo
  filesToUpdate : List UpdateFileInfo

/-- Walk callback of `findFilesToRemoveOrUpdate` for one entry of the install tree.
`none` is the run-time panic of `pfi.Size()` on the nil `FileInfo` that `os.Stat`
returns with an error other than not-exist: it happens in a goroutine of its own and
ends the process. -/
def DiffGenerator.removeOrUpdateVisit (package : Tree) (df : DiffGenerator)
    (entry : String × Node) : Option DiffGenerator :=
  if !entry.2.isRegular then some df
  else
    let relativePath := entry.1
    let installFileHash := df.installDirHashes relativePath
    match stat package relativePath with
    | .notExist =>
      if !df.keepMissing then
        some { df with filesToRemove := df.filesToRemove ++
            [{ Filepath := relativePath, Sha1 := installFileHash, FileSize := entry.2.size }] }
      else some df
    | .ok pfi =>
      let packageFileHash := df.packageDirHashes relativePath
      if packageFileHash ≠ installFileHash ∨ df.forceUpdate = true then
        some { df with filesToUpdate := df.filesToUpdate ++
            [{ Filepath := relativePath, Sha1 := installFileHash, FileSize := pfi.size }] }
      else some df
    | .failed =>
      let packageFileHash := df.packageDirHashes relativePath
      if packageFileHash ≠ installFileHash ∨ df.forceUpdate = true then none
      else some df

/-- The walk of `findFilesToRemoveOrUpdate` over the install tree. -/
def DiffGenerator.findFilesToRemoveOrUpdate (df : DiffGenerator) (install package : Tree) :
    Option DiffGenerator :=
  install.foldlM (DiffGenerator.removeOrUpdateVisit package) df

/-- Walk callback of `findFilesToAdd` for one entry of the package tree: the file is
added only when `os.IsNotExist(err)`. -/
def DiffGenerator.addVisit (install : Tree) (df : DiffGenerator)
    (entry : String × Node) : DiffGenerator :=
  if !entry.2.isRegular then df
  else
    let relativePath := entry.1
    match stat install relativePath with
    | .notExist =>
      let packageFileHash := df.packageDirHashes relativePath
      { df with filesToAdd := df.filesToAdd ++
          [{ Filepath := relativePath, Sha1 := packageFileHash, FileSize := entry.2.size }] }
    | _ => df

def DiffGenerator.findFilesToAdd (df : DiffGenerator) (install package : Tree) : DiffGenerator :=
  package.foldl (DiffGenerator.addVisit install) df

/-- The diff `GenerateDiffs` leaves in the generator, for given hash maps and flags;
`none` when a classification goroutine panics and the process dies. -/
def GenerateDiffs (install package : Tree) (installDirHashes packageDirHashes : String → String)
    (keepMissing forceUpdate : Bool) : Option DiffResult :=
  let df0 : DiffGenerator :=
    { installDirHashes := installDirHashes, packageDirHashes := packageDirHashes,
      keepMissing := keepMissing, forceUpdate := forceUpdate,
      filesToAdd := [], filesToRemove := [], filesToUpdate := [] }
  match df0.findFilesToRemoveOrUpdate install package with
  | none => none
  | some df1 =>
    let df2 := df1.findFilesToAdd install package
    some { filesToAdd := df2.filesToAdd, filesToRemove := df2.filesToRemove,
           filesToUpdate := df2.filesToUpdate }

/-! ## The install directory and its operations

The applier sees the install directory and the package directory as their regular
files and directories, each under its slash-separated path relative to the root;
other entries and symbolic links are left out. An operation fails when the file
system refuses it (a missing file, a directory in the way, a directory that is not
empty) or when the environment makes it fail: the environment is a fixed table of
injected faults. -/

abbrev Error := String

/-- What a path of the directory holds. -/
inductive Entry
  | file (content : String)
  | dir
deriving DecidableEq, Repr

/-- The content of a directory below its root. -/
structure Files where
  entries : List (String × Entry)
deriving DecidableEq, Repr

/-- What the directory holds at `path`. -/
def Files.kind (fs : Files) (path : String) : Option Entry :=
  (fs.entries.find? (fun e => e.1 = path)).map Prod.snd

/-- The bytes of the regular file at `path`, if there is one. -/
def Files.content (fs : Files) (path : String) : Option String :=
  match fs.kind path with
  | some (.file content) => some content
  | _ => none

/-- A directory applied to a path: the bytes of the regular file there. -/
instance : CoeFun Files (fun _ => String → Option String) := ⟨Files.content⟩

def Files.erase (fs : Files) (path : String) : Files :=
  { entries := fs.entries.filter (fun e => e.1 ≠ path) }

def Files.put (fs : Files) (path : String) (entry : Entry) : Files :=
  { entries := (path, entry) :: (fs.erase path).entries }

/-- Whether the directory at `dir` holds an entry. -/
def Files.hasChildren (fs : Files) (dir : String) : Bool :=
  fs.entries.any (fun e => isBelow dir e.1)

/-- The directory at `src` and everything below it, moved to `dst`. -/
def Files.move (fs : Files) (src dst : String) : Files :=
  { entries := fs.entries.map (fun e =>
      if e.1 = src then (dst, e.2)
      else if isBelow src e.1 then (dst ++ e.1.drop src.length, e.2)
      else e) }

/-- The regular files and directories of a tree. -/
def Tree.files (t : Tree) : Files :=
  { entries := t.filterMap (fun e =>
      match e.2 with
      | .file content => some (e.1, Entry.file content)
      | .dir _ => some (e.1, Entry.dir)
      | .other _ => none) }

/-- The directories above a path, outermost first: `a` and `a/b` for `a/b/c`. -/
def ancestorsAux : List Char → List Char → List String
  | _, [] => []
  | seen, c :: rest =>
    if c = '/' then String.mk seen.reverse :: ancestorsAux (c :: seen) rest
    else ancestorsAux (c :: seen) rest

def ancestors (path : String) : List String := ancestorsAux [] path.data

/-- Whether `path.Dir(path)` is a directory; the root is one. -/
def Files.parentIsDir (fs : Files) (path : String) : Bool :=
  match (ancestors path).getLast? with
  | none => true
  | some dir => fs.kind dir == some Entry.dir

/-- The call `os.MkdirAll` for the directories `dirs`, outermost first: it stops at a
component that is a regular file. -/
def Files.mkdirAll : Files → List String → Files
  | fs, [] => fs
  | fs, dir :: rest =>
    match fs.kind dir with
    | some .dir => Files.mkdirAll fs rest
    | some (.file _) => fs
    | none => Files.mkdirAll (fs.put dir .dir) rest

/-- The function `ensureDirExists(path.Join(installDir, rel))`, whose result `addFiles`
ignores. The mode `os.ModeDir` it passes carries no permission bits; the new
directories are taken to be writable, as they are for the superuser and on Windows. -/
def ensureDirExists (rel : String) (fs : Files) : Files :=
  fs.mkdirAll (ancestors rel)

/-- How a run of `copyFile` ends once source and destination are open. -/
inductive CopyOutcome
  /-- every step succeeds -/
  | ok
  /-- `os.Open` or `os.OpenFile` fails: the destination is untouched -/
  | failBefore
  /-- `io.Copy`, `Sync` or `Close` fails: the destination was created or truncated
  and holds `written` -/
  | failAfter (written : String)
deriving DecidableEq, Repr

/-- Injected faults: how the copy to a destination ends, and which renames and
removals fail although the file system would allow them. -/
structure Faults where
  copy : String → CopyOutcome
  rename : String → String → Bool
  remove : String → Bool

def Faults.none : Faults :=
  { copy := fun _ => .ok, rename := fun _ _ => false, remove := fun _ => false }

/-- How the goroutines that send to `backupsChan` are scheduled when `installPackage`
returns an error: whether the pair sent as number `i` is in the ledger by the time
`restoreBackups` and `removeBackups` read it, and whether a sender that has not sent
by then gets to run before the process exits (it finds the channel closed). -/
structure Schedule where
  stored : Nat → Bool
  pendingSenderRuns : Bool

/-- What the applier reads but does not change: the package directory, the faults,
`filepath.Rel(installDir, currentExeFullPath)` (`none` when `Rel` fails) and the
schedule of the ledger goroutines. -/
structure Env where
  packageFiles : Files
  faults : Faults
  selfpath : Option String
  schedule : Schedule

/-- Model of `os.Remove(path)`: a regular file or an empty directory is removed. -/
def osRemove (flt : Faults) (path : String) (fs : Files) : Option Error × Files :=
  if flt.remove path = true then (some "remove failed", fs)
  else
    match fs.kind path with
    | none => (some "file does not exist", fs)
    | some (.file _) => (none, fs.erase path)
    | some .dir =>
      if fs.hasChildren path then (some "directory not empty", fs) else (none, fs.erase path)

/-- Model of `os.Rename(src, dst)` for a destination in the directory of the source
(the applier renames `p` to `p.bak` and back): a regular file replaces a regular
file, nothing replaces a directory, and a directory moves with what it holds. -/
def osRename (flt : Faults) (src dst : String) (fs : Files) : Option Error × Files :=
  if flt.rename src dst = true then (some "rename failed", fs)
  else
    match fs.kind src with
    | none => (some "file does not exist", fs)
    | some (.file content) =>
      if src = dst then (none, fs)
      else
        match fs.kind dst with
        | some .dir => (some "file exists", fs)
        | _ => (none, (fs.erase src).put dst (.file content))
    | some .dir =>
      if src = dst then (none, fs)
      else
        match fs.kind dst with
        | some _ => (some "file exists", fs)
        | none =>
          if isBelow src dst then (some "invalid argument", fs) else (none, fs.move src dst)

/-- The function `copyFile(path.Join(packageDir, rel), path.Join(installDir, rel))`:
`os.Stat` of the source, then `os.OpenFile` of the destination, which fails on a
directory and below a missing directory, then `io.Copy`, which fails on a source
that is a directory. -/
def copyFile (env : Env) (rel : String) (fs : Files) : Option Error × Files :=
  match env.packageFiles.kind rel with
  | none => (some "source does not exist", fs)
  | some source =>
    if fs.kind rel = some Entry.dir ∨ fs.parentIsDir rel = false then
      (some "cannot create destination", fs)
    else
      match env.faults.copy rel, source with
      | .failBefore, _ => (some "copy failed", fs)
      | _, .dir => (some "source is a directory", fs.put rel (.file ""))
      | .ok, .file content => (none, fs.put rel (.file content))
      | .failAfter written, .file _ => (some "copy failed", fs.put rel (.file written))

/-! ## Go maps -/

/-- The assignment `m[key] = value`. -/
def mapSet : List (String × String) → String → String → List (String × String)
  | [], key, value => [(key, value)]
  | (k, v) :: rest, key, value =>
    if k = key then (key, value) :: rest else (k, v) :: mapSet rest key value

/-- The lookup `value, ok := m[key]`. -/
def mapGet : List (String × String) → String → Option String
  | [], _ => none
  | (k, v) :: rest, key => if k = key then some v else mapGet rest key

/-- The statement `delete(m, key)`. -/
def mapDelete (m : List (String × String)) (key : String) : List (String × String) :=
  m.filter (fun kv => kv.1 ≠ key)

/-! ## The transactional applier (installer.go, lines 58-419)

`backupFile` hands each ledger pair to a goroutine that sends it on `backupsChan`;
the goroutine `accountBackups` receives the pairs and stores them in the map
`backups`. Nothing reads the map before `installPackage` returns. When it returns
`nil` it has waited for `backupsWG`: every pair sent is stored. When it returns an
error it has not waited, and its deferred `close(backupsChan)` runs while senders may
still be pending: which pairs are stored by then is the `Schedule` of the
environment; a pending sender that runs afterwards panics on the closed channel and
the process dies. The ledger is iterated in the order of insertion (Go leaves the
order open) and its paths are kept relative to `installDir`.

`cleanupEmptyDirs`, the last step of `afterSuccess` and of `afterFailure`, removes
directories only; it is modelled on its own below, and the install directory recorded
here is the one it starts from. No statement run by `Install` itself panics, so its
deferred `recover` never runs. -/

/-- The lines `log.Printf` writes when a backup or a copy fails, each with the path it
names; the other lines of the log are left out. -/
inductive LogLine
  /-- `Removing file %v failed: %v` of `removeFiles` -/
  | removeFailed (path : String)
  /-- `Error while backing up %v: %v` of `updateFiles` -/
  | backupFailed (path : String)
  /-- `Updating file %v failed: %v` of `updateFiles` -/
  | updateFailed (path : String)
  /-- `Adding file %v failed: %v` of `addFiles` -/
  | addFailed (path : String)
deriving DecidableEq, Repr

/-- Whether the line reports a failed copy. -/
def LogLine.isCopyFailure : LogLine → Bool
  | .updateFailed _ => true
  | .addFailed _ => true
  | _ => false

/-- Go struct `PackageInstaller` together with the install directory it works on,
the system messages sent so far and the log; `backupsChan` holds the pairs handed to a
sender and not yet stored in `backups`. -/
structure PackageInstaller where
  backups : List (String × String)
  backupsChan : List (String × String)
  progressReporter : ProgressReporter
  removeSelfPath : String
  failInTheEnd : Bool
  installFiles : Files
  systemMessages : List String
  log : List LogLine

/-- The call `log.Printf` for one of the lines kept, when `err` is not `nil`. -/
def PackageInstaller.logIf (pi : PackageInstaller) (err : Option Error) (line : LogLine) :
    PackageInstaller :=
  match err with
  | some _ => { pi with log := pi.log ++ [line] }
  | none => pi

/-- The send `pr.systemMessageChan <- msg`. -/
def PackageInstaller.sendSystemMessage (pi : PackageInstaller) (msg : String) :
    PackageInstaller :=
  { pi with systemMessages := pi.systemMessages ++ [msg] }

/-- The method `backupFile`: removes what sits at `relpath.bak`, renames `relpath` onto
it and, on success, hands the pair to a sender of `backupsChan`. -/
def PackageInstaller.backupFile (env : Env) (pi : PackageInstaller) (relpath : String) :
    Option Error × PackageInstaller :=
  let oldpath := relpath
  let newpath := relpath ++ BackupExt
  -- remove previous backup if any
  let fs1 := (osRemove env.faults newpath pi.installFiles).2
  match osRename env.faults oldpath newpath fs1 with
  | (none, fs2) =>
    (none, { pi with installFiles := fs2, backupsChan := pi.backupsChan ++ [(relpath, newpath)] })
  | (some err, fs2) => (some err, { pi with installFiles := fs2 })

/-- The goroutine `accountBackups` on the pairs it receives. -/
def PackageInstaller.accountBackups (pi : PackageInstaller) (pairs : List (String × String)) :
    PackageInstaller :=
  { pi with backups := pairs.foldl (fun m bp => mapSet m bp.1 bp.2) pi.backups }

/-- The call `pi.backupsWG.Wait()`: every pair sent so far is stored. -/
def PackageInstaller.waitBackups (pi : PackageInstaller) : PackageInstaller :=
  { pi.accountBackups pi.backupsChan with backupsChan := [] }

/-- The deferred `close(pi.backupsChan)` on the error path of `installPackage`: the
pairs the schedule has stored are in the ledger, the others stay with their senders. -/
def PackageInstaller.closeBackups (env : Env) (pi : PackageInstaller) : PackageInstaller :=
  let stored := (pi.backupsChan.enum.filter (fun ip => env.schedule.stored ip.1)).map Prod.snd
  let pending :=
    (pi.backupsChan.enum.filter (fun ip => !env.schedule.stored ip.1)).map Prod.snd
  { pi.accountBackups stored with backupsChan := pending }

/-- The method `removeFiles`: a failed backup is logged only, the result is always `nil`. -/
def PackageInstaller.removeFiles (env : Env) :
    PackageInstaller → List UpdateFileInfo → Option Error × PackageInstaller
  | pi, [] => (none, pi)
  | pi, fi :: rest =>
    let (err, pi0) := pi.backupFile env fi.Filepath
    let pi1 := pi0.logIf err (.removeFailed fi.Filepath)
    let pi2 := { pi1 with progressReporter := pi1.progressReporter.accountRemove fi.FileSize }
    PackageInstaller.removeFiles env pi2 rest

/-- The method `updateFiles`: backup, removal of the old file, copy, tick; the loop
breaks on the first failed copy and returns its error. -/
def PackageInstaller.updateFiles (env : Env) :
    PackageInstaller → List UpdateFileInfo → Option Error × PackageInstaller
  | pi, [] => (none, pi)
  | pi, fi :: rest =>
    let (berr, pi0) := pi.backupFile env fi.Filepath
    let pi1 := pi0.logIf berr (.backupFailed fi.Filepath)
    let fs2 := (osRemove env.faults fi.Filepath pi1.installFiles).2
    let (err, fs3) := copyFile env fi.Filepath fs2
    let pi3 := { pi1 with installFiles := fs3,
                          progressReporter := pi1.progressReporter.accountUpdate fi.FileSize }
    match err with
    | some e => (some e, pi3.logIf err (.updateFailed fi.Filepath))
    | none => PackageInstaller.updateFiles env pi3 rest

/-- The method `addFiles`: creation of the parent directories, copy and, on success
only, tick; the first failed copy is returned. -/
def PackageInstaller.addFiles (env : Env) :
    PackageInstaller → List UpdateFileInfo → Option Error × PackageInstaller
  | pi, [] => (none, pi)
  | pi, fi :: rest =>
    match copyFile env fi.Filepath (ensureDirExists fi.Filepath pi.installFiles) with
    | (some e, fs1) =>
      (some e, { pi with installFiles := fs1, log := pi.log ++ [.addFailed fi.Filepath] })
    | (none, fs1) =>
      let pi1 := { pi with installFiles := fs1,
                           progressReporter := pi.progressReporter.accountAdd fi.FileSize }
      PackageInstaller.addFiles env pi1 rest

/-- The function `purgeFiles(pi.installDir, files)`. -/
def purgeFiles (env : Env) : Files → List UpdateFileInfo → Files
  | fs, [] => fs
  | fs, fi :: rest => purgeFiles env (osRemove env.faults fi.Filepath fs).2 rest

/-- The renames of `restoreBackups`, in the order the ledger is listed. -/
def restoreLoop (env : Env) : Files → List (String × String) → Files
  | fs, [] => fs
  | fs, (relpath, backuppath) :: rest =>
    restoreLoop env (osRename env.faults backuppath relpath fs).2 rest

/-- The method `restoreBackups`. -/
def PackageInstaller.restoreBackups (env : Env) (pi : PackageInstaller) : PackageInstaller :=
  { pi with installFiles := restoreLoop env pi.installFiles pi.backups }

/-- The function `removeOldBackups`, for an executable that lies in the install directory. -/
def PackageInstaller.removeOldBackups (env : Env) (pi : PackageInstaller) : PackageInstaller :=
  match env.selfpath with
  | none => pi
  | some selfpath =>
    { pi with installFiles := (osRemove env.faults (selfpath ++ BackupExt) pi.installFiles).2 }

/-- The loop of `removeBackups` over the ledger entries `entries`. -/
def removeBackupsLoop (env : Env) :
    PackageInstaller → List (String × String) → PackageInstaller
  | pi, [] => pi
  | pi, (_, backuppath) :: rest =>
    let fs1 := (osRemove env.faults backuppath pi.installFiles).2
    let pi1 := { pi with installFiles := fs1,
                         progressReporter := pi.progressReporter.accountBackupRemove }
    removeBackupsLoop env pi1 rest

/-- The method `removeBackups`: moves the entry of the running executable out of the
ledger, then removes the backup file of every entry left and ticks once per entry. -/
def PackageInstaller.removeBackups (env : Env) (pi : PackageInstaller) : PackageInstaller :=
  let pi1 :=
    match env.selfpath with
    | none => pi
    | some selfpath =>
      match mapGet pi.backups selfpath with
      | some backuppath =>
        { pi with removeSelfPath := backuppath, backups := mapDelete pi.backups selfpath }
      | none => pi
  removeBackupsLoop env pi1 pi1.backups

/-- The method `beforeInstall`. -/
def PackageInstaller.beforeInstall (env : Env) (pi : PackageInstaller) : PackageInstaller :=
  pi.removeOldBackups env

/-- The method `installPackage`: the three phases in order, stopping at the first
error; it waits for the ledger only when no phase failed. -/
def PackageInstaller.installPackage (env : Env) (pi : PackageInstaller) (d : DiffResult) :
    Option Error × PackageInstaller :=
  let pi1 := pi.sendSystemMessage "Removing components..."
  match pi1.removeFiles env d.filesToRemove with
  | (some err, pi2) => (some err, pi2.closeBackups env)
  | (none, pi2) =>
    let pi3 := pi2.sendSystemMessage "Updating components..."
    match pi3.updateFiles env d.filesToUpdate with
    | (some err, pi4) => (some err, pi4.closeBackups env)
    | (none, pi4) =>
      let pi5 := pi4.sendSystemMessage "Adding components..."
      match pi5.addFiles env d.filesToAdd with
      | (some err, pi6) => (some err, pi6.closeBackups env)
      | (none, pi6) => (none, pi6.waitBackups)

/-- The method `afterSuccess`. -/
def PackageInstaller.afterSuccess (env : Env) (pi : PackageInstaller) : PackageInstaller :=
  let pi1 := pi.sendSystemMessage "Finishing the installation..."
  pi1.removeBackups env

/-- The method `afterFailure`: purge of the added files, restore, removal of backups. -/
def PackageInstaller.afterFailure (env : Env) (pi : PackageInstaller) (d : DiffResult) :
    PackageInstaller :=
  let pi1 := pi.sendSystemMessage "Cleaning up..."
  let pi2 := { pi1 with installFiles := purgeFiles env pi1.installFiles d.filesToAdd }
  let pi3 := pi2.restoreBackups env
  pi3.removeBackups env

/-- The applier up to `teardown`: every statement of `Install` that touches the
install directory or the ledger. -/
def PackageInstaller.applyDiff (env : Env) (pi : PackageInstaller) (d : DiffResult) :
    Option Error × PackageInstaller :=
  let pi0 := { pi with progressReporter :=
    { pi.progressReporter with grandTotal := calculateGrandTotals d } }
  let pi1 := pi0.beforeInstall env
  match pi1.installPackage env d with
  | (err, pi2) =>
    if err = none ∧ pi2.failInTheEnd = false then (err, pi2.afterSuccess env)
    else (err, pi2.afterFailure env d)

/-- The function `teardown`: waits until `reportingLoop` has consumed every tick.
`none` when the loop panics. -/
def PackageInstaller.teardown (pi : PackageInstaller) : Option PackageInstaller :=
  match pi.progressReporter.reportingLoop with
  | none => none
  | some pr => some { pi with progressReporter := pr }

/-- Whether a sender of `backupsChan` panics: one is still pending after the channel
was closed, and it gets to run. -/
def PackageInstaller.senderPanics (env : Env) (pi : PackageInstaller) : Bool :=
  !pi.backupsChan.isEmpty && env.schedule.pendingSenderRuns

/-- The method `Install`: the returned error (`none` is Go's `nil`) and the
installer afterwards; `none` when the process dies, in a sender of `backupsChan` or
in `reportingLoop`. -/
def PackageInstaller.Install (env : Env) (pi : PackageInstaller) (d : DiffResult) :
    Option (Option Error × PackageInstaller) :=
  match pi.applyDiff env d with
  | (err, pi1) =>
    if pi1.senderPanics env = true then none
    else
      match pi1.teardown with
      | none => none
      | some pi2 => some (err, pi2)

/-- A freshly constructed installer on the install directory `fs`. -/
def PackageInstaller.new (fs : Files) (failInTheEnd : Bool) : PackageInstaller :=
  { backups := [], backupsChan := [], progressReporter := ProgressReporter.new,
    removeSelfPath := "", failInTheEnd := failInTheEnd, installFiles := fs,
    systemMessages := [], log := [] }

/-! ## Directory janitor (installer.go, lines 432-482)

For the janitor a directory tree is what `filepath.Walk(root, ...)` reports: the
root, and below it every entry with the path of the directory that holds it and its
name. The path of an entry is `filepath.Join` of the two. `len` of a path is the
number of bytes of its UTF-8 encoding, `String.utf8ByteSize`. -/

/-- The call `filepath.Join(dir, name)` for a cleaned directory path and an entry name. -/
def joinPath (dir name : String) : String :=
  if dir = "." then name
  else if dir = "/" then "/" ++ name
  else dir ++ "/" ++ name

/-- An entry below the walked root. -/
structure DirEntry where
  parent : String
  name : String
  isDir : Bool
deriving DecidableEq, Repr

/-- The path under which `filepath.Walk` reports the entry. -/
def DirEntry.path (e : DirEntry) : String := joinPath e.parent e.name

/-- Names a directory listing can hold: not empty, not `.` or `..`, no separator. -/
def validName (name : String) : Bool :=
  name != "" && name != "." && name != ".." && !name.data.contains '/'

/-- A directory tree as the janitor sees it: the path of the root as given to
`filepath.Walk` (a cleaned path), whether the root still exists, whether `os.Remove`
succeeds on the emptied root when the root is not `.` (on `.` it never does), and the
entries below it. -/
structure DirTree where
  root : String
  rootExists : Bool
  rootRemovable : Bool
  entries : List DirEntry
deriving DecidableEq, Repr

/-- Whether `dirpath` is a directory of the tree. -/
def DirTree.hasDir (t : DirTree) (dirpath : String) : Bool :=
  (t.rootExists && dirpath == t.root) || t.entries.any (fun e => e.isDir && e.path == dirpath)

/-- The call `ioutil.ReadDir(dirpath)`: `none` when it returns an error. -/
def DirTree.readDir (t : DirTree) (dirpath : String) : Option (List DirEntry) :=
  if t.hasDir dirpath then some (t.entries.filter (fun e => e.parent == dirpath)) else none

/-- The call `os.Remove(dirpath)` on an empty directory; on the root it fails when the
root is `.` or is not removable. -/
def DirTree.removeDir (t : DirTree) (dirpath : String) : DirTree :=
  { t with
    rootExists := t.rootExists && !(dirpath == t.root && t.rootRemovable && t.root != ".")
    entries := t.entries.filter (fun e => !(e.isDir && e.path == dirpath)) }

/-- The slice `dirs` that the walk of `cleanupEmptyDirs` collects. -/
def DirTree.walkDirs (t : DirTree) : List String :=
  if t.rootExists then t.root :: (t.entries.filter (fun e => e.isDir)).map DirEntry.path else []

/-- The method `ByLength.Less` on two elements: `len` of a Go string is the number of
bytes of its UTF-8 encoding. -/
def byLengthLess (a b : String) : Bool := decide (a.utf8ByteSize > b.utf8ByteSize)

/-- The loop of `removeEmptyDirs` over the sorted slice. -/
def removeEmptyDirsLoop : DirTree → List String → DirTree
  | t, [] => t
  | t, dirpath :: rest =>
    match t.readDir dirpath with
    | none => removeEmptyDirsLoop t rest
    | some entries =>
      if entries.length = 0 then removeEmptyDirsLoop (t.removeDir dirpath) rest
      else removeEmptyDirsLoop t rest

/-- The function `removeEmptyDirs`; `sort` stands for `sort.Sort(ByLength(dirs))`. -/
def removeEmptyDirs (sort : List String → List String) (dirs : List String) (t : DirTree) :
    DirTree :=
  removeEmptyDirsLoop t (sort dirs)

/-- The function `cleanupEmptyDirs(root)` on the tree below `root`. -/
def cleanupEmptyDirs (sort : List String → List String) (t : DirTree) : DirTree :=
  removeEmptyDirs sort t.walkDirs t

/-- What `sort.Sort` guarantees: a permutation in which no later element is `Less`
than an earlier one. -/
def SortsByLength (sort : List String → List String) : Prop :=
  ∀ l, (sort l).Perm l ∧ (sort l).Pairwise (fun a b => byLengthLess b a = false)

/-- A sort that meets the contract of `sort.Sort`: merge sort by descending length in
bytes. -/
def mergeSortByLength (l : List String) : List String :=
  l.mergeSort (fun a b => decide (b.utf8ByteSize ≤ a.utf8ByteSize))

/-! ## Specification-side definitions

The quantities the specification names, written after its words, and names for
intermediate states of `Install`. -/

/-- The grand total as the specification writes it: one floor division per file. -/
def grandTotalSpec (d : DiffResult) : Int :=
  (d.filesToRemove.map (fun fi => fi.FileSize * (RemoveFactor + RemoveBackupPrice) / 100)).sum
  + (d.filesToUpdate.map (fun fi => fi.FileSize * (UpdateFactor + RemoveBackupPrice) / 100)).sum
  + (d.filesToAdd.map (fun fi => fi.FileSize * AddFactor / 100)).sum

/-- Whether every size of the diff is non-negative with `size*230` inside `int64`. -/
def sizesInRange (d : DiffResult) : Prop :=
  ∀ fi ∈ d.filesToRemove ++ d.filesToUpdate ++ d.filesToAdd,
    0 ≤ fi.FileSize ∧ fi.FileSize * 230 < 2 ^ 63

instance (d : DiffResult) : Decidable (sizesInRange d) := by
  unfold sizesInRange; infer_instance

/-- A reporter as `Install` starts it: zero progress, the given total and ticks. -/
def ProgressReporter.start (grandTotal : Nat) (ticks : List Int) : ProgressReporter :=
  { ProgressReporter.new with grandTotal := grandTotal, progressChan := ticks }

/-- Reference classification, `to_remove`: the install-side regular files whose
package path does not exist, only when `keep_missing` is false, with the
install-side size and digest. -/
def referenceRemove (install package : Tree) (installHashes : String → String)
    (keepMissing : Bool) : List UpdateFileInfo :=
  if keepMissing then []
  else
    (install.filter (fun e => e.2.isRegular && (package.lookup e.1).isNone)).map
      (fun e => { Filepath := e.1, Sha1 := installHashes e.1, FileSize := e.2.size })

/-- Reference classification, `to_update`: the install-side regular files whose
package path exists and whose digests differ or `force_update` holds, with the
package-side size and the install-side digest. -/
def referenceUpdate (install package : Tree) (installHashes packageHashes : String → String)
    (forceUpdate : Bool) : List UpdateFileInfo :=
  install.filterMap (fun e =>
    match package.lookup e.1 with
    | some pfi =>
      if e.2.isRegular && (installHashes e.1 != packageHashes e.1 || forceUpdate) then
        some { Filepath := e.1, Sha1 := installHashes e.1, FileSize := pfi.size }
      else none
    | none => none)

/-- Reference classification, `to_add`: the package-side regular files whose install
path does not exist, with the package-side size and digest. -/
def referenceAdd (install package : Tree) (packageHashes : String → String) :
    List UpdateFileInfo :=
  (package.filter (fun e => e.2.isRegular && (install.lookup e.1).isNone)).map
    (fun e => { Filepath := e.1, Sha1 := packageHashes e.1, FileSize := e.2.size })

/-- Whether the classification of the install-side entry `e` dereferences the nil
`FileInfo`: the entry is a regular file, `os.Stat` of its package path fails with an
error other than not-exist, and the digests differ or `force_update` holds. -/
def dereferencesNil (package : Tree) (installHashes packageHashes : String → String)
    (forceUpdate : Bool) (e : String × Node) : Bool :=
  e.2.isRegular && stat package e.1 == StatResult.failed
    && (packageHashes e.1 != installHashes e.1 || forceUpdate)

/-- The list `findFilesToRemoveOrUpdate` sends to the remove queue. -/
def sentToRemove (install package : Tree) (installHashes : String → String)
    (keepMissing : Bool) : List UpdateFileInfo :=
  if keepMissing then []
  else
    (install.filter (fun e => e.2.isRegular && stat package e.1 == StatResult.notExist)).map
      (fun e => { Filepath := e.1, Sha1 := installHashes e.1, FileSize := e.2.size })

/-- The list `findFilesToRemoveOrUpdate` sends to the update queue. -/
def sentToUpdate (install package : Tree) (installHashes packageHashes : String → String)
    (forceUpdate : Bool) : List UpdateFileInfo :=
  install.filterMap (fun e =>
    match stat package e.1 with
    | .ok pfi =>
      if e.2.isRegular && (packageHashes e.1 != installHashes e.1 || forceUpdate) then
        some { Filepath := e.1, Sha1 := installHashes e.1, FileSize := pfi.size }
      else none
    | _ => none)

/-- The list `findFilesToAdd` sends to the add queue. -/
def sentToAdd (install package : Tree) (packageHashes : String → String) :
    List UpdateFileInfo :=
  (package.filter (fun e => e.2.isRegular && stat install e.1 == StatResult.notExist)).map
    (fun e => { Filepath := e.1, Sha1 := packageHashes e.1, FileSize := e.2.size })

/-- Modelled from the spec: `CalculateHashes(root)` of the Tree Hasher, which is not
among the sources: the map from the relative path of every regular file to the digest
of its bytes (an absent key reads as the empty string). The fingerprint function is
the parameter `digest`. -/
def CalculateHashes (digest : String → String) (t : Tree) : String → String := fun path =>
  match t.lookup path with
  | some (.file content) => digest content
  | _ => ""

/-- The state when `installPackage` returns: `Install` up to the choice between
`afterSuccess` and `afterFailure`. -/
def PackageInstaller.phases (env : Env) (pi : PackageInstaller) (d : DiffResult) :
    Option Error × PackageInstaller :=
  ({ pi with progressReporter :=
      { pi.progressReporter with grandTotal := calculateGrandTotals d } }.beforeInstall
    env).installPackage env d

/-- The ledger `removeBackups` goes over: the ledger without the entry of the
running executable. -/
def ledgerWithoutSelf (env : Env) (ledger : List (String × String)) : List (String × String) :=
  match env.selfpath with
  | none => ledger
  | some selfpath =>
    match mapGet ledger selfpath with
    | some _ => mapDelete ledger selfpath
    | none => ledger

/-- The installer `Install` leaves behind (the given one if the process dies). -/
def PackageInstaller.installed (env : Env) (pi : PackageInstaller) (d : DiffResult) :
    PackageInstaller :=
  match pi.Install env d with
  | some r => r.2
  | none => pi

/-- The lines the run of `Install` that ended in `pi2` added to the log of `pi`. -/
def newLines (pi pi2 : PackageInstaller) : List LogLine := pi2.log.drop pi.log.length

/-- A schedule in which every pair is stored by the time the ledger is read. -/
def Schedule.prompt : Schedule := { stored := fun _ => true, pendingSenderRuns := false }

/-- A schedule in which no sender has sent when `installPackage` returns an error and
the senders run afterwards. -/
def Schedule.late : Schedule := { stored := fun _ => false, pendingSenderRuns := true }

/-- A schedule in which no sender has sent when `installPackage` returns an error and
none runs before the process exits. -/
def Schedule.never : Schedule := { stored := fun _ => false, pendingSenderRuns := false }

/-! ## Proof invariants -/

/-- Invariant of the loop of `removeEmptyDirs`: every directory entry still waits in
`rest` or holds an entry that no later iteration removes. -/
def Settled (t : DirTree) (rest : List String) : Prop :=
  ∀ e ∈ t.entries, e.isDir = true →
    e.path ∈ rest ∨ ∃ c ∈ t.entries, c.parent = e.path ∧ (c.isDir = true → c.path ∉ rest)

/-- Invariant of the loop of `removeEmptyDirs` for the root: while it exists it still
waits in `rest` or holds an entry that no later iteration removes. -/
def RootSettled (t : DirTree) (rest : List String) : Prop :=
  t.rootExists = true →
    t.root ∈ rest ∨ ∃ c ∈ t.entries, c.parent = t.root ∧ (c.isDir = true → c.path ∉ rest)

/-- The reporter `r` is `p` after more ticks were sent: same grand total, and the
channel of `p` is a prefix of the channel of `r`. -/
def ProgressReporter.Extends (r p : ProgressReporter) : Prop :=
  r.grandTotal = p.grandTotal ∧ ∃ ticks, r.progressChan = p.progressChan ++ ticks

/-- The installer `r` is `p` after more lines were logged, with the same debug flag:
`copyFailed` tells whether one of the new lines reports a failed copy. -/
def PackageInstaller.Logged (r p : PackageInstaller) (copyFailed : Bool) : Prop :=
  r.failInTheEnd = p.failInTheEnd
    ∧ ∃ lines, r.log = p.log ++ lines ∧ lines.any LogLine.isCopyFailure = copyFailed

/-- The ledger entry `backupFile` records for `relpath`. -/
def backupPair (relpath : String) : String × String := (relpath, relpath ++ BackupExt)

/-- The paths `Install` backs up for a diff. -/
def DiffResult.targets (d : DiffResult) : List String :=
  (d.filesToRemove ++ d.filesToUpdate).map (fun fi => fi.Filepath)

/-! ## Premises on the trees -/

/-- A tree as `filepath.Walk` lists a directory of regular files: no path twice,
regular files and directories only, and every directory above an entry is an entry. -/
def Tree.WellFormed (t : Tree) : Prop :=
  (t.map Prod.fst).Nodup
  ∧ ∀ e ∈ t, (e.2.isRegular = true ∨ e.2.isDir = true)
      ∧ ∀ q ∈ ancestors e.1, (t.lookup q).map Node.isDir = some true

instance (t : Tree) : Decidable t.WellFormed := by
  unfold Tree.WellFormed; infer_instance

/-- What the applier sees of an entry of a tree. -/
def Node.entry : Node → Option Entry
  | .file content => some (Entry.file content)
  | .dir _ => some Entry.dir
  | .other _ => none

/-- A path that both trees hold is a directory in both or a regular file in both. -/
def SameKinds (install package : Tree) : Prop :=
  ∀ e ∈ install, ∀ e2 ∈ package, e.1 = e2.1 → e.2.isDir = e2.2.isDir

instance (install package : Tree) : Decidable (SameKinds install package) := by
  unfold SameKinds; infer_instance

/-! ## Invariants of a successful run -/

/-- The path `x` holds no regular file, or the backup of a pair handed to the ledger. -/
def Accounted (fs : Files) (chan : List (String × String)) (x : String) : Prop :=
  fs x = none ∨ ∃ t, x = t ++ BackupExt ∧ backupPair t ∈ chan

/-- The path `x` is as `removeBackups` has to find it: it holds the file of the
package, or, where the package has none, no file or a backup handed to the ledger. -/
def Final (package fs : Files) (chan : List (String × String)) (x : String) : Prop :=
  (package x = none → Accounted fs chan x) ∧ (package x ≠ none → fs x = package x)

/-- During the remove and update phases no directory appears. -/
def NoNewDirs (install fs : Files) : Prop :=
  ∀ x, fs.kind x = some Entry.dir → install.kind x = some Entry.dir

/-- During the remove phase an entry is an entry of the install tree or the backup of
a file to remove. -/
def NoNewEntries (install fs : Files) (removed : List UpdateFileInfo) : Prop :=
  ∀ x, fs.kind x ≠ none →
    install.kind x ≠ none ∨ ∃ fi ∈ removed, x = fi.Filepath ++ BackupExt

/-! ## Concrete inputs -/

/-- A diff with one small file in each list. -/
def smallDiff : DiffResult :=
  { filesToAdd := [{ Filepath := "c", Sha1 := "", FileSize := 5 }],
    filesToRemove := [{ Filepath := "a", Sha1 := "", FileSize := 7 }],
    filesToUpdate := [{ Filepath := "b", Sha1 := "", FileSize := 9 }] }

/-- A file of the largest size with `size*230` inside `int64`. -/
def hugeUpdate : UpdateFileInfo :=
  { Filepath := "f", Sha1 := "", FileSize := 40101617551542503 }

/-- A diff of 201 such files to update. -/
def hugeDiff : DiffResult :=
  { filesToAdd := [], filesToRemove := [], filesToUpdate := List.replicate 201 hugeUpdate }

/-- Ticks whose sum times 100 stays below `2^64` while the percent leaves `int`. -/
def wrapTicks : List Int := [1, 92233720368547758, 1]

/-- An environment without faults, with the package directory `package`. -/
def plainEnv (package : Tree) : Env :=
  { packageFiles := package.files, faults := Faults.none, selfpath := none,
    schedule := Schedule.prompt }

/-- The faults under which the copy to `b` fails after the destination was created. -/
def copyOfBFails : Faults :=
  { copy := fun rel => if rel = "b" then .failAfter "" else .ok,
    rename := fun _ _ => false, remove := fun _ => false }

/-- An environment in which the copy to `b` fails, under the given schedule. -/
def failingEnv (package : Tree) (schedule : Schedule) : Env :=
  { packageFiles := package.files, faults := copyOfBFails, selfpath := none,
    schedule := schedule }

/-- An environment without faults in which the running executable lies at `self` in
the install directory. -/
def selfEnv (package : Tree) (self : String) : Env :=
  { packageFiles := package.files, faults := Faults.none, selfpath := some self,
    schedule := Schedule.prompt }

/-- The diff of two trees under the identity digest. -/
def diffOf (install package : Tree) (keepMissing forceUpdate : Bool) : Option DiffResult :=
  GenerateDiffs install package (CalculateHashes id install) (CalculateHashes id package)
    keepMissing forceUpdate

/-- The diff that removes the one-byte file `x`. -/
def oneByteRemoval : DiffResult :=
  { filesToAdd := [], filesToRemove := [{ Filepath := "x", Sha1 := "", FileSize := 1 }],
    filesToUpdate := [] }

def oneByteTree : Tree := [("x", .file "X")]

def oldTree : Tree := [("a", .file "old")]

def newTree : Tree := [("a", .file "new")]

/-- The diff that updates `a`. -/
def updateDiff : DiffResult :=
  { filesToAdd := [], filesToRemove := [],
    filesToUpdate := [{ Filepath := "a", Sha1 := "old", FileSize := 3 }] }

def janitorTree : DirTree :=
  { root := "inst", rootExists := true, rootRemovable := true,
    entries := [⟨"inst", "a", true⟩, ⟨"inst/a", "b", true⟩, ⟨"inst/a/b", "c", true⟩,
      ⟨"inst", "f", false⟩, ⟨"inst", "keep", true⟩, ⟨"inst/keep", "g", false⟩,
      ⟨"inst", "zz", true⟩, ⟨"inst", "éé", true⟩, ⟨"inst/éé", "abc", true⟩] }

/-- The tree of the current directory with the one empty subdirectory `a`. -/
def dotTree : DirTree :=
  { root := ".", rootExists := true, rootRemovable := false, entries := [⟨".", "a", true⟩] }

/-- A package directory that holds the one empty file `e`. -/
def emptyFileTree : Tree := [("e", .file "")]

/-- The diff that adds the empty file `e`. -/
def emptyFileDiff : DiffResult :=
  { filesToAdd := [{ Filepath := "e", Sha1 := "", FileSize := 0 }], filesToRemove := [],
    filesToUpdate := [] }

/-- A tree with the file `b.txt` in the directory `sub`. -/
def subDirTree : Tree := [("sub", .dir 4096), ("sub/b.txt", .file "B")]

/-- A tree with a regular file at `sub`. -/
def subFileTree : Tree := [("sub", .file "S")]

/-- An install tree with a file to update, a file to remove and a file to keep in a
directory. -/
def mixedInstall : Tree :=
  [("a", .file "old"), ("r", .file "R"), ("d", .dir 4096), ("d/x", .file "X")]

/-- A package tree with the new bytes of `a`, the kept file and a new file in a new
directory. -/
def mixedPackage : Tree :=
  [("a", .file "new"), ("d", .dir 4096), ("d/x", .file "X"), ("sub", .dir 4096),
    ("sub/n", .file "N")]

/-- The diff of `mixedInstall` and `mixedPackage`. -/
def mixedDiff : DiffResult :=
  { filesToAdd := [{ Filepath := "sub/n", Sha1 := "N", FileSize := 1 }],
    filesToRemove := [{ Filepath := "r", Sha1 := "R", FileSize := 1 }],
    filesToUpdate := [{ Filepath := "a", Sha1 := "old", FileSize := 3 }] }

/-- The install tree of the rollback scenario. -/
def treeA : Tree := [("a", .file "A")]

/-- The package tree of the rollback scenario. -/
def packageAB : Tree := [("a", .file "A2"), ("b", .file "B")]

/-- The diff of `treeA` and `packageAB`. -/
def rollbackDiff : DiffResult :=
  { filesToAdd := [{ Filepath := "b", Sha1 := "B", FileSize := 1 }], filesToRemove := [],
    filesToUpdate := [{ Filepath := "a", Sha1 := "A", FileSize := 2 }] }

/-- An install tree with a file `a` and a file at its backup path. -/
def bakTree : Tree := [("a", .file "A"), ("a.bak", .file "K")]

/-- A package that keeps only the file at the backup path of `a`. -/
def bakPackage : Tree := [("a.bak", .file "K")]

/-- An install tree with a file `a` and a directory that is not empty at its backup
path. -/
def bakDirTree : Tree := [("a", .file "A"), ("a.bak", .dir 4096), ("a.bak/x", .file "X")]

/-- A tree with an executable and a stale backup of it. -/
def staleTree : Tree := [("exe", .file "E"), ("exe.bak", .file "S")]

/-- A tree with the one empty directory `d`. -/
def emptyDirTree : Tree := [("d", .dir 4096)]

/-- A tree with a regular file at `d`. -/
def fileAtDirTree : Tree := [("d", .file "X")]

/-- The diff without files. -/
def emptyDiff : DiffResult := { filesToAdd := [], filesToRemove := [], filesToUpdate := [] }

/-! # Theorems -/

/-! ## Grand total -/

theorem priceTerm_eq (size factor : Int) (h0 : 0 ≤ size) (hf0 : 0 ≤ factor)
    (h : size * factor < 2 ^ 63) :
    (priceTerm size factor : Int) = size * factor / 100 := by
  have hx : 0 ≤ size * factor := Int.mul_nonneg h0 hf0
  unfold priceTerm toUInt64 toInt64
  generalize size * factor = x at *
  omega

theorem addPrices_cast (factor : Int) (hf : factor = 100 ∨ factor = 200) (sum : Nat)
    (fi : UpdateFileInfo) (h0 : 0 ≤ fi.FileSize) (h : fi.FileSize * 230 < 2 ^ 63) :
    ((addPrices factor sum fi : Nat) : Int)
      = (sum + fi.FileSize * (factor + RemoveBackupPrice) / 100) % 2 ^ 64 := by
  have ha : (priceTerm fi.FileSize factor : Int) = fi.FileSize * factor / 100 := by
    apply priceTerm_eq _ _ h0
    · rcases hf with hf | hf <;> omega
    · rcases hf with hf | hf <;> subst hf <;> omega
  have hb : (priceTerm fi.FileSize RemoveBackupPrice : Int)
      = fi.FileSize * RemoveBackupPrice / 100 := by
    apply priceTerm_eq _ _ h0
    · decide
    · simp only [RemoveBackupPrice]; omega
  unfold addPrices
  simp only [RemoveBackupPrice] at hb ⊢
  push_cast
  rw [ha, hb]
  have hsplit : fi.FileSize * (factor + 30) / 100
      = fi.FileSize * factor / 100 + fi.FileSize * 30 / 100 := by
    rcases hf with hf | hf <;> subst hf <;> omega
  rw [hsplit]
  have ha0 : 0 ≤ fi.FileSize * factor / 100 := by
    rcases hf with hf | hf <;> subst hf <;> omega
  have hb0 : 0 ≤ fi.FileSize * 30 / 100 := by omega
  generalize fi.FileSize * factor / 100 = a at *
  generalize fi.FileSize * 30 / 100 = b at *
  omega

theorem addPrices_lt (factor : Int) (sum : Nat) (fi : UpdateFileInfo) :
    addPrices factor sum fi < 2 ^ 64 := by
  unfold addPrices
  exact Nat.mod_lt _ (by norm_num)

theorem foldl_addPrices_cast (factor : Int) (hf : factor = 100 ∨ factor = 200) :
    ∀ (l : List UpdateFileInfo) (sum : Nat), sum < 2 ^ 64 →
      (∀ fi ∈ l, 0 ≤ fi.FileSize ∧ fi.FileSize * 230 < 2 ^ 63) →
      ((l.foldl (addPrices factor) sum : Nat) : Int)
        = (sum + (l.map (fun fi => fi.FileSize * (factor + RemoveBackupPrice) / 100)).sum)
            % 2 ^ 64 := by
  intro l
  induction l with
  | nil =>
    intro sum hsum _
    simp only [List.foldl_nil, List.map_nil, List.sum_nil, add_zero]
    omega
  | cons fi rest ih =>
    intro sum hsum h
    have hfi := h fi (List.mem_cons_self _ _)
    have hrest : ∀ x ∈ rest, 0 ≤ x.FileSize ∧ x.FileSize * 230 < 2 ^ 63 :=
      fun x hx => h x (List.mem_cons_of_mem _ hx)
    rw [List.foldl_cons, ih _ (addPrices_lt _ _ _) hrest,
      addPrices_cast factor hf sum fi hfi.1 hfi.2]
    simp only [List.map_cons, List.sum_cons]
    omega

theorem addPriceOnly_cast (sum : Nat) (fi : UpdateFileInfo) (h0 : 0 ≤ fi.FileSize)
    (h : fi.FileSize * 230 < 2 ^ 63) :
    ((addPriceOnly sum fi : Nat) : Int) = (sum + fi.FileSize * AddFactor / 100) % 2 ^ 64 := by
  have ha : (priceTerm fi.FileSize AddFactor : Int) = fi.FileSize * AddFactor / 100 := by
    apply priceTerm_eq _ _ h0
    · decide
    · simp only [AddFactor, CopyPrice]; omega
  unfold addPriceOnly
  push_cast
  rw [ha]

theorem foldl_addPriceOnly_cast :
    ∀ (l : List UpdateFileInfo) (sum : Nat), sum < 2 ^ 64 →
      (∀ fi ∈ l, 0 ≤ fi.FileSize ∧ fi.FileSize * 230 < 2 ^ 63) →
      ((l.foldl addPriceOnly sum : Nat) : Int)
        = (sum + (l.map (fun fi => fi.FileSize * AddFactor / 100)).sum) % 2 ^ 64 := by
  intro l
  induction l with
  | nil =>
    intro sum hsum _
    simp only [List.foldl_nil, List.map_nil, List.sum_nil, add_zero]
    omega
  | cons fi rest ih =>
    intro sum hsum h
    have hfi := h fi (List.mem_cons_self _ _)
    have hrest : ∀ x ∈ rest, 0 ≤ x.FileSize ∧ x.FileSize * 230 < 2 ^ 63 :=
      fun x hx => h x (List.mem_cons_of_mem _ hx)
    have hlt : addPriceOnly sum fi < 2 ^ 64 := by
      unfold addPriceOnly
      exact Nat.mod_lt _ (by norm_num)
    rw [List.foldl_cons, ih _ hlt hrest, addPriceOnly_cast sum fi hfi.1 hfi.2]
    simp only [List.map_cons, List.sum_cons]
    omega

theorem foldl_addPrices_lt (factor : Int) :
    ∀ (l : List UpdateFileInfo) (sum : Nat), sum < 2 ^ 64 →
      l.foldl (addPrices factor) sum < 2 ^ 64 := by
  intro l
  induction l with
  | nil => intro sum h; simpa using h
  | cons fi rest ih =>
    intro sum _
    rw [List.foldl_cons]
    exact ih _ (addPrices_lt _ _ _)

/-- The code's grand total is the specification's total reduced modulo `2^64`. -/
theorem calculateGrandTotals_mod (d : DiffResult) (h : sizesInRange d) :
    (calculateGrandTotals d : Int) = grandTotalSpec d % 2 ^ 64 := by
  have hr : ∀ fi ∈ d.filesToRemove, 0 ≤ fi.FileSize ∧ fi.FileSize * 230 < 2 ^ 63 :=
    fun fi hfi => h fi (by simp [hfi])
  have hu : ∀ fi ∈ d.filesToUpdate, 0 ≤ fi.FileSize ∧ fi.FileSize * 230 < 2 ^ 63 :=
    fun fi hfi => h fi (by simp [hfi])
  have ha : ∀ fi ∈ d.filesToAdd, 0 ≤ fi.FileSize ∧ fi.FileSize * 230 < 2 ^ 63 :=
    fun fi hfi => h fi (by simp [hfi])
  have h0 : (0 : Nat) < 2 ^ 64 := by norm_num
  have h1 := foldl_addPrices_cast RemoveFactor (Or.inl rfl) d.filesToRemove 0 h0 hr
  have hlt1 := foldl_addPrices_lt RemoveFactor d.filesToRemove 0 h0
  have h2 := foldl_addPrices_cast UpdateFactor (Or.inr rfl) d.filesToUpdate _ hlt1 hu
  have hlt2 := foldl_addPrices_lt UpdateFactor d.filesToUpdate _ hlt1
  have h3 := foldl_addPriceOnly_cast d.filesToAdd _ hlt2 ha
  unfold calculateGrandTotals grandTotalSpec
  simp only []
  rw [h3, h2, h1]
  generalize (d.filesToRemove.map
    (fun fi => fi.FileSize * (RemoveFactor + RemoveBackupPrice) / 100)).sum = x
  generalize (d.filesToUpdate.map
    (fun fi => fi.FileSize * (UpdateFactor + RemoveBackupPrice) / 100)).sum = y
  generalize (d.filesToAdd.map (fun fi => fi.FileSize * AddFactor / 100)).sum = z
  push_cast
  omega

/-- C8 (amended): for sizes in range and a total below `2^64`, `calculateGrandTotals`
returns the specification's sum of one floor division per file. -/
theorem calculateGrandTotals_eq_spec (d : DiffResult) (h : sizesInRange d)
    (htotal : grandTotalSpec d < 2 ^ 64) :
    (calculateGrandTotals d : Int) = grandTotalSpec d := by
  rw [calculateGrandTotals_mod d h]
  have hnn : 0 ≤ grandTotalSpec d % 2 ^ 64 := Int.emod_nonneg _ (by norm_num)
  have hterm : ∀ (l : List UpdateFileInfo) (c : Int), 0 ≤ c →
      (∀ fi ∈ l, 0 ≤ fi.FileSize ∧ fi.FileSize * 230 < 2 ^ 63) →
      0 ≤ (l.map (fun fi => fi.FileSize * c / 100)).sum := by
    intro l c hc hl
    apply List.sum_nonneg
    intro x hx
    obtain ⟨fi, hfi, rfl⟩ := List.mem_map.mp hx
    exact Int.ediv_nonneg (Int.mul_nonneg (hl fi hfi).1 hc) (by norm_num)
  have : 0 ≤ grandTotalSpec d := by
    unfold grandTotalSpec
    have hr := hterm d.filesToRemove (RemoveFactor + RemoveBackupPrice) (by decide)
      (fun fi hfi => h fi (by simp [hfi]))
    have hu := hterm d.filesToUpdate (UpdateFactor + RemoveBackupPrice) (by decide)
      (fun fi hfi => h fi (by simp [hfi]))
    have ha := hterm d.filesToAdd AddFactor (by decide) (fun fi hfi => h fi (by simp [hfi]))
    omega
  omega

/-- C8 (amended) on a concrete diff with one file per list. -/
theorem calculateGrandTotals_eq_spec_witness :
    sizesInRange smallDiff ∧ grandTotalSpec smallDiff < 2 ^ 64
      ∧ (calculateGrandTotals smallDiff : Int) = grandTotalSpec smallDiff :=
  ⟨by decide, by decide, calculateGrandTotals_eq_spec smallDiff (by decide) (by decide)⟩

set_option maxRecDepth 100000 in
/-- C8 (as stated) fails: on 201 files of 40101617551542503 bytes to update every
`size*230` is inside `int64`, yet the `uint64` accumulator wraps and the result is not
the specified sum. -/
theorem calculateGrandTotals_wraps :
    sizesInRange hugeDiff
      ∧ (calculateGrandTotals hugeDiff : Int) ≠ grandTotalSpec hugeDiff
      ∧ calculateGrandTotals hugeDiff = 92233720368547340
      ∧ grandTotalSpec hugeDiff = 18538977794078098956 := by
  decide

/-! ## Reporting loop -/

theorem reportChunk_exact (pr : ProgressReporter) (t : Int) (hg : pr.grandTotal ≠ 0)
    (ht : 0 ≤ t) (hsum : ((pr.currentProgress : Int) + t) * 100 < 2 ^ 64)
    (hpct : ((pr.currentProgress : Int) + t) * 100 / (pr.grandTotal : Int) < 2 ^ 63) :
    reportChunk pr t = some { pr with
      currentProgress := pr.currentProgress + t.toNat
      percent := ((pr.currentProgress : Int) + t) * 100 / (pr.grandTotal : Int)
      handled :=
        if ((pr.currentProgress : Int) + t) * 100 / (pr.grandTotal : Int) > pr.percent
        then pr.handled ++ [((pr.currentProgress : Int) + t) * 100 / (pr.grandTotal : Int)]
        else pr.handled } := by
  have hcur : (pr.currentProgress + toUInt64 t) % 2 ^ 64 = pr.currentProgress + t.toNat := by
    unfold toUInt64
    omega
  have hpos : 0 ≤ ((pr.currentProgress : Int) + t) * 100 / (pr.grandTotal : Int) :=
    Int.ediv_nonneg (by omega) (by omega)
  have hp : toInt64 (Int.ofNat (((pr.currentProgress + t.toNat) * 100 % 2 ^ 64)
      / pr.grandTotal)) = ((pr.currentProgress : Int) + t) * 100 / (pr.grandTotal : Int) := by
    have h1 : (Int.ofNat (((pr.currentProgress + t.toNat) * 100 % 2 ^ 64)
        / pr.grandTotal)) = ((pr.currentProgress : Int) + t) * 100 / (pr.grandTotal : Int) := by
      rw [Int.ofNat_eq_coe]
      push_cast
      congr 1
      omega
    rw [h1]
    unfold toInt64
    omega
  unfold reportChunk
  rw [if_neg hg]
  simp only [hcur, hp, decide_eq_true_eq]

theorem reportChunks_sorted (g : Nat) (hg : g ≠ 0) :
    ∀ (ticks : List Int) (pr : ProgressReporter), pr.grandTotal = g →
      (∀ t ∈ ticks, 0 ≤ t) →
      ((pr.currentProgress : Int) + ticks.sum) * 100 < 2 ^ 64 →
      ((pr.currentProgress : Int) + ticks.sum) * 100 / (g : Int) < 2 ^ 63 →
      pr.percent ≤ (pr.currentProgress : Int) * 100 / (g : Int) →
      pr.handled.Pairwise (· < ·) →
      (∀ x ∈ pr.handled, x ≤ pr.percent) →
      ∃ pr1, reportChunks pr ticks = some pr1 ∧ pr1.handled.Pairwise (· < ·) := by
  intro ticks
  induction ticks with
  | nil =>
    intro pr _ _ _ _ _ hs _
    exact ⟨pr, rfl, hs⟩
  | cons t rest ih =>
    intro pr hgt hnn hsum hpct hle hs hb
    have ht : 0 ≤ t := hnn t (List.mem_cons_self _ _)
    have hrest : ∀ x ∈ rest, 0 ≤ x := fun x hx => hnn x (List.mem_cons_of_mem _ hx)
    have hrs : 0 ≤ rest.sum := List.sum_nonneg hrest
    rw [List.sum_cons] at hsum hpct
    have hgpos : (0 : Int) < (g : Int) := by omega
    have hmono : ((pr.currentProgress : Int) + t) * 100 / (g : Int)
        ≤ ((pr.currentProgress : Int) + (t + rest.sum)) * 100 / (g : Int) :=
      Int.ediv_le_ediv hgpos (by omega)
    have hmono0 : (pr.currentProgress : Int) * 100 / (g : Int)
        ≤ ((pr.currentProgress : Int) + t) * 100 / (g : Int) :=
      Int.ediv_le_ediv hgpos (by omega)
    have hstep := reportChunk_exact pr t (by rw [hgt]; exact hg) ht (by omega)
      (by rw [hgt]; omega)
    rw [hgt] at hstep
    simp only [reportChunks, hstep]
    apply ih
    · rfl
    · exact hrest
    · simp only []; push_cast; rw [Int.toNat_of_nonneg ht]; omega
    · simp only []; push_cast; rw [Int.toNat_of_nonneg ht]
      rw [add_assoc]; exact hpct
    · simp only []; push_cast; rw [Int.toNat_of_nonneg ht]
    · simp only []
      split
      · rename_i hgt2
        rw [List.pairwise_append]
        refine ⟨hs, List.pairwise_singleton _ _, ?_⟩
        intro a ha b hb2
        rw [List.mem_singleton] at hb2
        subst hb2
        exact lt_of_le_of_lt (hb a ha) hgt2
      · exact hs
    · simp only []
      split
      · rename_i hgt2
        intro x hx
        rw [List.mem_append, List.mem_singleton] at hx
        rcases hx with hx | hx
        · exact le_of_lt (lt_of_le_of_lt (hb x hx) hgt2)
        · exact le_of_eq hx
      · intro x hx
        exact le_trans (hb x hx) (le_trans hle hmono0)

/-- C7 (amended): for a non-zero grand total and non-negative ticks whose sum times
100 stays below `2^64` and whose final percent stays below `2^63`, `reportingLoop`
consumes every tick and hands `HandlePercentChange` a strictly increasing sequence. -/
theorem reportingLoop_strictly_increasing (g : Nat) (ticks : List Int) (hg : g ≠ 0)
    (hnn : ∀ t ∈ ticks, 0 ≤ t) (hsum : ticks.sum * 100 < 2 ^ 64)
    (hint : ticks.sum * 100 / (g : Int) < 2 ^ 63) :
    ∃ pr1, (ProgressReporter.start g ticks).reportingLoop = some pr1
      ∧ pr1.handled.Pairwise (· < ·) := by
  unfold ProgressReporter.reportingLoop
  apply reportChunks_sorted g hg ticks _ rfl hnn
  · simpa [ProgressReporter.start, ProgressReporter.new] using hsum
  · simpa [ProgressReporter.start, ProgressReporter.new] using hint
  · simp [ProgressReporter.start, ProgressReporter.new]
  · simp [ProgressReporter.start, ProgressReporter.new]
  · simp [ProgressReporter.start, ProgressReporter.new]

/-- C7 (amended) on grand total 10 and the ticks 1, 2, 3. -/
theorem reportingLoop_strictly_increasing_witness :
    (10 : Nat) ≠ 0 ∧ (∀ t ∈ ([1, 2, 3] : List Int), 0 ≤ t)
      ∧ ([1, 2, 3] : List Int).sum * 100 < 2 ^ 64
      ∧ ([1, 2, 3] : List Int).sum * 100 / ((10 : Nat) : Int) < 2 ^ 63
      ∧ ∃ pr1, (ProgressReporter.start 10 [1, 2, 3]).reportingLoop = some pr1
          ∧ pr1.handled.Pairwise (· < ·) :=
  ⟨by decide, by decide, by decide, by decide,
    reportingLoop_strictly_increasing 10 [1, 2, 3] (by decide) (by decide) (by decide)
      (by decide)⟩

/-- C7 (as stated) fails: with grand total 1 the ticks `wrapTicks` are non-negative and
every running sum times 100 is below `2^64`, yet the conversion of the percent to `int`
wraps and the handler receives 100 and then a negative value. -/
theorem reportingLoop_not_increasing :
    (∀ t ∈ wrapTicks, 0 ≤ t) ∧ (∀ l ∈ wrapTicks.inits, l.sum * 100 < 2 ^ 64)
      ∧ (ProgressReporter.start 1 wrapTicks).reportingLoop.map (fun pr => pr.handled)
          = some [100, -9223372036854775616]
      ∧ ¬ ([100, -9223372036854775616] : List Int).Pairwise (· < ·) := by
  decide

/-- C6 fails on the code: removing the one-byte file `x` has grand total 1, `Install`
succeeds, and the handler receives 100 and then 3100; the percent ends at 3100. -/
theorem Install_percent_exceeds_100 :
    calculateGrandTotals oneByteRemoval = 1
      ∧ ((PackageInstaller.new oneByteTree.files false).Install (plainEnv [])
            oneByteRemoval).map
          (fun r => (r.1, r.2.progressReporter.percent, r.2.progressReporter.handled))
        = some (none, 3100, [100, 3100]) := by
  decide

/-! ## Diff engine -/

theorem sentToRemove_cons (e : String × Node) (rest package : Tree)
    (installHashes : String → String) (keepMissing : Bool) :
    sentToRemove (e :: rest) package installHashes keepMissing
      = sentToRemove [e] package installHashes keepMissing
        ++ sentToRemove rest package installHashes keepMissing := by
  unfold sentToRemove
  cases keepMissing
  · simp only [Bool.false_eq_true, if_false, List.filter_cons, List.filter_nil]
    split <;> simp
  · simp

theorem sentToUpdate_cons (e : String × Node) (rest package : Tree)
    (installHashes packageHashes : String → String) (forceUpdate : Bool) :
    sentToUpdate (e :: rest) package installHashes packageHashes forceUpdate
      = sentToUpdate [e] package installHashes packageHashes forceUpdate
        ++ sentToUpdate rest package installHashes packageHashes forceUpdate := by
  unfold sentToUpdate
  rw [List.filterMap_cons, List.filterMap_cons, List.filterMap_nil]
  split <;> simp

theorem sentToAdd_cons (e : String × Node) (rest install : Tree)
    (packageHashes : String → String) :
    sentToAdd install (e :: rest) packageHashes
      = sentToAdd install [e] packageHashes ++ sentToAdd install rest packageHashes := by
  unfold sentToAdd
  simp only [List.filter_cons, List.filter_nil]
  split <;> simp

/-- One classification of `findFilesToRemoveOrUpdate`. -/
theorem removeOrUpdateVisit_eq (package : Tree) (df : DiffGenerator) (e : String × Node) :
    DiffGenerator.removeOrUpdateVisit package df e
      = if dereferencesNil package df.installDirHashes df.packageDirHashes df.forceUpdate e
        then none
        else some { df with
          filesToRemove := df.filesToRemove
            ++ sentToRemove [e] package df.installDirHashes df.keepMissing
          filesToUpdate := df.filesToUpdate
            ++ sentToUpdate [e] package df.installDirHashes df.packageDirHashes
                df.forceUpdate } := by
  obtain ⟨p, node⟩ := e
  obtain ⟨ih, ph, km, fu, fa, fr, fup⟩ := df
  unfold DiffGenerator.removeOrUpdateVisit dereferencesNil sentToRemove sentToUpdate
  simp only []
  cases hreg : node.isRegular
  · simp only [hreg, Bool.not_false, if_true, Bool.false_and, Bool.false_eq_true, if_false,
      List.filter_cons, List.filter_nil, List.map_nil, ite_self, List.append_nil,
      List.filterMap_cons, List.filterMap_nil, false_and]
    cases stat package p <;> simp
  · cases hst : stat package p with
    | notExist =>
      cases km <;> simp [hst, hreg]
    | ok pfi =>
      by_cases hc : ph p ≠ ih p ∨ fu = true
      · cases km <;> simp [hst, hreg, hc]
      · have hc2 : (ph p != ih p || fu) = false := by
          simp only [not_or, ne_eq, not_not, Bool.not_eq_true] at hc
          simp [hc.1, hc.2]
        cases km <;> simp [hst, hreg, hc, hc2]
    | failed =>
      by_cases hc : ph p ≠ ih p ∨ fu = true
      · have hc2 : (ph p != ih p || fu) = true := by
          rcases hc with hc | hc
          · simp [hc]
          · simp [hc]
        simp [hst, hc, hc2]
      · have hc2 : (ph p != ih p || fu) = false := by
          simp only [not_or, ne_eq, not_not, Bool.not_eq_true] at hc
          simp [hc.1, hc.2]
        cases km <;> simp [hst, hreg, hc, hc2]

theorem foldlM_removeOrUpdateVisit (package : Tree) :
    ∀ (install : Tree) (df : DiffGenerator),
      install.foldlM (DiffGenerator.removeOrUpdateVisit package) df
        = if install.any (dereferencesNil package df.installDirHashes df.packageDirHashes
              df.forceUpdate) then none
          else some { df with
            filesToRemove := df.filesToRemove
              ++ sentToRemove install package df.installDirHashes df.keepMissing
            filesToUpdate := df.filesToUpdate
              ++ sentToUpdate install package df.installDirHashes df.packageDirHashes
                  df.forceUpdate } := by
  intro install
  induction install with
  | nil =>
    intro df
    simp [sentToRemove, sentToUpdate]
  | cons e rest ih =>
    intro df
    rw [List.foldlM_cons, removeOrUpdateVisit_eq, List.any_cons, sentToRemove_cons e rest,
      sentToUpdate_cons e rest]
    cases hd : dereferencesNil package df.installDirHashes df.packageDirHashes
        df.forceUpdate e
    · simp only [Bool.false_eq_true, if_false, Option.bind_eq_bind, Option.some_bind,
        Bool.false_or]
      rw [ih]
      simp only [List.append_assoc]
    · simp

theorem foldl_addVisit (install : Tree) :
    ∀ (package : Tree) (df : DiffGenerator),
      let r := package.foldl (DiffGenerator.addVisit install) df
      r.filesToAdd = df.filesToAdd ++ sentToAdd install package df.packageDirHashes
      ∧ r.filesToRemove = df.filesToRemove ∧ r.filesToUpdate = df.filesToUpdate
      ∧ r.packageDirHashes = df.packageDirHashes := by
  intro package
  induction package with
  | nil =>
    intro df
    simp [sentToAdd]
  | cons e rest ih =>
    intro df
    simp only [List.foldl_cons]
    obtain ⟨h1, h2, h3, h4⟩ := ih (DiffGenerator.addVisit install df e)
    simp only [h1, h2, h3, h4]
    rw [sentToAdd_cons e rest]
    obtain ⟨p, node⟩ := e
    unfold DiffGenerator.addVisit sentToAdd
    cases hreg : node.isRegular
    · simp [hreg]
    · cases hst : stat install p <;> simp [hreg, hst]

/-- The model of `GenerateDiffs` dies when a classification dereferences the nil
`FileInfo` and returns the three lists sent to the queues otherwise. -/
theorem GenerateDiffs_eq (install package : Tree)
    (installHashes packageHashes : String → String) (keepMissing forceUpdate : Bool) :
    GenerateDiffs install package installHashes packageHashes keepMissing forceUpdate
      = if install.any (dereferencesNil package installHashes packageHashes forceUpdate)
        then none
        else some
          { filesToAdd := sentToAdd install package packageHashes
            filesToRemove := sentToRemove install package installHashes keepMissing
            filesToUpdate :=
              sentToUpdate install package installHashes packageHashes forceUpdate } := by
  unfold GenerateDiffs DiffGenerator.findFilesToAdd DiffGenerator.findFilesToRemoveOrUpdate
  simp only []
  rw [foldlM_removeOrUpdateVisit]
  simp only [List.nil_append]
  cases hany : install.any (dereferencesNil package installHashes packageHashes forceUpdate)
  · simp only [Bool.false_eq_true, if_false]
    have h2 := foldl_addVisit install package
      { installDirHashes := installHashes, packageDirHashes := packageHashes,
        keepMissing := keepMissing, forceUpdate := forceUpdate,
        filesToAdd := [],
        filesToRemove := sentToRemove install package installHashes keepMissing,
        filesToUpdate := sentToUpdate install package installHashes packageHashes
          forceUpdate }
    obtain ⟨b1, b2, b3, b4⟩ := h2
    simp only [b1, b2, b3, List.nil_append]
  · simp

theorem mem_sentToRemove (install package : Tree) (installHashes : String → String)
    (keepMissing : Bool) (u : UpdateFileInfo) :
    u ∈ sentToRemove install package installHashes keepMissing ↔
      keepMissing = false ∧ ∃ node, (u.Filepath, node) ∈ install ∧ node.isRegular = true
        ∧ stat package u.Filepath = StatResult.notExist
        ∧ u.Sha1 = installHashes u.Filepath ∧ u.FileSize = node.size := by
  unfold sentToRemove
  cases keepMissing
  · simp only [Bool.false_eq_true, if_false, List.mem_map, List.mem_filter, Bool.and_eq_true,
      beq_iff_eq, true_and, Prod.exists]
    constructor
    · rintro ⟨p, node, ⟨hmem, hreg, hst⟩, rfl⟩
      exact ⟨node, hmem, hreg, hst, rfl, rfl⟩
    · rintro ⟨node, hmem, hreg, hst, hsha, hsize⟩
      refine ⟨u.Filepath, node, ⟨hmem, hreg, hst⟩, ?_⟩
      cases u
      simp_all
  · simp

theorem mem_sentToUpdate (install package : Tree)
    (installHashes packageHashes : String → String) (forceUpdate : Bool) (u : UpdateFileInfo) :
    u ∈ sentToUpdate install package installHashes packageHashes forceUpdate ↔
      ∃ node pfi, (u.Filepath, node) ∈ install ∧ node.isRegular = true
        ∧ stat package u.Filepath = StatResult.ok pfi
        ∧ (packageHashes u.Filepath ≠ installHashes u.Filepath ∨ forceUpdate = true)
        ∧ u.Sha1 = installHashes u.Filepath ∧ u.FileSize = pfi.size := by
  unfold sentToUpdate
  simp only [List.mem_filterMap, Prod.exists]
  constructor
  · rintro ⟨p, node, hmem, h⟩
    cases hst : stat package p with
    | notExist => simp [hst] at h
    | failed => simp [hst] at h
    | ok pfi =>
      simp only [hst] at h
      split at h
      · rename_i hc
        simp only [Option.some.injEq] at h
        subst h
        simp only [Bool.and_eq_true, Bool.or_eq_true, bne_iff_ne, ne_eq] at hc
        exact ⟨node, pfi, hmem, hc.1, hst, hc.2, rfl, rfl⟩
      · simp at h
  · rintro ⟨node, pfi, hmem, hreg, hst, hc, hsha, hsize⟩
    refine ⟨u.Filepath, node, hmem, ?_⟩
    simp only [hst]
    have : (node.isRegular && (packageHashes u.Filepath != installHashes u.Filepath
        || forceUpdate)) = true := by
      simp only [Bool.and_eq_true, Bool.or_eq_true, bne_iff_ne, ne_eq]
      exact ⟨hreg, hc⟩
    rw [if_pos this]
    cases u
    simp_all

theorem mem_sentToAdd (install package : Tree) (packageHashes : String → String)
    (u : UpdateFileInfo) :
    u ∈ sentToAdd install package packageHashes ↔
      ∃ node, (u.Filepath, node) ∈ package ∧ node.isRegular = true
        ∧ stat install u.Filepath = StatResult.notExist
        ∧ u.Sha1 = packageHashes u.Filepath ∧ u.FileSize = node.size := by
  unfold sentToAdd
  simp only [List.mem_map, List.mem_filter, Bool.and_eq_true, beq_iff_eq, Prod.exists]
  constructor
  · rintro ⟨p, node, ⟨hmem, hreg, hst⟩, rfl⟩
    exact ⟨node, hmem, hreg, hst, rfl, rfl⟩
  · rintro ⟨node, hmem, hreg, hst, hsha, hsize⟩
    refine ⟨u.Filepath, node, ⟨hmem, hreg, hst⟩, ?_⟩
    cases u
    simp_all

theorem lookup_of_mem (t : Tree) (p : String) (node : Node) (h : (p, node) ∈ t) :
    t.lookup p ≠ none := by
  induction t with
  | nil => simp at h
  | cons e rest ih =>
    obtain ⟨q, n⟩ := e
    unfold Tree.lookup
    by_cases hq : q = p
    · simp [hq]
    · simp only [hq, if_false]
      apply ih
      rcases List.mem_cons.mp h with h | h
      · exact absurd (congrArg Prod.fst h).symm hq
      · exact h

/-- The path of an entry of the tree is not reported as not existing. -/
theorem stat_of_mem (t : Tree) (p : String) (node : Node) (h : (p, node) ∈ t) :
    stat t p ≠ StatResult.notExist := by
  unfold stat
  split
  · exact fun hc => StatResult.noConfusion hc
  · cases hl : t.lookup p with
    | none => exact absurd hl (lookup_of_mem t p node h)
    | some n => exact fun hc => StatResult.noConfusion hc

/-- Where `os.Stat` does not fail with another error it answers as the tree has the
path or not. -/
theorem stat_eq_of_not_failed (t : Tree) (p : String) (h : stat t p ≠ StatResult.failed) :
    stat t p = match t.lookup p with
      | some node => StatResult.ok node
      | none => StatResult.notExist := by
  unfold stat at h ⊢
  split
  · rename_i hb
    rw [if_pos hb] at h
    exact absurd rfl h
  · rfl

/-- Where no `os.Stat` of the two walks fails with an error other than not-exist,
`GenerateDiffs` returns the three reference lists. -/
theorem GenerateDiffs_classification (install package : Tree)
    (installHashes packageHashes : String → String) (keepMissing forceUpdate : Bool)
    (hI : ∀ e ∈ install, e.2.isRegular = true → stat package e.1 ≠ StatResult.failed)
    (hP : ∀ e ∈ package, e.2.isRegular = true → stat install e.1 ≠ StatResult.failed) :
    GenerateDiffs install package installHashes packageHashes keepMissing forceUpdate
      = some
          { filesToAdd := referenceAdd install package packageHashes
            filesToRemove := referenceRemove install package installHashes keepMissing
            filesToUpdate :=
              referenceUpdate install package installHashes packageHashes forceUpdate } := by
  rw [GenerateDiffs_eq]
  have hany : install.any (dereferencesNil package installHashes packageHashes forceUpdate)
      = false := by
    rw [List.any_eq_false]
    intro e he
    unfold dereferencesNil
    cases hreg : e.2.isRegular
    · simp
    · have := hI e he hreg
      simp [this]
  rw [hany]
  simp only [Bool.false_eq_true, if_false, Option.some.injEq, DiffResult.mk.injEq]
  refine ⟨?_, ?_, ?_⟩
  · unfold sentToAdd referenceAdd
    congr 1
    apply List.filter_congr
    intro e he
    cases hreg : e.2.isRegular
    · simp
    · rw [stat_eq_of_not_failed _ _ (hP e he hreg)]
      cases install.lookup e.1 <;> simp
  · unfold sentToRemove referenceRemove
    congr 2
    apply List.filter_congr
    intro e he
    cases hreg : e.2.isRegular
    · simp
    · rw [stat_eq_of_not_failed _ _ (hI e he hreg)]
      cases package.lookup e.1 <;> simp
  · unfold sentToUpdate referenceUpdate
    apply List.filterMap_congr
    intro e he
    cases hreg : e.2.isRegular
    · cases stat package e.1 <;> cases package.lookup e.1 <;> simp
    · rw [stat_eq_of_not_failed _ _ (hI e he hreg)]
      cases package.lookup e.1 with
      | none => rfl
      | some pfi =>
        simp only [Bool.true_and, Bool.or_eq_true, bne_iff_ne, ne_eq]
        by_cases hh : packageHashes e.1 = installHashes e.1
        · simp [hh]
        · have hh2 : ¬ installHashes e.1 = packageHashes e.1 := fun h => hh h.symm
          simp [hh, hh2]

/-- C5: no relative path occurs in two of the three lists that `GenerateDiffs`
returns. -/
theorem GenerateDiffs_disjoint (install package : Tree)
    (installHashes packageHashes : String → String) (keepMissing forceUpdate : Bool)
    (d : DiffResult)
    (hd : GenerateDiffs install package installHashes packageHashes keepMissing forceUpdate
      = some d) :
    (∀ a ∈ d.filesToAdd, ∀ u ∈ d.filesToUpdate, a.Filepath ≠ u.Filepath)
    ∧ (∀ a ∈ d.filesToAdd, ∀ r ∈ d.filesToRemove, a.Filepath ≠ r.Filepath)
    ∧ (∀ u ∈ d.filesToUpdate, ∀ r ∈ d.filesToRemove, u.Filepath ≠ r.Filepath) := by
  rw [GenerateDiffs_eq] at hd
  split at hd
  · exact Option.noConfusion hd
  · simp only [Option.some.injEq] at hd
    subst hd
    refine ⟨?_, ?_, ?_⟩
    · intro a ha u hu hEq
      obtain ⟨_, _, _, hst, _⟩ := (mem_sentToAdd _ _ _ a).mp ha
      obtain ⟨node, _, hmem, _⟩ := (mem_sentToUpdate _ _ _ _ _ u).mp hu
      rw [hEq] at hst
      exact stat_of_mem install _ node hmem hst
    · intro a ha r hr hEq
      obtain ⟨_, _, _, hst, _⟩ := (mem_sentToAdd _ _ _ a).mp ha
      obtain ⟨_, node, hmem, _⟩ := (mem_sentToRemove _ _ _ _ r).mp hr
      rw [hEq] at hst
      exact stat_of_mem install _ node hmem hst
    · intro u hu r hr hEq
      obtain ⟨_, pfi, _, _, hst, _⟩ := (mem_sentToUpdate _ _ _ _ _ u).mp hu
      obtain ⟨_, _, _, _, hst2, _⟩ := (mem_sentToRemove _ _ _ _ r).mp hr
      rw [hEq, hst2] at hst
      exact StatResult.noConfusion hst

/-- C5 on `mixedInstall` and `mixedPackage`, whose diff has a file in each list. -/
theorem GenerateDiffs_disjoint_witness :
    GenerateDiffs mixedInstall mixedPackage (CalculateHashes id mixedInstall)
        (CalculateHashes id mixedPackage) false false = some mixedDiff
    ∧ ((∀ a ∈ mixedDiff.filesToAdd, ∀ u ∈ mixedDiff.filesToUpdate, a.Filepath ≠ u.Filepath)
      ∧ (∀ a ∈ mixedDiff.filesToAdd, ∀ r ∈ mixedDiff.filesToRemove,
          a.Filepath ≠ r.Filepath)
      ∧ (∀ u ∈ mixedDiff.filesToUpdate, ∀ r ∈ mixedDiff.filesToRemove,
          u.Filepath ≠ r.Filepath)) :=
  ⟨by decide, GenerateDiffs_disjoint mixedInstall mixedPackage (CalculateHashes id mixedInstall)
    (CalculateHashes id mixedPackage) false false mixedDiff (by decide)⟩

/-- C4: with `sub/b.txt` in the install tree and a regular file `sub` in the package
tree, `os.Stat` of the package path fails with an error that is not the not-exist
error, the digests differ, and `GenerateDiffs` dies on the nil `FileInfo`, while the
reference classification puts `sub/b.txt` into `to_remove`. With the trees exchanged
`GenerateDiffs` adds nothing, while the reference classification adds `sub/b.txt`. -/
theorem GenerateDiffs_dies_below_file :
    diffOf subDirTree subFileTree false false = none
    ∧ referenceRemove subDirTree subFileTree (CalculateHashes id subDirTree) false
        = [{ Filepath := "sub/b.txt", Sha1 := "B", FileSize := 1 }]
    ∧ (diffOf subFileTree subDirTree false false).map (fun d => d.filesToAdd) = some []
    ∧ referenceAdd subFileTree subDirTree (CalculateHashes id subDirTree)
        = [{ Filepath := "sub/b.txt", Sha1 := "B", FileSize := 1 }] := by
  decide

/-! ## Directory janitor -/

theorem length_pos_of_ne_empty (s : String) (h : s ≠ "") : 0 < s.length := by
  rcases s with ⟨l⟩
  cases l with
  | nil => exact absurd rfl h
  | cons c cs => simp [String.length]

theorem utf8ByteSize_append (a b : String) :
    (a ++ b).utf8ByteSize = a.utf8ByteSize + b.utf8ByteSize := by
  rcases a with ⟨l⟩
  rcases b with ⟨m⟩
  show String.utf8ByteSize ⟨l ++ m⟩ = _
  simp only [String.utf8ByteSize_mk, String.utf8Len_append]

theorem utf8ByteSize_pos_of_ne_empty (s : String) (h : s ≠ "") : 0 < s.utf8ByteSize := by
  rcases s with ⟨l⟩
  cases l with
  | nil => exact absurd rfl h
  | cons c cs =>
    simp only [String.utf8ByteSize_mk, String.utf8Len_cons]
    have := Char.utf8Size_pos c
    omega

theorem joinPath_length_gt (dir name : String) (hdir : dir ≠ ".") (hname : name ≠ "") :
    dir.utf8ByteSize < (joinPath dir name).utf8ByteSize := by
  have hn : 0 < name.utf8ByteSize := utf8ByteSize_pos_of_ne_empty name hname
  unfold joinPath
  rw [if_neg hdir]
  split
  · rename_i h
    subst h
    rw [utf8ByteSize_append]
    omega
  · rw [utf8ByteSize_append, utf8ByteSize_append]
    omega

theorem validName_ne (name : String) (h : validName name = true) :
    name ≠ "" ∧ name ≠ "." := by
  unfold validName at h
  simp only [Bool.and_eq_true, bne_iff_ne, ne_eq] at h
  exact ⟨h.1.1.1, h.1.1.2⟩

theorem path_ne_dot (e : DirEntry) (h : validName e.name = true) : e.path ≠ "." := by
  obtain ⟨h1, h2⟩ := validName_ne _ h
  unfold DirEntry.path joinPath
  split
  · exact h2
  · split
    · intro hc
      have := congrArg String.length hc
      rw [String.length_append] at this
      have hn : 0 < e.name.length := length_pos_of_ne_empty _ h1
      have h3 : ("/" : String).length = 1 := rfl
      have h4 : (".": String).length = 1 := rfl
      omega
    · intro hc
      have := congrArg String.length hc
      rw [String.length_append, String.length_append] at this
      have hn : 0 < e.name.length := length_pos_of_ne_empty _ h1
      have h3 : ("/" : String).length = 1 := rfl
      have h4 : (".": String).length = 1 := rfl
      omega

/-- A child entry of a directory entry has the longer path. -/
theorem child_path_longer (e c : DirEntry) (he : validName e.name = true)
    (hc : validName c.name = true) (hpar : c.parent = e.path) :
    e.path.utf8ByteSize < c.path.utf8ByteSize := by
  have h := joinPath_length_gt e.path c.name (path_ne_dot e he) (validName_ne _ hc).1
  unfold DirEntry.path at h ⊢
  rw [hpar]
  exact h

theorem hasDir_of_mem (t : DirTree) (e : DirEntry) (he : e ∈ t.entries)
    (hd : e.isDir = true) : t.hasDir e.path = true := by
  unfold DirTree.hasDir
  simp only [Bool.or_eq_true, List.any_eq_true, Bool.and_eq_true, beq_iff_eq]
  exact Or.inr ⟨e, he, hd, rfl⟩

theorem removeEmptyDirsLoop_settled :
    ∀ (rest : List String) (t : DirTree),
      (∀ e ∈ t.entries, validName e.name = true) →
      rest.Pairwise (fun a b => byLengthLess b a = false) →
      Settled t rest →
      Settled (removeEmptyDirsLoop t rest) [] := by
  intro rest
  induction rest with
  | nil =>
    intro t _ _ h
    exact h
  | cons x rest ih =>
    intro t hv hs hset
    have hsorted := List.pairwise_cons.mp hs
    have hle : ∀ y ∈ rest, y.utf8ByteSize ≤ x.utf8ByteSize := by
      intro y hy
      have := hsorted.1 y hy
      unfold byLengthLess at this
      simpa using this
    unfold removeEmptyDirsLoop
    cases hrd : t.readDir x with
    | none =>
      simp only []
      apply ih t hv hsorted.2
      intro e he hd
      rcases hset e he hd with h | ⟨c, hc, hpar, hst⟩
      · rcases List.mem_cons.mp h with h | h
        · exfalso
          have := hasDir_of_mem t e he hd
          unfold DirTree.readDir at hrd
          rw [h] at this
          simp [this] at hrd
        · exact Or.inl h
      · exact Or.inr ⟨c, hc, hpar, fun hcd hm => hst hcd (List.mem_cons_of_mem _ hm)⟩
    | some entries =>
      simp only []
      have hentries : entries = t.entries.filter (fun e => e.parent == x) := by
        unfold DirTree.readDir at hrd
        split at hrd
        · exact (Option.some.inj hrd).symm
        · exact Option.noConfusion hrd
      split
      · rename_i hlen
        have hempty : ∀ c ∈ t.entries, c.parent ≠ x := by
          intro c hc hp
          have : c ∈ entries := by
            rw [hentries]
            exact List.mem_filter.mpr ⟨hc, by simpa using hp⟩
          rw [List.length_eq_zero.mp hlen] at this
          exact List.not_mem_nil _ this
        have hsub : ∀ e ∈ (t.removeDir x).entries,
            e ∈ t.entries ∧ ¬ (e.isDir = true ∧ e.path = x) := by
          intro e he
          unfold DirTree.removeDir at he
          simp only [List.mem_filter, Bool.not_eq_true', Bool.and_eq_false_imp,
            beq_eq_false_iff_ne] at he
          exact ⟨he.1, fun h => he.2 h.1 h.2⟩
        apply ih (t.removeDir x) (fun e he => hv e (hsub e he).1) hsorted.2
        intro e he hd
        obtain ⟨he1, he2⟩ := hsub e he
        rcases hset e he1 hd with h | ⟨c, hc, hpar, hst⟩
        · rcases List.mem_cons.mp h with h | h
          · exact absurd ⟨hd, h⟩ he2
          · exact Or.inl h
        · refine Or.inr ⟨c, ?_, hpar, fun hcd hm => hst hcd (List.mem_cons_of_mem _ hm)⟩
          unfold DirTree.removeDir
          simp only [List.mem_filter, Bool.not_eq_true', Bool.and_eq_false_imp, beq_eq_false_iff_ne]
          refine ⟨hc, fun hcd hcx => ?_⟩
          exact hst hcd (hcx ▸ List.mem_cons_self _ _)
      · rename_i hlen
        apply ih t hv hsorted.2
        intro e he hd
        rcases hset e he hd with h | ⟨c, hc, hpar, hst⟩
        · rcases List.mem_cons.mp h with h | h
          · right
            have hne : entries ≠ [] := fun h0 => hlen (by rw [h0]; rfl)
            obtain ⟨c, hc⟩ := List.exists_mem_of_ne_nil _ hne
            rw [hentries] at hc
            obtain ⟨hc1, hc2⟩ := List.mem_filter.mp hc
            have hpar : c.parent = e.path := by rw [h]; simpa using hc2
            refine ⟨c, hc1, hpar, fun _ hm => ?_⟩
            have h1 := child_path_longer e c (hv e he) (hv c hc1) hpar
            have h2 := hle _ hm
            rw [h] at h1
            omega
          · exact Or.inl h
        · exact Or.inr ⟨c, hc, hpar, fun hcd hm => hst hcd (List.mem_cons_of_mem _ hm)⟩

theorem sortsByLength_mergeSort : SortsByLength mergeSortByLength := by
  intro l
  refine ⟨List.mergeSort_perm _ _, ?_⟩
  have h := @List.sorted_mergeSort String
    (fun a b => decide (b.utf8ByteSize ≤ a.utf8ByteSize))
    (fun a b c hab hbc => by
      simp only [decide_eq_true_eq] at hab hbc ⊢
      omega)
    (fun a b => by
      simp only [Bool.or_eq_true, decide_eq_true_eq]
      omega) l
  unfold mergeSortByLength
  refine List.Pairwise.imp ?_ h
  intro a b hab
  unfold byLengthLess
  simp only [decide_eq_true_eq] at hab
  simp only [gt_iff_lt, decide_eq_false_iff_not, not_lt]
  exact hab

/-- C9: when the root exists and `sort` sorts by descending length in bytes, as
`sort.Sort(ByLength(dirs))` does, no directory below the root that remains after
`cleanupEmptyDirs` is empty: each still holds an entry. -/
theorem cleanupEmptyDirs_no_empty_dir (sort : List String → List String)
    (hsort : SortsByLength sort) (t : DirTree) (hroot : t.rootExists = true)
    (hnames : ∀ e ∈ t.entries, validName e.name = true) :
    ∀ e ∈ (cleanupEmptyDirs sort t).entries, e.isDir = true →
      ∃ c ∈ (cleanupEmptyDirs sort t).entries, c.parent = e.path := by
  have hfinal : Settled (cleanupEmptyDirs sort t) [] := by
    unfold cleanupEmptyDirs removeEmptyDirs
    apply removeEmptyDirsLoop_settled _ t hnames (hsort _).2
    intro e he hd
    left
    apply ((hsort _).1.mem_iff).mpr
    unfold DirTree.walkDirs
    rw [if_pos hroot]
    apply List.mem_cons_of_mem
    exact List.mem_map.mpr ⟨e, List.mem_filter.mpr ⟨he, hd⟩, rfl⟩
  intro e he hd
  rcases hfinal e he hd with h | ⟨c, hc, hpar, _⟩
  · exact absurd h (List.not_mem_nil _)
  · exact ⟨c, hc, hpar⟩

/-- C9 under merge sort, on a tree with a chain of three empty directories, a file, a
directory that holds a file, one more empty directory and an empty directory below one
with a name outside ASCII. -/
theorem cleanupEmptyDirs_no_empty_dir_witness :
    SortsByLength mergeSortByLength ∧ janitorTree.rootExists = true
      ∧ (∀ e ∈ janitorTree.entries, validName e.name = true)
      ∧ ∀ e ∈ (cleanupEmptyDirs mergeSortByLength janitorTree).entries, e.isDir = true →
          ∃ c ∈ (cleanupEmptyDirs mergeSortByLength janitorTree).entries, c.parent = e.path :=
  ⟨sortsByLength_mergeSort, rfl, by decide,
    cleanupEmptyDirs_no_empty_dir mergeSortByLength sortsByLength_mergeSort janitorTree rfl
      (by decide)⟩

theorem removeEmptyDirsLoop_root (rest : List String) (t : DirTree) :
    (removeEmptyDirsLoop t rest).root = t.root := by
  induction rest generalizing t with
  | nil => rfl
  | cons x rest ih =>
    unfold removeEmptyDirsLoop
    cases t.readDir x with
    | none => exact ih t
    | some entries =>
      simp only []
      split
      · rw [ih]
        rfl
      · exact ih t

theorem removeEmptyDirsLoop_rootSettled :
    ∀ (rest : List String) (t : DirTree),
      (∀ e ∈ t.entries, validName e.name = true) → t.root ≠ "." →
      t.rootRemovable = true →
      rest.Pairwise (fun a b => byLengthLess b a = false) →
      RootSettled t rest →
      RootSettled (removeEmptyDirsLoop t rest) [] := by
  intro rest
  induction rest with
  | nil =>
    intro t _ _ _ _ h
    exact h
  | cons x rest ih =>
    intro t hv hdot hrem hs hset
    have hsorted := List.pairwise_cons.mp hs
    have hle : ∀ y ∈ rest, y.utf8ByteSize ≤ x.utf8ByteSize := by
      intro y hy
      have := hsorted.1 y hy
      unfold byLengthLess at this
      simpa using this
    unfold removeEmptyDirsLoop
    cases hrd : t.readDir x with
    | none =>
      simp only []
      apply ih t hv hdot hrem hsorted.2
      intro hre
      rcases hset hre with h | ⟨c, hc, hpar, hst⟩
      · rcases List.mem_cons.mp h with h | h
        · exfalso
          unfold DirTree.readDir DirTree.hasDir at hrd
          rw [hre, ← h] at hrd
          simp at hrd
        · exact Or.inl h
      · exact Or.inr ⟨c, hc, hpar, fun hcd hm => hst hcd (List.mem_cons_of_mem _ hm)⟩
    | some entries =>
      simp only []
      have hentries : entries = t.entries.filter (fun e => e.parent == x) := by
        unfold DirTree.readDir at hrd
        split at hrd
        · exact (Option.some.inj hrd).symm
        · exact Option.noConfusion hrd
      split
      · rename_i hlen
        have hsub : ∀ e ∈ (t.removeDir x).entries,
            e ∈ t.entries ∧ ¬ (e.isDir = true ∧ e.path = x) := by
          intro e he
          unfold DirTree.removeDir at he
          simp only [List.mem_filter, Bool.not_eq_true', Bool.and_eq_false_imp,
            beq_eq_false_iff_ne] at he
          exact ⟨he.1, fun h => he.2 h.1 h.2⟩
        apply ih (t.removeDir x) (fun e he => hv e (hsub e he).1) hdot hrem hsorted.2
        intro hre
        have hre2 : t.rootExists = true ∧ x ≠ t.root := by
          unfold DirTree.removeDir at hre
          have hd : (t.root != ".") = true := by simpa using hdot
          simp only [hrem, hd, Bool.and_true, Bool.and_eq_true, Bool.not_eq_true',
            beq_eq_false_iff_ne, ne_eq] at hre
          exact hre
        rcases hset hre2.1 with h | ⟨c, hc, hpar, hst⟩
        · rcases List.mem_cons.mp h with h | h
          · exact absurd h.symm hre2.2
          · exact Or.inl h
        · refine Or.inr ⟨c, ?_, hpar, fun hcd hm => hst hcd (List.mem_cons_of_mem _ hm)⟩
          unfold DirTree.removeDir
          simp only [List.mem_filter, Bool.not_eq_true', Bool.and_eq_false_imp,
            beq_eq_false_iff_ne]
          exact ⟨hc, fun hcd hcx => hst hcd (hcx ▸ List.mem_cons_self _ _)⟩
      · rename_i hlen
        apply ih t hv hdot hrem hsorted.2
        intro hre
        rcases hset hre with h | ⟨c, hc, hpar, hst⟩
        · rcases List.mem_cons.mp h with h | h
          · right
            have hne : entries ≠ [] := fun h0 => hlen (by rw [h0]; rfl)
            obtain ⟨c, hc⟩ := List.exists_mem_of_ne_nil _ hne
            rw [hentries] at hc
            obtain ⟨hc1, hc2⟩ := List.mem_filter.mp hc
            have hpar : c.parent = t.root := by rw [h]; simpa using hc2
            refine ⟨c, hc1, hpar, fun _ hm => ?_⟩
            have h1 := joinPath_length_gt t.root c.name hdot (validName_ne _ (hv c hc1)).1
            have h2 := hle _ hm
            unfold DirEntry.path at h2
            rw [hpar, ← h] at h2
            omega
          · exact Or.inl h
        · exact Or.inr ⟨c, hc, hpar, fun hcd hm => hst hcd (List.mem_cons_of_mem _ hm)⟩

/-- The root itself: when its path is not `.` and its removal succeeds, a root that
remains after `cleanupEmptyDirs` still holds an entry. -/
theorem cleanupEmptyDirs_root_not_empty (sort : List String → List String)
    (hsort : SortsByLength sort) (t : DirTree) (hdot : t.root ≠ ".")
    (hrem : t.rootRemovable = true)
    (hnames : ∀ e ∈ t.entries, validName e.name = true)
    (hremains : (cleanupEmptyDirs sort t).rootExists = true) :
    ∃ c ∈ (cleanupEmptyDirs sort t).entries, c.parent = t.root := by
  have hfinal : RootSettled (cleanupEmptyDirs sort t) [] := by
    unfold cleanupEmptyDirs removeEmptyDirs
    apply removeEmptyDirsLoop_rootSettled _ t hnames hdot hrem (hsort _).2
    intro hre
    left
    apply ((hsort _).1.mem_iff).mpr
    unfold DirTree.walkDirs
    rw [if_pos hre]
    exact List.mem_cons_self _ _
  rcases hfinal hremains with h | ⟨c, hc, hpar, _⟩
  · exact absurd h (List.not_mem_nil _)
  · refine ⟨c, hc, ?_⟩
    rw [hpar]
    unfold cleanupEmptyDirs removeEmptyDirs
    exact removeEmptyDirsLoop_root _ _

/-- The root `.`: `os.Remove` fails on it, and it ties in length with a child of a
one-letter name, so a stable sort visits it before the child; once the child is removed
the root is left empty. -/
theorem cleanupEmptyDirs_dot_root_left_empty :
    cleanupEmptyDirs mergeSortByLength dotTree
      = { root := ".", rootExists := true, rootRemovable := false, entries := [] } := by
  have hsorted : mergeSortByLength [".", "a"] = [".", "a"] := by
    unfold mergeSortByLength
    apply List.mergeSort_of_sorted
    decide
  unfold cleanupEmptyDirs removeEmptyDirs
  have hwalk : dotTree.walkDirs = [".", "a"] := by decide
  rw [hwalk, hsorted]
  decide

/-! ## Applier: returned error, log and messages -/

theorem logged_refl (p : PackageInstaller) : p.Logged p false :=
  ⟨rfl, [], (List.append_nil _).symm, rfl⟩

theorem logged_trans {a b c : PackageInstaller} {x y : Bool} (h1 : a.Logged b x)
    (h2 : b.Logged c y) : a.Logged c (y || x) := by
  obtain ⟨f1, l1, e1, a1⟩ := h1
  obtain ⟨f2, l2, e2, a2⟩ := h2
  refine ⟨f1.trans f2, l2 ++ l1, ?_, ?_⟩
  · rw [e1, e2, List.append_assoc]
  · rw [List.any_append, a1, a2]

theorem logged_of_eq {a b : PackageInstaller} (hf : a.failInTheEnd = b.failInTheEnd)
    (hl : a.log = b.log) : a.Logged b false :=
  ⟨hf, [], by rw [hl, List.append_nil], rfl⟩

theorem logIf_fields (pi : PackageInstaller) (err : Option Error) (line : LogLine) :
    (pi.logIf err line).failInTheEnd = pi.failInTheEnd
    ∧ (pi.logIf err line).systemMessages = pi.systemMessages
    ∧ (pi.logIf err line).progressReporter = pi.progressReporter
    ∧ (pi.logIf err line).installFiles = pi.installFiles
    ∧ (pi.logIf err line).backups = pi.backups
    ∧ (pi.logIf err line).backupsChan = pi.backupsChan
    ∧ (pi.logIf err line).removeSelfPath = pi.removeSelfPath := by
  unfold PackageInstaller.logIf
  cases err <;> exact ⟨rfl, rfl, rfl, rfl, rfl, rfl, rfl⟩

theorem logIf_logged (pi : PackageInstaller) (err : Option Error) (line : LogLine) :
    (pi.logIf err line).Logged pi (err.isSome && line.isCopyFailure) := by
  unfold PackageInstaller.logIf
  cases err with
  | none => exact logged_refl pi
  | some e => exact ⟨rfl, [line], rfl, by simp⟩

theorem backupFile_fields (env : Env) (pi : PackageInstaller) (p : String) :
    (pi.backupFile env p).2.failInTheEnd = pi.failInTheEnd
    ∧ (pi.backupFile env p).2.systemMessages = pi.systemMessages
    ∧ (pi.backupFile env p).2.progressReporter = pi.progressReporter
    ∧ (pi.backupFile env p).2.removeSelfPath = pi.removeSelfPath
    ∧ (pi.backupFile env p).2.log = pi.log
    ∧ (pi.backupFile env p).2.backups = pi.backups := by
  unfold PackageInstaller.backupFile
  simp only []
  split <;> simp

theorem removeFiles_logged (env : Env) :
    ∀ (l : List UpdateFileInfo) (pi : PackageInstaller),
      (pi.removeFiles env l).1 = none
      ∧ (pi.removeFiles env l).2.Logged pi false
      ∧ (pi.removeFiles env l).2.systemMessages = pi.systemMessages := by
  intro l
  induction l with
  | nil => intro pi; exact ⟨rfl, logged_refl pi, rfl⟩
  | cons fi rest ih =>
    intro pi
    unfold PackageInstaller.removeFiles
    obtain ⟨b1, b2, _, _, b5, _⟩ := backupFile_fields env pi fi.Filepath
    cases hb : pi.backupFile env fi.Filepath with
    | mk err pi0 =>
      rw [hb] at b1 b2 b5
      simp only [] at b1 b2 b5 ⊢
      obtain ⟨l1, l2, _⟩ := logIf_fields pi0 err (.removeFailed fi.Filepath)
      have hlog := logIf_logged pi0 err (.removeFailed fi.Filepath)
      simp only [LogLine.isCopyFailure, Bool.and_false] at hlog
      obtain ⟨h1, h2, h3⟩ := ih { pi0.logIf err (.removeFailed fi.Filepath) with
        progressReporter :=
          (pi0.logIf err (.removeFailed fi.Filepath)).progressReporter.accountRemove
            fi.FileSize }
      refine ⟨h1, ?_, ?_⟩
      · have hstep : ({ pi0.logIf err (.removeFailed fi.Filepath) with
            progressReporter :=
              (pi0.logIf err (.removeFailed fi.Filepath)).progressReporter.accountRemove
                fi.FileSize } : PackageInstaller).Logged pi false := by
          have := logged_trans hlog (logged_of_eq b1 b5)
          exact ⟨this.1, this.2⟩
        exact logged_trans h2 hstep
      · rw [h3]
        show (pi0.logIf err (.removeFailed fi.Filepath)).systemMessages = _
        rw [l2, b2]

theorem updateFiles_logged (env : Env) :
    ∀ (l : List UpdateFileInfo) (pi : PackageInstaller),
      (pi.updateFiles env l).2.Logged pi (pi.updateFiles env l).1.isSome
      ∧ (pi.updateFiles env l).2.systemMessages = pi.systemMessages := by
  intro l
  induction l with
  | nil => intro pi; exact ⟨logged_refl pi, rfl⟩
  | cons fi rest ih =>
    intro pi
    unfold PackageInstaller.updateFiles
    obtain ⟨b1, b2, _, _, b5, _⟩ := backupFile_fields env pi fi.Filepath
    cases hb : pi.backupFile env fi.Filepath with
    | mk berr pi0 =>
      rw [hb] at b1 b2 b5
      simp only [] at b1 b2 b5 ⊢
      obtain ⟨l1, l2, _⟩ := logIf_fields pi0 berr (.backupFailed fi.Filepath)
      have hlog := logIf_logged pi0 berr (.backupFailed fi.Filepath)
      simp only [LogLine.isCopyFailure, Bool.and_false] at hlog
      have hpi1 : (pi0.logIf berr (.backupFailed fi.Filepath)).Logged pi false :=
        logged_trans hlog (logged_of_eq b1 b5)
      cases hcf : copyFile env fi.Filepath
          (osRemove env.faults fi.Filepath
            (pi0.logIf berr (.backupFailed fi.Filepath)).installFiles).2 with
      | mk err fs3 =>
        simp only []
        have hpi3 : ({ pi0.logIf berr (.backupFailed fi.Filepath) with
            installFiles := fs3
            progressReporter :=
              (pi0.logIf berr (.backupFailed fi.Filepath)).progressReporter.accountUpdate
                fi.FileSize } : PackageInstaller).Logged pi false := ⟨hpi1.1, hpi1.2⟩
        cases err with
        | some e =>
          simp only [Option.isSome_some]
          refine ⟨?_, ?_⟩
          · have h := logIf_logged { pi0.logIf berr (.backupFailed fi.Filepath) with
              installFiles := fs3
              progressReporter :=
                (pi0.logIf berr (.backupFailed fi.Filepath)).progressReporter.accountUpdate
                  fi.FileSize } (some e) (.updateFailed fi.Filepath)
            exact logged_trans h hpi3
          · rw [(logIf_fields _ _ _).2.1]
            show (pi0.logIf berr (.backupFailed fi.Filepath)).systemMessages = _
            rw [l2, b2]
        | none =>
          simp only []
          obtain ⟨h1, h2⟩ := ih { pi0.logIf berr (.backupFailed fi.Filepath) with
            installFiles := fs3
            progressReporter :=
              (pi0.logIf berr (.backupFailed fi.Filepath)).progressReporter.accountUpdate
                fi.FileSize }
          refine ⟨?_, ?_⟩
          · have := logged_trans h1 hpi3
            simpa using this
          · rw [h2]
            show (pi0.logIf berr (.backupFailed fi.Filepath)).systemMessages = _
            rw [l2, b2]

theorem addFiles_logged (env : Env) :
    ∀ (l : List UpdateFileInfo) (pi : PackageInstaller),
      (pi.addFiles env l).2.Logged pi (pi.addFiles env l).1.isSome
      ∧ (pi.addFiles env l).2.systemMessages = pi.systemMessages
      ∧ (pi.addFiles env l).2.backups = pi.backups
      ∧ (pi.addFiles env l).2.backupsChan = pi.backupsChan := by
  intro l
  induction l with
  | nil => intro pi; exact ⟨logged_refl pi, rfl, rfl, rfl⟩
  | cons fi rest ih =>
    intro pi
    unfold PackageInstaller.addFiles
    cases hcf : copyFile env fi.Filepath (ensureDirExists fi.Filepath pi.installFiles) with
    | mk err fs1 =>
      cases err with
      | some e =>
        exact ⟨⟨rfl, [.addFailed fi.Filepath], rfl, by simp [LogLine.isCopyFailure]⟩,
          rfl, rfl, rfl⟩
      | none =>
        simp only []
        obtain ⟨h1, h2, h3, h4⟩ := ih { pi with
          installFiles := fs1
          progressReporter := pi.progressReporter.accountAdd fi.FileSize }
        refine ⟨?_, h2, h3, h4⟩
        have hstep : ({ pi with
          installFiles := fs1
          progressReporter := pi.progressReporter.accountAdd fi.FileSize } :
            PackageInstaller).Logged pi false := logged_of_eq rfl rfl
        have := logged_trans h1 hstep
        simpa using this

theorem waitBackups_fields (pi : PackageInstaller) :
    pi.waitBackups.failInTheEnd = pi.failInTheEnd ∧ pi.waitBackups.log = pi.log
    ∧ pi.waitBackups.systemMessages = pi.systemMessages
    ∧ pi.waitBackups.installFiles = pi.installFiles
    ∧ pi.waitBackups.progressReporter = pi.progressReporter
    ∧ pi.waitBackups.removeSelfPath = pi.removeSelfPath
    ∧ pi.waitBackups.backupsChan = [] :=
  ⟨rfl, rfl, rfl, rfl, rfl, rfl, rfl⟩

/-- The phases return an error exactly when they log a failed copy, and they leave no
pair with a sender when they return none. -/
theorem installPackage_logged (env : Env) (pi : PackageInstaller) (d : DiffResult) :
    (pi.installPackage env d).2.Logged pi (pi.installPackage env d).1.isSome
    ∧ ((pi.installPackage env d).1 = none → (pi.installPackage env d).2.backupsChan = []) := by
  unfold PackageInstaller.installPackage
  simp only []
  have hm : (pi.sendSystemMessage "Removing components...").Logged pi false :=
    logged_of_eq rfl rfl
  obtain ⟨r1, r2, _⟩ := removeFiles_logged env d.filesToRemove
    (pi.sendSystemMessage "Removing components...")
  cases hr : (pi.sendSystemMessage "Removing components...").removeFiles env d.filesToRemove with
  | mk e1 pi2 =>
    rw [hr] at r1 r2
    simp only [] at r1 r2
    subst r1
    simp only []
    have hpi2 : pi2.Logged pi false := logged_trans r2 hm
    have hpi3 : (pi2.sendSystemMessage "Updating components...").Logged pi false :=
      ⟨hpi2.1, hpi2.2⟩
    obtain ⟨u1, _⟩ := updateFiles_logged env d.filesToUpdate
      (pi2.sendSystemMessage "Updating components...")
    cases hu : (pi2.sendSystemMessage "Updating components...").updateFiles env
        d.filesToUpdate with
    | mk e2 pi4 =>
      rw [hu] at u1
      simp only [] at u1
      have hpi4 : pi4.Logged pi e2.isSome := by
        have := logged_trans u1 hpi3
        simpa using this
      cases e2 with
      | some e =>
        simp only [Option.isSome_some] at hpi4 ⊢
        exact ⟨⟨hpi4.1, hpi4.2⟩, fun h => Option.noConfusion h⟩
      | none =>
        simp only [Option.isSome_none] at hpi4 ⊢
        have hpi5 : (pi4.sendSystemMessage "Adding components...").Logged pi false :=
          ⟨hpi4.1, hpi4.2⟩
        obtain ⟨a1, _⟩ := addFiles_logged env d.filesToAdd
          (pi4.sendSystemMessage "Adding components...")
        cases ha : (pi4.sendSystemMessage "Adding components...").addFiles env d.filesToAdd with
        | mk e3 pi6 =>
          rw [ha] at a1
          simp only [] at a1
          have hpi6 : pi6.Logged pi e3.isSome := by
            have := logged_trans a1 hpi5
            simpa using this
          cases e3 with
          | some e =>
            simp only [Option.isSome_some] at hpi6 ⊢
            exact ⟨⟨hpi6.1, hpi6.2⟩, fun h => Option.noConfusion h⟩
          | none =>
            simp only [Option.isSome_none] at hpi6 ⊢
            exact ⟨⟨hpi6.1, hpi6.2⟩, fun _ => rfl⟩

theorem removeBackupsLoop_fields (env : Env) :
    ∀ (l : List (String × String)) (pi : PackageInstaller),
      (removeBackupsLoop env pi l).systemMessages = pi.systemMessages
      ∧ (removeBackupsLoop env pi l).backups = pi.backups
      ∧ (removeBackupsLoop env pi l).failInTheEnd = pi.failInTheEnd
      ∧ (removeBackupsLoop env pi l).log = pi.log
      ∧ (removeBackupsLoop env pi l).backupsChan = pi.backupsChan := by
  intro l
  induction l with
  | nil => intro pi; simp [removeBackupsLoop]
  | cons kv rest ih =>
    intro pi
    obtain ⟨k, v⟩ := kv
    unfold removeBackupsLoop
    simp only []
    exact ih { pi with
      installFiles := (osRemove env.faults v pi.installFiles).2
      progressReporter := pi.progressReporter.accountBackupRemove }

theorem removeBackups_fields (env : Env) (pi : PackageInstaller) :
    (pi.removeBackups env).systemMessages = pi.systemMessages
    ∧ (pi.removeBackups env).failInTheEnd = pi.failInTheEnd
    ∧ (pi.removeBackups env).log = pi.log
    ∧ (pi.removeBackups env).backupsChan = pi.backupsChan := by
  unfold PackageInstaller.removeBackups
  simp only []
  obtain ⟨h1, _, h3, h4, h5⟩ := removeBackupsLoop_fields env
    (match env.selfpath with
      | none => pi
      | some selfpath =>
        match mapGet pi.backups selfpath with
        | some backuppath =>
          { pi with removeSelfPath := backuppath, backups := mapDelete pi.backups selfpath }
        | none => pi).backups
    (match env.selfpath with
      | none => pi
      | some selfpath =>
        match mapGet pi.backups selfpath with
        | some backuppath =>
          { pi with removeSelfPath := backuppath, backups := mapDelete pi.backups selfpath }
        | none => pi)
  rw [h1, h3, h4, h5]
  cases env.selfpath with
  | none => exact ⟨rfl, rfl, rfl, rfl⟩
  | some sp =>
    simp only []
    cases mapGet pi.backups sp <;> exact ⟨rfl, rfl, rfl, rfl⟩

theorem beforeInstall_fields (env : Env) (pi : PackageInstaller) :
    (pi.beforeInstall env).failInTheEnd = pi.failInTheEnd
    ∧ (pi.beforeInstall env).log = pi.log
    ∧ (pi.beforeInstall env).backups = pi.backups
    ∧ (pi.beforeInstall env).backupsChan = pi.backupsChan
    ∧ (pi.beforeInstall env).progressReporter = pi.progressReporter := by
  unfold PackageInstaller.beforeInstall PackageInstaller.removeOldBackups
  cases env.selfpath <;> exact ⟨rfl, rfl, rfl, rfl, rfl⟩

theorem applyDiff_eq (env : Env) (pi : PackageInstaller) (d : DiffResult) :
    pi.applyDiff env d
      = if (pi.phases env d).1 = none ∧ (pi.phases env d).2.failInTheEnd = false
        then ((pi.phases env d).1, (pi.phases env d).2.afterSuccess env)
        else ((pi.phases env d).1, (pi.phases env d).2.afterFailure env d) := by
  rfl

theorem phases_logged (env : Env) (pi : PackageInstaller) (d : DiffResult) :
    (pi.phases env d).2.Logged pi (pi.phases env d).1.isSome
    ∧ ((pi.phases env d).1 = none → (pi.phases env d).2.backupsChan = []) := by
  unfold PackageInstaller.phases
  obtain ⟨h1, h2⟩ := installPackage_logged env
    ({ pi with progressReporter :=
      { pi.progressReporter with grandTotal := calculateGrandTotals d } }.beforeInstall env) d
  obtain ⟨b1, b2, _⟩ := beforeInstall_fields env
    { pi with progressReporter :=
      { pi.progressReporter with grandTotal := calculateGrandTotals d } }
  refine ⟨?_, h2⟩
  have := logged_trans h1 (logged_of_eq b1 b2)
  simp only [Bool.false_or] at this
  exact ⟨this.1, this.2⟩

theorem phases_failInTheEnd (env : Env) (pi : PackageInstaller) (d : DiffResult) :
    (pi.phases env d).2.failInTheEnd = pi.failInTheEnd :=
  (phases_logged env pi d).1.1

theorem afterSuccess_fields (env : Env) (pi : PackageInstaller) :
    (pi.afterSuccess env).systemMessages = pi.systemMessages ++ ["Finishing the installation..."]
    ∧ (pi.afterSuccess env).failInTheEnd = pi.failInTheEnd
    ∧ (pi.afterSuccess env).log = pi.log
    ∧ (pi.afterSuccess env).backupsChan = pi.backupsChan := by
  unfold PackageInstaller.afterSuccess
  simp only []
  obtain ⟨h1, h2, h3, h4⟩ := removeBackups_fields env
    (pi.sendSystemMessage "Finishing the installation...")
  exact ⟨h1, h2, h3, h4⟩

theorem afterFailure_fields (env : Env) (pi : PackageInstaller) (d : DiffResult) :
    (pi.afterFailure env d).systemMessages = pi.systemMessages ++ ["Cleaning up..."]
    ∧ (pi.afterFailure env d).failInTheEnd = pi.failInTheEnd
    ∧ (pi.afterFailure env d).log = pi.log
    ∧ (pi.afterFailure env d).backupsChan = pi.backupsChan := by
  unfold PackageInstaller.afterFailure PackageInstaller.restoreBackups
  simp only []
  obtain ⟨h1, h2, h3, h4⟩ := removeBackups_fields env
    { pi.sendSystemMessage "Cleaning up..." with
      installFiles := restoreLoop env (purgeFiles env
        (pi.sendSystemMessage "Cleaning up...").installFiles d.filesToAdd)
        (pi.sendSystemMessage "Cleaning up...").backups }
  exact ⟨h1, h2, h3, h4⟩

/-- The applier up to `teardown`: it returns an error exactly when it logs a failed
copy, the last banner tells which of the two final paths ran, and no pair is left with
a sender unless an error is returned. -/
theorem applyDiff_facts (env : Env) (pi : PackageInstaller) (d : DiffResult) :
    (pi.applyDiff env d).2.Logged pi (pi.applyDiff env d).1.isSome
    ∧ ((pi.applyDiff env d).2.systemMessages.getLast? = some "Cleaning up..." ↔
      ((pi.applyDiff env d).1 ≠ none ∨ pi.failInTheEnd = true))
    ∧ ((pi.applyDiff env d).2.systemMessages.getLast? = some "Finishing the installation..." ↔
      ((pi.applyDiff env d).1 = none ∧ pi.failInTheEnd = false))
    ∧ ((pi.applyDiff env d).1 = none → (pi.applyDiff env d).2.backupsChan = []) := by
  rw [applyDiff_eq]
  obtain ⟨hl, hc⟩ := phases_logged env pi d
  have hf := phases_failInTheEnd env pi d
  by_cases hcond : (pi.phases env d).1 = none ∧ (pi.phases env d).2.failInTheEnd = false
  · rw [if_pos hcond]
    obtain ⟨s1, s2, s3, s4⟩ := afterSuccess_fields env (pi.phases env d).2
    simp only []
    rw [hf] at hcond
    refine ⟨⟨s2.trans hl.1, ?_⟩, ?_, ?_, ?_⟩
    · obtain ⟨lines, h1, h2⟩ := hl.2
      exact ⟨lines, by rw [s3, h1], h2⟩
    · rw [s1, List.getLast?_concat]
      simp [hcond.1, hcond.2]
    · rw [s1, List.getLast?_concat]
      simp [hcond.1, hcond.2]
    · intro _
      rw [s4]
      exact hc hcond.1
  · rw [if_neg hcond]
    obtain ⟨s1, s2, s3, s4⟩ := afterFailure_fields env (pi.phases env d).2 d
    simp only []
    rw [hf] at hcond
    refine ⟨⟨s2.trans hl.1, ?_⟩, ?_, ?_, ?_⟩
    · obtain ⟨lines, h1, h2⟩ := hl.2
      exact ⟨lines, by rw [s3, h1], h2⟩
    · rw [s1, List.getLast?_concat]
      simp only [true_iff]
      by_cases he : (pi.phases env d).1 = none
      · right
        cases hfl : pi.failInTheEnd
        · exact absurd ⟨he, hfl⟩ hcond
        · rfl
      · exact Or.inl he
    · rw [s1, List.getLast?_concat]
      constructor
      · intro h
        exact absurd (Option.some.inj h) (by decide)
      · intro h
        exact absurd h hcond
    · intro he
      rw [s4]
      exact hc he

theorem teardown_fields (pi pi2 : PackageInstaller) (h : pi.teardown = some pi2) :
    pi2.systemMessages = pi.systemMessages ∧ pi2.installFiles = pi.installFiles
      ∧ pi2.backups = pi.backups ∧ pi2.failInTheEnd = pi.failInTheEnd
      ∧ pi2.log = pi.log := by
  unfold PackageInstaller.teardown at h
  cases hr : pi.progressReporter.reportingLoop with
  | none => rw [hr] at h; exact Option.noConfusion h
  | some pr =>
    rw [hr] at h
    simp only [Option.some.injEq] at h
    subst h
    exact ⟨rfl, rfl, rfl, rfl, rfl⟩

theorem Install_eq_some (env : Env) (pi : PackageInstaller) (d : DiffResult)
    (err : Option Error) (pi2 : PackageInstaller) (h : pi.Install env d = some (err, pi2)) :
    err = (pi.applyDiff env d).1 ∧ (pi.applyDiff env d).2.teardown = some pi2 := by
  unfold PackageInstaller.Install at h
  cases ha : pi.applyDiff env d with
  | mk e p1 =>
    rw [ha] at h
    simp only [] at h
    split at h
    · exact Option.noConfusion h
    · cases ht : p1.teardown with
      | none => rw [ht] at h; exact Option.noConfusion h
      | some p2 =>
        rw [ht] at h
        simp only [Option.some.injEq, Prod.mk.injEq] at h
        exact ⟨h.1.symm, by rw [h.2]⟩

/-! ## Reporting loop: division by the grand total -/

theorem reportChunks_none_of_zero (pr : ProgressReporter) (chunks : List Int)
    (hg : pr.grandTotal = 0) (hne : chunks ≠ []) : reportChunks pr chunks = none := by
  cases chunks with
  | nil => exact absurd rfl hne
  | cons c rest =>
    unfold reportChunks reportChunk
    simp only [hg, if_true]

theorem reportChunks_some_of_pos :
    ∀ (chunks : List Int) (pr : ProgressReporter), pr.grandTotal ≠ 0 →
      ∃ pr1, reportChunks pr chunks = some pr1 := by
  intro chunks
  induction chunks with
  | nil => intro pr _; exact ⟨pr, rfl⟩
  | cons c rest ih =>
    intro pr hg
    unfold reportChunks reportChunk
    simp only [if_neg hg]
    exact ih _ hg

theorem reportingLoop_eq_none_iff (pr : ProgressReporter) :
    pr.reportingLoop = none ↔ pr.grandTotal = 0 ∧ pr.progressChan ≠ [] := by
  unfold ProgressReporter.reportingLoop
  constructor
  · intro h
    by_cases hg : pr.grandTotal = 0
    · refine ⟨hg, fun hnil => ?_⟩
      rw [hnil] at h
      exact Option.noConfusion h
    · obtain ⟨pr1, h1⟩ := reportChunks_some_of_pos pr.progressChan
        { pr with progressChan := [] } hg
      rw [h1] at h
      exact Option.noConfusion h
  · rintro ⟨hg, hne⟩
    exact reportChunks_none_of_zero _ _ hg hne

theorem ProgressReporter.Extends.refl (p : ProgressReporter) : p.Extends p :=
  ⟨rfl, [], (List.append_nil _).symm⟩

theorem ProgressReporter.Extends.trans {a b c : ProgressReporter} (h1 : a.Extends b)
    (h2 : b.Extends c) : a.Extends c := by
  obtain ⟨g1, t1, c1⟩ := h1
  obtain ⟨g2, t2, c2⟩ := h2
  refine ⟨g1.trans g2, t2 ++ t1, ?_⟩
  rw [c1, c2, List.append_assoc]

theorem ProgressReporter.Extends.tick (p : ProgressReporter) (t : Int) :
    ProgressReporter.Extends { p with progressChan := p.progressChan ++ [t] } p :=
  ⟨rfl, [t], rfl⟩

theorem ProgressReporter.Extends.ne_nil {r p : ProgressReporter} (h : r.Extends p)
    (hp : p.progressChan ≠ []) : r.progressChan ≠ [] := by
  obtain ⟨_, t, c⟩ := h
  rw [c]
  intro h0
  exact hp (List.append_eq_nil.mp h0).1

theorem ProgressReporter.Extends.of_eq {r p : ProgressReporter} (h : r = p) : r.Extends p :=
  h ▸ ProgressReporter.Extends.refl p

theorem removeFiles_extends (env : Env) :
    ∀ (l : List UpdateFileInfo) (pi : PackageInstaller),
      (pi.removeFiles env l).2.progressReporter.Extends pi.progressReporter
      ∧ (l ≠ [] → (pi.removeFiles env l).2.progressReporter.progressChan ≠ []) := by
  intro l
  induction l with
  | nil => intro pi; exact ⟨ProgressReporter.Extends.refl _, fun h => absurd rfl h⟩
  | cons fi rest ih =>
    intro pi
    unfold PackageInstaller.removeFiles
    obtain ⟨_, _, b3, _⟩ := backupFile_fields env pi fi.Filepath
    cases hb : pi.backupFile env fi.Filepath with
    | mk err pi0 =>
      rw [hb] at b3
      simp only [] at b3 ⊢
      obtain ⟨_, _, l3, _⟩ := logIf_fields pi0 err (.removeFailed fi.Filepath)
      obtain ⟨h1, _⟩ := ih { pi0.logIf err (.removeFailed fi.Filepath) with
        progressReporter :=
          (pi0.logIf err (.removeFailed fi.Filepath)).progressReporter.accountRemove
            fi.FileSize }
      have hstep : ((pi0.logIf err (.removeFailed fi.Filepath)).progressReporter.accountRemove
          fi.FileSize).Extends pi.progressReporter := by
        rw [l3, b3]
        exact ProgressReporter.Extends.tick _ _
      refine ⟨h1.trans hstep, fun _ => h1.ne_nil ?_⟩
      show ((pi0.logIf err (.removeFailed fi.Filepath)).progressReporter.accountRemove
        fi.FileSize).progressChan ≠ []
      unfold ProgressReporter.accountRemove
      simp

theorem updateFiles_extends (env : Env) :
    ∀ (l : List UpdateFileInfo) (pi : PackageInstaller),
      (pi.updateFiles env l).2.progressReporter.Extends pi.progressReporter
      ∧ (l ≠ [] → (pi.updateFiles env l).2.progressReporter.progressChan ≠ []) := by
  intro l
  induction l with
  | nil => intro pi; exact ⟨ProgressReporter.Extends.refl _, fun h => absurd rfl h⟩
  | cons fi rest ih =>
    intro pi
    unfold PackageInstaller.updateFiles
    obtain ⟨_, _, b3, _⟩ := backupFile_fields env pi fi.Filepath
    cases hb : pi.backupFile env fi.Filepath with
    | mk berr pi0 =>
      rw [hb] at b3
      simp only [] at b3 ⊢
      obtain ⟨_, _, l3, _⟩ := logIf_fields pi0 berr (.backupFailed fi.Filepath)
      have hstep : ((pi0.logIf berr (.backupFailed fi.Filepath)).progressReporter.accountUpdate
          fi.FileSize).Extends pi.progressReporter := by
        rw [l3, b3]
        exact ProgressReporter.Extends.tick _ _
      have hne : ((pi0.logIf berr (.backupFailed fi.Filepath)).progressReporter.accountUpdate
          fi.FileSize).progressChan ≠ [] := by
        unfold ProgressReporter.accountUpdate
        simp
      cases hcf : copyFile env fi.Filepath
          (osRemove env.faults fi.Filepath
            (pi0.logIf berr (.backupFailed fi.Filepath)).installFiles).2 with
      | mk err fs3 =>
        cases err with
        | some e =>
          simp only []
          rw [(logIf_fields _ _ _).2.2.1]
          exact ⟨hstep, fun _ => hne⟩
        | none =>
          simp only []
          obtain ⟨h1, _⟩ := ih { pi0.logIf berr (.backupFailed fi.Filepath) with
            installFiles := fs3
            progressReporter :=
              (pi0.logIf berr (.backupFailed fi.Filepath)).progressReporter.accountUpdate
                fi.FileSize }
          exact ⟨h1.trans hstep, fun _ => h1.ne_nil hne⟩

theorem addFiles_extends (env : Env) :
    ∀ (l : List UpdateFileInfo) (pi : PackageInstaller),
      (pi.addFiles env l).2.progressReporter.Extends pi.progressReporter := by
  intro l
  induction l with
  | nil => intro pi; exact ProgressReporter.Extends.refl _
  | cons fi rest ih =>
    intro pi
    unfold PackageInstaller.addFiles
    cases hcf : copyFile env fi.Filepath (ensureDirExists fi.Filepath pi.installFiles) with
    | mk err fs1 =>
      cases err with
      | some e => exact ProgressReporter.Extends.refl _
      | none =>
        simp only []
        exact (ih { pi with
          installFiles := fs1
          progressReporter := pi.progressReporter.accountAdd fi.FileSize }).trans
          (ProgressReporter.Extends.tick _ _)

theorem installPackage_extends (env : Env) (pi : PackageInstaller) (d : DiffResult) :
    (pi.installPackage env d).2.progressReporter.Extends pi.progressReporter
    ∧ (d.filesToRemove ++ d.filesToUpdate ≠ [] →
        (pi.installPackage env d).2.progressReporter.progressChan ≠ []) := by
  unfold PackageInstaller.installPackage
  simp only []
  obtain ⟨r1, r2⟩ := removeFiles_extends env d.filesToRemove
    (pi.sendSystemMessage "Removing components...")
  obtain ⟨r0, _, _⟩ := removeFiles_logged env d.filesToRemove
    (pi.sendSystemMessage "Removing components...")
  cases hr : (pi.sendSystemMessage "Removing components...").removeFiles env d.filesToRemove with
  | mk e1 pi2 =>
    rw [hr] at r0 r1 r2
    simp only [] at r0 r1 r2
    subst r0
    simp only []
    have r1b : pi2.progressReporter.Extends pi.progressReporter := r1
    obtain ⟨u1, u2⟩ := updateFiles_extends env d.filesToUpdate
      (pi2.sendSystemMessage "Updating components...")
    have hu12 : d.filesToRemove ++ d.filesToUpdate ≠ [] →
        ((pi2.sendSystemMessage "Updating components...").updateFiles env
          d.filesToUpdate).2.progressReporter.progressChan ≠ [] := by
      intro hne
      by_cases hrem : d.filesToRemove = []
      · apply u2
        intro hup
        exact hne (by rw [hrem, hup]; rfl)
      · exact u1.ne_nil (r2 hrem)
    cases hu : (pi2.sendSystemMessage "Updating components...").updateFiles env
        d.filesToUpdate with
    | mk e2 pi4 =>
      rw [hu] at u1 hu12
      simp only [] at u1 hu12
      have u1b : pi4.progressReporter.Extends pi2.progressReporter := u1
      cases e2 with
      | some e => exact ⟨u1b.trans r1b, hu12⟩
      | none =>
        simp only []
        have a1 := addFiles_extends env d.filesToAdd
          (pi4.sendSystemMessage "Adding components...")
        cases ha : (pi4.sendSystemMessage "Adding components...").addFiles env d.filesToAdd with
        | mk e3 pi6 =>
          rw [ha] at a1
          have a1b : pi6.progressReporter.Extends pi4.progressReporter := a1
          cases e3 with
          | some e => exact ⟨(a1b.trans u1b).trans r1b, fun h => a1b.ne_nil (hu12 h)⟩
          | none => exact ⟨(a1b.trans u1b).trans r1b, fun h => a1b.ne_nil (hu12 h)⟩

theorem removeBackupsLoop_extends (env : Env) :
    ∀ (l : List (String × String)) (pi : PackageInstaller),
      (removeBackupsLoop env pi l).progressReporter.Extends pi.progressReporter := by
  intro l
  induction l with
  | nil => intro pi; exact ProgressReporter.Extends.refl _
  | cons kv rest ih =>
    intro pi
    obtain ⟨k, v⟩ := kv
    unfold removeBackupsLoop
    simp only []
    exact (ih { pi with
      installFiles := (osRemove env.faults v pi.installFiles).2
      progressReporter := pi.progressReporter.accountBackupRemove }).trans
      (ProgressReporter.Extends.tick _ _)

theorem removeBackups_extends (env : Env) (pi : PackageInstaller) :
    (pi.removeBackups env).progressReporter.Extends pi.progressReporter := by
  unfold PackageInstaller.removeBackups
  simp only []
  refine (removeBackupsLoop_extends env _ _).trans ?_
  cases env.selfpath with
  | none => exact ProgressReporter.Extends.refl _
  | some sp =>
    simp only []
    cases mapGet pi.backups sp <;> exact ProgressReporter.Extends.refl _

theorem applyDiff_extends (env : Env) (pi : PackageInstaller) (d : DiffResult) :
    (pi.applyDiff env d).2.progressReporter.Extends (pi.phases env d).2.progressReporter := by
  rw [applyDiff_eq]
  split
  · exact removeBackups_extends env _
  · exact removeBackups_extends env _

theorem phases_extends (env : Env) (pi : PackageInstaller) (d : DiffResult) :
    (pi.phases env d).2.progressReporter.grandTotal = calculateGrandTotals d
    ∧ (d.filesToRemove ++ d.filesToUpdate ≠ [] →
        (pi.phases env d).2.progressReporter.progressChan ≠ []) := by
  unfold PackageInstaller.phases
  obtain ⟨h1, h2⟩ := installPackage_extends env
    ({ pi with progressReporter :=
      { pi.progressReporter with grandTotal := calculateGrandTotals d } }.beforeInstall env) d
  refine ⟨?_, h2⟩
  rw [h1.1, (beforeInstall_fields env _).2.2.2.2]

theorem applyDiff_grandTotal (env : Env) (pi : PackageInstaller) (d : DiffResult) :
    (pi.applyDiff env d).2.progressReporter.grandTotal = calculateGrandTotals d :=
  (applyDiff_extends env pi d).1.trans (phases_extends env pi d).1

/-- `Install` does not return exactly when a sender of the ledger panics or the
reporting loop divides by a grand total of zero. -/
theorem Install_eq_none_iff (env : Env) (pi : PackageInstaller) (d : DiffResult) :
    pi.Install env d = none ↔
      (pi.applyDiff env d).2.senderPanics env = true
      ∨ (calculateGrandTotals d = 0
        ∧ (pi.applyDiff env d).2.progressReporter.progressChan ≠ []) := by
  rw [← applyDiff_grandTotal env pi d, ← reportingLoop_eq_none_iff]
  unfold PackageInstaller.Install PackageInstaller.teardown
  cases pi.applyDiff env d with
  | mk err pi1 =>
    simp only []
    cases pi1.senderPanics env
    · cases pi1.progressReporter.reportingLoop with
      | none => simp
      | some pr => simp
    · simp

theorem priceTerm_zero (factor : Int) : priceTerm 0 factor = 0 := by
  unfold priceTerm toUInt64 toInt64
  simp

theorem calculateGrandTotals_of_empty_files (d : DiffResult)
    (h : ∀ fi ∈ d.filesToRemove ++ d.filesToUpdate ++ d.filesToAdd, fi.FileSize = 0) :
    calculateGrandTotals d = 0 := by
  have hfold : ∀ (factor : Int) (l : List UpdateFileInfo), (∀ fi ∈ l, fi.FileSize = 0) →
      l.foldl (addPrices factor) 0 = 0 := by
    intro factor l
    induction l with
    | nil => intro _; rfl
    | cons fi rest ih =>
      intro hl
      have h0 : addPrices factor 0 fi = 0 := by
        unfold addPrices
        rw [hl fi (List.mem_cons_self _ _), priceTerm_zero, priceTerm_zero]
        rfl
      rw [List.foldl_cons, h0]
      exact ih (fun fi hfi => hl fi (List.mem_cons_of_mem _ hfi))
  have hfold2 : ∀ (l : List UpdateFileInfo), (∀ fi ∈ l, fi.FileSize = 0) →
      l.foldl addPriceOnly 0 = 0 := by
    intro l
    induction l with
    | nil => intro _; rfl
    | cons fi rest ih =>
      intro hl
      have h0 : addPriceOnly 0 fi = 0 := by
        unfold addPriceOnly
        rw [hl fi (List.mem_cons_self _ _), priceTerm_zero]
        rfl
      rw [List.foldl_cons, h0]
      exact ih (fun fi hfi => hl fi (List.mem_cons_of_mem _ hfi))
  unfold calculateGrandTotals
  simp only []
  rw [hfold RemoveFactor _ (fun fi hfi => h fi (by simp [hfi])),
    hfold UpdateFactor _ (fun fi hfi => h fi (by simp [hfi])),
    hfold2 _ (fun fi hfi => h fi (by simp [hfi]))]

/-- Whatever the environment, `Install` dies on a diff of empty files that removes or
updates at least one of them. -/
theorem Install_dies_on_empty_files (env : Env) (pi : PackageInstaller) (d : DiffResult)
    (hsizes : ∀ fi ∈ d.filesToRemove ++ d.filesToUpdate ++ d.filesToAdd, fi.FileSize = 0)
    (hne : d.filesToRemove ++ d.filesToUpdate ≠ []) :
    pi.Install env d = none :=
  (Install_eq_none_iff env pi d).mpr (Or.inr
    ⟨calculateGrandTotals_of_empty_files d hsizes,
      (applyDiff_extends env pi d).ne_nil ((phases_extends env pi d).2 hne)⟩)

/-- C11 fails on the code: adding the empty file `e` has grand total 0, the copy
succeeds and `accountAdd` sends one tick, and `Install` dies on the division by the
grand total in `reportingLoop`. -/
theorem Install_divides_by_zero :
    diffOf [] emptyFileTree false false = some emptyFileDiff
      ∧ calculateGrandTotals emptyFileDiff = 0
      ∧ ((PackageInstaller.new (Tree.files []) false).applyDiff (plainEnv emptyFileTree)
          emptyFileDiff).1 = none
      ∧ ((PackageInstaller.new (Tree.files []) false).applyDiff (plainEnv emptyFileTree)
          emptyFileDiff).2.progressReporter.progressChan = [0]
      ∧ reportChunk ((PackageInstaller.new (Tree.files []) false).applyDiff
          (plainEnv emptyFileTree) emptyFileDiff).2.progressReporter 0 = none
      ∧ ((PackageInstaller.new (Tree.files []) false).Install (plainEnv emptyFileTree)
          emptyFileDiff).isSome = false := by
  decide

/-! ## The install directory: what the operations change -/

theorem bak_ne_self (p : String) : p ++ BackupExt ≠ p := by
  intro h
  have h2 := congrArg String.length h
  rw [String.length_append] at h2
  have h3 : BackupExt.length = 4 := rfl
  omega

/-- A path with the backup extension lies below a directory only if the path itself
does: the extension holds no separator. -/
theorem isBelow_of_isBelow_bak (dir q : String) (h : isBelow dir (q ++ BackupExt) = true) :
    isBelow dir q = true := by
  unfold isBelow at h ⊢
  rw [List.isPrefixOf_iff_prefix] at h ⊢
  rw [String.data_append] at h
  obtain ⟨t, ht⟩ := h
  have hb : BackupExt.data = ['.', 'b', 'a', 'k'] := rfl
  rw [hb] at ht
  -- the last four characters of `dir/` followed by `t` are `.bak`
  rcases List.eq_nil_or_concat t with h0 | ⟨t1, c1, h1⟩
  · subst h0
    have := congrArg List.getLast? ht
    simp at this
  subst h1
  rcases List.eq_nil_or_concat t1 with h0 | ⟨t2, c2, h2⟩
  · subst h0
    have h3 : dir.data ++ ['/', c1] = q.data ++ ['.', 'b', 'a', 'k'] := by simpa using ht
    have := congrArg (fun l => (l.reverse.drop 1).head?) h3
    simp at this
  subst h2
  rcases List.eq_nil_or_concat t2 with h0 | ⟨t3, c3, h3⟩
  · subst h0
    have h3 : dir.data ++ ['/', c2, c1] = q.data ++ ['.', 'b', 'a', 'k'] := by simpa using ht
    have := congrArg (fun l => (l.reverse.drop 2).head?) h3
    simp at this
  subst h3
  rcases List.eq_nil_or_concat t3 with h0 | ⟨t4, c4, h4⟩
  · subst h0
    have h3 : dir.data ++ ['/', c3, c2, c1] = q.data ++ ['.', 'b', 'a', 'k'] := by
      simpa using ht
    have := congrArg (fun l => (l.reverse.drop 3).head?) h3
    simp at this
  subst h4
  refine ⟨t4, ?_⟩
  have h5 : (dir.data ++ ['/'] ++ t4) ++ [c4, c3, c2, c1] = q.data ++ ['.', 'b', 'a', 'k'] := by
    simpa using ht
  have hl : (dir.data ++ ['/'] ++ t4).length = q.data.length := by
    have := congrArg List.length h5
    simp only [List.length_append, List.length_cons, List.length_nil] at this
    simp only [List.length_append, List.length_cons, List.length_nil]
    omega
  exact (List.append_inj h5 hl).1

theorem coe_eq_content (fs : Files) (x : String) : fs x = fs.content x := rfl

theorem kind_erase (fs : Files) (p x : String) :
    (fs.erase p).kind x = if x = p then none else fs.kind x := by
  unfold Files.erase Files.kind
  simp only []
  induction fs.entries with
  | nil => simp
  | cons e rest ih =>
    by_cases hep : e.1 = p
    · rw [List.filter_cons_of_neg (by simpa using hep)]
      rw [ih]
      by_cases hx : x = p
      · simp [hx]
      · have : ¬ e.1 = x := fun h => hx (h ▸ hep)
        simp [hx, List.find?_cons, this]
    · rw [List.filter_cons_of_pos (by simpa using hep)]
      simp only [List.find?_cons]
      by_cases hex : e.1 = x
      · have hx : ¬ x = p := fun h => hep (hex.trans h)
        simp [hex, hx]
      · simp only [hex, decide_False]
        exact ih

theorem kind_put (fs : Files) (p x : String) (e : Entry) :
    (fs.put p e).kind x = if x = p then some e else fs.kind x := by
  unfold Files.put
  show (List.find? (fun e => decide (e.1 = x)) ((p, e) :: (fs.erase p).entries)).map Prod.snd = _
  rw [List.find?_cons]
  by_cases hx : x = p
  · simp [hx]
  · have hpx : ¬ p = x := fun h => hx h.symm
    simp only [hpx, decide_False, hx, if_false]
    have := kind_erase fs p x
    rw [if_neg hx] at this
    exact this

theorem content_erase (fs : Files) (p x : String) :
    (fs.erase p) x = if x = p then none else fs x := by
  show (fs.erase p).content x = if x = p then none else fs.content x
  unfold Files.content
  rw [kind_erase]
  by_cases hx : x = p
  · simp [hx]
  · simp [hx]

theorem content_put_dir (fs : Files) (p x : String) :
    (fs.put p .dir) x = if x = p then none else fs x := by
  show (fs.put p .dir).content x = if x = p then none else fs.content x
  unfold Files.content
  rw [kind_put]
  by_cases hx : x = p
  · simp [hx]
  · simp [hx]

theorem content_put_file (fs : Files) (p x c : String) :
    (fs.put p (.file c)) x = if x = p then some c else fs x := by
  show (fs.put p (.file c)).content x = if x = p then some c else fs.content x
  unfold Files.content
  rw [kind_put]
  by_cases hx : x = p
  · simp [hx]
  · simp [hx]

theorem content_eq_some_iff (fs : Files) (x c : String) :
    fs x = some c ↔ fs.kind x = some (.file c) := by
  show fs.content x = some c ↔ _
  unfold Files.content
  cases fs.kind x with
  | none => simp
  | some e => cases e <;> simp

theorem content_eq_none_of_kind_dir (fs : Files) (x : String) (h : fs.kind x = some .dir) :
    fs x = none := by
  show fs.content x = none
  unfold Files.content
  rw [h]

theorem content_eq_none_of_kind_none (fs : Files) (x : String) (h : fs.kind x = none) :
    fs x = none := by
  show fs.content x = none
  unfold Files.content
  rw [h]

theorem mem_erase (fs : Files) (p : String) (e : String × Entry)
    (h : e ∈ (fs.erase p).entries) : e ∈ fs.entries ∧ e.1 ≠ p := by
  unfold Files.erase at h
  simpa using h

theorem mem_of_kind (fs : Files) (x : String) (n : Entry) (h : fs.kind x = some n) :
    (x, n) ∈ fs.entries := by
  unfold Files.kind at h
  cases hf : fs.entries.find? (fun e => e.1 = x) with
  | none => rw [hf] at h; exact Option.noConfusion h
  | some e =>
    rw [hf] at h
    simp only [Option.map_some', Option.some.injEq] at h
    have h1 := List.find?_some hf
    have h2 := List.mem_of_find?_eq_some hf
    simp only [decide_eq_true_eq] at h1
    have : e = (x, n) := Prod.ext h1 h
    rw [← this]
    exact h2

theorem kind_ne_none_of_mem (fs : Files) (e : String × Entry) (h : e ∈ fs.entries) :
    fs.kind e.1 ≠ none := by
  unfold Files.kind
  cases hf : fs.entries.find? (fun e2 => e2.1 = e.1) with
  | none =>
    have := List.find?_eq_none.mp hf e h
    simp at this
  | some e2 => simp

/-! ### `os.Remove` -/

theorem osRemove_kind_other (flt : Faults) (p x : String) (fs : Files) (h : x ≠ p) :
    (osRemove flt p fs).2.kind x = fs.kind x := by
  have he : (fs.erase p).kind x = fs.kind x := by rw [kind_erase, if_neg h]
  unfold osRemove
  split
  · rfl
  · split
    · rfl
    · exact he
    · split
      · rfl
      · exact he

theorem osRemove_other (flt : Faults) (p x : String) (fs : Files) (h : x ≠ p) :
    (osRemove flt p fs).2 x = fs x := by
  show (osRemove flt p fs).2.content x = fs.content x
  unfold Files.content
  rw [osRemove_kind_other flt p x fs h]

theorem osRemove_same (flt : Faults) (p : String) (fs : Files)
    (hf : flt.remove p = false) : (osRemove flt p fs).2 p = none := by
  have he : (fs.erase p) p = none := by rw [content_erase, if_pos rfl]
  unfold osRemove
  rw [hf]
  simp only [Bool.false_eq_true, if_false]
  cases h : fs.kind p with
  | none => exact content_eq_none_of_kind_none fs p h
  | some e =>
    cases e with
    | file c => exact he
    | dir =>
      simp only []
      split
      · exact content_eq_none_of_kind_dir fs p h
      · exact he

theorem osRemove_keeps_none (flt : Faults) (p x : String) (fs : Files) (h : fs x = none) :
    (osRemove flt p fs).2 x = none := by
  by_cases hx : x = p
  · have he : (fs.erase p) x = none := by rw [content_erase, if_pos hx]
    unfold osRemove
    split
    · exact h
    · split
      · exact h
      · exact he
      · split
        · exact h
        · exact he
  · rw [osRemove_other _ _ _ _ hx]
    exact h

theorem osRemove_mem (flt : Faults) (p : String) (fs : Files) (e : String × Entry)
    (h : e ∈ (osRemove flt p fs).2.entries) : e ∈ fs.entries := by
  unfold osRemove at h
  split at h
  · exact h
  · split at h
    · exact h
    · exact (mem_erase fs p e h).1
    · split at h
      · exact h
      · exact (mem_erase fs p e h).1

theorem osRemove_kind_dir (flt : Faults) (p x : String) (fs : Files)
    (h : (osRemove flt p fs).2.kind x = some .dir) : fs.kind x = some .dir := by
  by_cases hx : x = p
  · have he : (fs.erase p).kind x ≠ some .dir := by
      rw [kind_erase, if_pos hx]
      exact fun hc => Option.noConfusion hc
    unfold osRemove at h
    split at h
    · exact h
    · split at h
      · exact h
      · exact absurd h he
      · split at h
        · exact h
        · exact absurd h he
  · rw [osRemove_kind_other _ _ _ _ hx] at h
    exact h

/-- Without a fault, `os.Remove` leaves nothing at a path that holds no entry below
it. -/
theorem osRemove_kind_same (flt : Faults) (p : String) (fs : Files)
    (hf : flt.remove p = false) (hc : fs.hasChildren p = false) :
    (osRemove flt p fs).2.kind p = none := by
  have he : (fs.erase p).kind p = none := by rw [kind_erase, if_pos rfl]
  unfold osRemove
  rw [hf]
  simp only [Bool.false_eq_true, if_false]
  cases h : fs.kind p with
  | none => exact h
  | some e =>
    cases e with
    | file c => exact he
    | dir =>
      simp only [hc, Bool.false_eq_true, if_false]
      exact he

/-! ### `os.Rename` of what is not a directory -/

/-- Without a fault the rename of a regular file onto a path that holds no directory
succeeds. -/
theorem osRename_ok (flt : Faults) (src dst c : String) (fs : Files)
    (hf : flt.rename src dst = false) (hsrc : fs.kind src = some (.file c))
    (hne : src ≠ dst) (hdst : fs.kind dst ≠ some .dir) :
    osRename flt src dst fs = (none, (fs.erase src).put dst (.file c)) := by
  unfold osRename
  rw [hf, hsrc]
  simp only [Bool.false_eq_true, if_false, if_neg hne]

/-! ### `copyFile` and `ensureDirExists` -/

/-- How `copyFile` ends: nothing changes, or a regular file is written at the
destination. -/
theorem copyFile_cases (env : Env) (rel : String) (fs : Files) :
    (copyFile env rel fs).2 = fs
    ∨ ∃ c, (copyFile env rel fs).2 = fs.put rel (.file c) := by
  unfold copyFile
  cases env.packageFiles.kind rel with
  | none => exact Or.inl rfl
  | some source =>
    simp only []
    split
    · exact Or.inl rfl
    · cases source with
      | file c =>
        cases env.faults.copy rel with
        | failBefore => exact Or.inl rfl
        | ok => exact Or.inr ⟨c, rfl⟩
        | failAfter w => exact Or.inr ⟨w, rfl⟩
      | dir =>
        cases env.faults.copy rel with
        | failBefore => exact Or.inl rfl
        | ok => exact Or.inr ⟨"", rfl⟩
        | failAfter w => exact Or.inr ⟨"", rfl⟩

/-- A copy that returns no error has written the bytes of the regular file of the
package. -/
theorem copyFile_ok (env : Env) (rel : String) (fs : Files)
    (h : (copyFile env rel fs).1 = none) :
    ∃ c, env.packageFiles.kind rel = some (.file c)
      ∧ (copyFile env rel fs).2 = fs.put rel (.file c) := by
  unfold copyFile at h ⊢
  cases hk : env.packageFiles.kind rel with
  | none => rw [hk] at h; simp at h
  | some source =>
    rw [hk] at h
    simp only [] at h ⊢
    by_cases hc : fs.kind rel = some Entry.dir ∨ fs.parentIsDir rel = false
    · rw [if_pos hc] at h
      simp at h
    · rw [if_neg hc] at h ⊢
      cases source with
      | file c =>
        cases hco : env.faults.copy rel with
        | failBefore => rw [hco] at h; simp at h
        | ok => exact ⟨c, rfl, rfl⟩
        | failAfter w => rw [hco] at h; simp at h
      | dir =>
        cases hco : env.faults.copy rel with
        | failBefore => rw [hco] at h; simp at h
        | ok => rw [hco] at h; simp at h
        | failAfter w => rw [hco] at h; simp at h

theorem copyFile_other (env : Env) (rel x : String) (fs : Files) (h : x ≠ rel) :
    (copyFile env rel fs).2 x = fs x := by
  rcases copyFile_cases env rel fs with h1 | ⟨c, h1⟩
  · rw [h1]
  · rw [h1, content_put_file, if_neg h]

theorem copyFile_kind_dir (env : Env) (rel x : String) (fs : Files)
    (h : (copyFile env rel fs).2.kind x = some .dir) : fs.kind x = some .dir := by
  rcases copyFile_cases env rel fs with h1 | ⟨c, h1⟩
  · rw [h1] at h
    exact h
  · rw [h1, kind_put] at h
    split at h
    · exact absurd h (by simp)
    · exact h

theorem mkdirAll_content :
    ∀ (dirs : List String) (fs : Files) (x : String), (fs.mkdirAll dirs) x = fs x := by
  intro dirs
  induction dirs with
  | nil => intro fs x; rfl
  | cons d rest ih =>
    intro fs x
    unfold Files.mkdirAll
    cases hk : fs.kind d with
    | none =>
      simp only []
      rw [ih, content_put_dir]
      split
      · rename_i hx
        rw [hx]
        exact (content_eq_none_of_kind_none fs d hk).symm
      · rfl
    | some e =>
      cases e with
      | dir => exact ih fs x
      | file c => rfl

theorem ensureDirExists_content (rel : String) (fs : Files) (x : String) :
    (ensureDirExists rel fs) x = fs x :=
  mkdirAll_content _ fs x

/-! ## Applier: the ledger after success -/

theorem removeBackupsLoop_frame (env : Env) (x : String) :
    ∀ (l : List (String × String)) (pi : PackageInstaller),
      (∀ kv ∈ l, x ≠ kv.2) →
      (removeBackupsLoop env pi l).installFiles x = pi.installFiles x := by
  intro l
  induction l with
  | nil => intro pi _; rfl
  | cons kv rest ih =>
    intro pi h
    obtain ⟨k, v⟩ := kv
    unfold removeBackupsLoop
    simp only []
    rw [ih _ (fun f hf => h f (List.mem_cons_of_mem _ hf))]
    exact osRemove_other _ _ _ _ (h (k, v) (List.mem_cons_self _ _))

theorem removeBackupsLoop_keeps_none (env : Env) (x : String) :
    ∀ (l : List (String × String)) (pi : PackageInstaller),
      pi.installFiles x = none → (removeBackupsLoop env pi l).installFiles x = none := by
  intro l
  induction l with
  | nil => intro pi h; exact h
  | cons kv rest ih =>
    intro pi h
    obtain ⟨k, v⟩ := kv
    unfold removeBackupsLoop
    simp only []
    exact ih _ (osRemove_keeps_none _ _ _ _ h)

/-- Without removal faults no file is left at a path the loop of `removeBackups`
went over. -/
theorem removeBackupsLoop_removed (env : Env) (hf : ∀ p, env.faults.remove p = false) :
    ∀ (l : List (String × String)) (pi : PackageInstaller),
      ∀ kv ∈ l, (removeBackupsLoop env pi l).installFiles kv.2 = none := by
  intro l
  induction l with
  | nil => intro pi kv h; exact absurd h (List.not_mem_nil _)
  | cons kv0 rest ih =>
    intro pi kv h
    obtain ⟨k, v⟩ := kv0
    unfold removeBackupsLoop
    simp only []
    rcases List.mem_cons.mp h with h | h
    · apply removeBackupsLoop_keeps_none
      rw [h]
      exact osRemove_same _ _ _ (hf v)
    · exact ih _ kv h

theorem removeBackups_eq (env : Env) (pi : PackageInstaller) :
    (pi.removeBackups env).backups = ledgerWithoutSelf env pi.backups
    ∧ ∃ pi1 : PackageInstaller, pi1.installFiles = pi.installFiles
        ∧ pi.removeBackups env = removeBackupsLoop env pi1 (ledgerWithoutSelf env pi.backups)
        := by
  unfold PackageInstaller.removeBackups ledgerWithoutSelf
  simp only []
  cases env.selfpath with
  | none =>
    simp only []
    exact ⟨(removeBackupsLoop_fields env _ _).2.1, pi, rfl, rfl⟩
  | some sp =>
    simp only []
    cases mapGet pi.backups sp with
    | none =>
      simp only []
      exact ⟨(removeBackupsLoop_fields env _ _).2.1, pi, rfl, rfl⟩
    | some v =>
      simp only []
      exact ⟨(removeBackupsLoop_fields env _ _).2.1,
        { pi with removeSelfPath := v, backups := mapDelete pi.backups sp }, rfl, rfl⟩

/-- The method `afterSuccess`: the ledger it leaves, the backup paths it clears when
no removal is made to fail, and the paths it leaves alone. -/
theorem afterSuccess_ledger (env : Env) (pi : PackageInstaller) :
    (pi.afterSuccess env).backups = ledgerWithoutSelf env pi.backups
    ∧ ((∀ p, env.faults.remove p = false) →
        ∀ kv ∈ ledgerWithoutSelf env pi.backups, (pi.afterSuccess env).installFiles kv.2 = none)
    ∧ (∀ x, (∀ kv ∈ ledgerWithoutSelf env pi.backups, x ≠ kv.2) →
        (pi.afterSuccess env).installFiles x = pi.installFiles x)
    ∧ (∀ x, pi.installFiles x = none → (pi.afterSuccess env).installFiles x = none) := by
  unfold PackageInstaller.afterSuccess
  simp only []
  obtain ⟨h0, pi1, h1, h2⟩ := removeBackups_eq env
    (pi.sendSystemMessage "Finishing the installation...")
  refine ⟨h0, ?_, ?_, ?_⟩
  · intro hfm kv hkv
    rw [h2]
    exact removeBackupsLoop_removed env hfm _ pi1 kv hkv
  · intro x hx
    have hfr := removeBackupsLoop_frame env x
      (ledgerWithoutSelf env (pi.sendSystemMessage "Finishing the installation...").backups) pi1
      hx
    rw [h2]
    exact hfr.trans (by rw [h1]; rfl)
  · intro x hx
    rw [h2]
    apply removeBackupsLoop_keeps_none
    rw [h1]
    exact hx

/-- C10 (amended): after a successful `Install` the ledger is the ledger of the phases
without the entry of the running executable, and, when no removal is made to fail, no
file is left at a backup path it lists. -/
theorem Install_success_ledger (env : Env) (pi : PackageInstaller) (d : DiffResult)
    (pi2 : PackageInstaller) (hrun : pi.Install env d = some (none, pi2))
    (hflag : pi.failInTheEnd = false) (hfm : ∀ p, env.faults.remove p = false) :
    pi2.backups = ledgerWithoutSelf env (pi.phases env d).2.backups
    ∧ ∀ kv ∈ pi2.backups, pi2.installFiles kv.2 = none := by
  obtain ⟨he, ht⟩ := Install_eq_some env pi d none pi2 hrun
  obtain ⟨_, hfiles, hled, _⟩ := teardown_fields _ _ ht
  have hflag2 := phases_failInTheEnd env pi d
  rw [applyDiff_eq] at he hfiles hled
  have hc : (pi.phases env d).1 = none ∧ (pi.phases env d).2.failInTheEnd = false := by
    refine ⟨?_, hflag2.trans hflag⟩
    by_cases hc : (pi.phases env d).1 = none ∧ (pi.phases env d).2.failInTheEnd = false
    · exact hc.1
    · rw [if_neg hc] at he
      exact he.symm
  rw [if_pos hc] at hfiles hled
  obtain ⟨a1, a2, _⟩ := afterSuccess_ledger env (pi.phases env d).2
  rw [hled, hfiles]
  refine ⟨a1, ?_⟩
  intro kv hkv
  have hkv2 : kv ∈ ((pi.phases env d).2.afterSuccess env).backups := hkv
  rw [a1] at hkv2
  exact a2 hfm kv hkv2

/-- C10 (amended) on the successful update of `a`. -/
theorem Install_success_ledger_witness :
    (PackageInstaller.new oldTree.files false).Install (plainEnv newTree) updateDiff
        = some (none, (PackageInstaller.new oldTree.files false).installed (plainEnv newTree)
            updateDiff)
    ∧ (PackageInstaller.new oldTree.files false).failInTheEnd = false
    ∧ (((PackageInstaller.new oldTree.files false).installed (plainEnv newTree)
          updateDiff).backups
        = ledgerWithoutSelf (plainEnv newTree)
            ((PackageInstaller.new oldTree.files false).phases (plainEnv newTree)
              updateDiff).2.backups
      ∧ ∀ kv ∈ ((PackageInstaller.new oldTree.files false).installed (plainEnv newTree)
          updateDiff).backups,
          ((PackageInstaller.new oldTree.files false).installed (plainEnv newTree)
            updateDiff).installFiles kv.2 = none) :=
  ⟨rfl, rfl, Install_success_ledger (plainEnv newTree) (PackageInstaller.new oldTree.files false)
    updateDiff _ rfl rfl (fun _ => rfl)⟩

/-- C10 (as stated) fails: after the successful update of `a` the ledger still holds
the pair of `a` and its backup path. -/
theorem Install_success_ledger_not_empty :
    ((PackageInstaller.new oldTree.files false).Install (plainEnv newTree) updateDiff).map
        (fun r => (r.1, r.2.backups, r.2.installFiles "a"))
      = some (none, [("a", "a.bak")], some "new") := by
  decide

/-! ## Applier: the exit contract -/

theorem newLines_of_logged {r p : PackageInstaller} {b : Bool} (h : r.Logged p b) :
    (newLines p r).any LogLine.isCopyFailure = b := by
  obtain ⟨_, lines, h1, h2⟩ := h
  unfold newLines
  rw [h1, List.drop_left]
  exact h2

theorem senderPanics_error (env : Env) (pi : PackageInstaller) (d : DiffResult)
    (h : (pi.applyDiff env d).2.senderPanics env = true) : (pi.phases env d).1 ≠ none := by
  intro hn
  have h1 : (pi.applyDiff env d).1 = (pi.phases env d).1 := by
    rw [applyDiff_eq]
    split <;> rfl
  have h2 := (applyDiff_facts env pi d).2.2.2 (h1.trans hn)
  unfold PackageInstaller.senderPanics at h
  rw [h2] at h
  simp at h

/-- C3 (amended): the phases of `Install` return an error exactly when they log a
failed copy; the process dies, and `Install` returns nothing, exactly when after such
an error a sender of the ledger finds its channel closed, or when the reporting loop
divides by a grand total of zero; otherwise `Install` returns the error of the phases,
having run the post-failure path if there is an error or `failInTheEnd` is set, and
the post-success path if not. -/
theorem Install_error_iff_copy_fails (env : Env) (pi : PackageInstaller) (d : DiffResult) :
    ((pi.phases env d).1 ≠ none ↔
      (newLines pi (pi.phases env d).2).any LogLine.isCopyFailure = true)
    ∧ (pi.Install env d = none ↔
        ((pi.phases env d).1 ≠ none ∧ (pi.applyDiff env d).2.senderPanics env = true)
        ∨ (calculateGrandTotals d = 0
          ∧ (pi.applyDiff env d).2.progressReporter.progressChan ≠ []))
    ∧ ∀ err pi2, pi.Install env d = some (err, pi2) →
        err = (pi.phases env d).1
        ∧ (err ≠ none ↔ (newLines pi pi2).any LogLine.isCopyFailure = true)
        ∧ ((err ≠ none ∨ pi.failInTheEnd = true) →
            ((pi.phases env d).2.afterFailure env d).teardown = some pi2
            ∧ pi2.systemMessages.getLast? = some "Cleaning up...")
        ∧ ((err = none ∧ pi.failInTheEnd = false) →
            ((pi.phases env d).2.afterSuccess env).teardown = some pi2
            ∧ pi2.systemMessages.getLast? = some "Finishing the installation...") := by
  have hiff : ∀ o : Option Error, o ≠ none ↔ o.isSome = true := by
    intro o; cases o <;> simp
  refine ⟨?_, ?_, ?_⟩
  · rw [newLines_of_logged (phases_logged env pi d).1]
    exact hiff _
  · rw [Install_eq_none_iff]
    constructor
    · rintro (h | h)
      · exact Or.inl ⟨senderPanics_error env pi d h, h⟩
      · exact Or.inr h
    · rintro (h | h)
      · exact Or.inl h.2
      · exact Or.inr h
  · intro err pi2 h
    obtain ⟨he, ht⟩ := Install_eq_some env pi d err pi2 h
    obtain ⟨hm, _, _, hfl, hlog⟩ := teardown_fields _ _ ht
    obtain ⟨f1, f2, f3, _⟩ := applyDiff_facts env pi d
    have h1 : (pi.applyDiff env d).1 = (pi.phases env d).1 := by
      rw [applyDiff_eq]
      split <;> rfl
    have hlogged : pi2.Logged pi (pi.applyDiff env d).1.isSome := by
      obtain ⟨g1, lines, g2, g3⟩ := f1
      exact ⟨hfl.trans g1, lines, hlog.trans g2, g3⟩
    have hflag := phases_failInTheEnd env pi d
    refine ⟨he.trans h1, ?_, ?_, ?_⟩
    · rw [newLines_of_logged hlogged, he]
      exact hiff _
    · intro hc
      rw [he] at hc
      refine ⟨?_, by rw [hm]; exact f2.mpr hc⟩
      rw [applyDiff_eq] at ht
      rw [h1] at hc
      have hn : ¬ ((pi.phases env d).1 = none ∧ (pi.phases env d).2.failInTheEnd = false) := by
        rintro ⟨a, b⟩
        rw [hflag] at b
        rcases hc with hc | hc
        · exact hc a
        · rw [hc] at b
          exact Bool.noConfusion b
      rw [if_neg hn] at ht
      exact ht
    · intro hc
      rw [he] at hc
      refine ⟨?_, by rw [hm]; exact f3.mpr hc⟩
      rw [applyDiff_eq] at ht
      rw [h1] at hc
      rw [if_pos ⟨hc.1, hflag.trans hc.2⟩] at ht
      exact ht

/-- C3 (amended) on the update of `a` with `failInTheEnd` set: no copy fails, `Install`
returns and its result is none, and the post-failure path has run. -/
theorem Install_error_iff_copy_fails_witness :
    (PackageInstaller.new oldTree.files true).Install (plainEnv newTree) updateDiff
        = some (none, (PackageInstaller.new oldTree.files true).installed (plainEnv newTree)
            updateDiff)
    ∧ (((none : Option Error) ≠ none ∨ (PackageInstaller.new oldTree.files true).failInTheEnd
          = true) →
        (((PackageInstaller.new oldTree.files true).phases (plainEnv newTree)
            updateDiff).2.afterFailure (plainEnv newTree) updateDiff).teardown
          = some ((PackageInstaller.new oldTree.files true).installed (plainEnv newTree)
              updateDiff)
        ∧ ((PackageInstaller.new oldTree.files true).installed (plainEnv newTree)
            updateDiff).systemMessages.getLast? = some "Cleaning up...") :=
  ⟨rfl, ((Install_error_iff_copy_fails (plainEnv newTree)
    (PackageInstaller.new oldTree.files true) updateDiff).2.2 none _ rfl).2.2.1⟩

/-- C3 (as stated) fails: with `failInTheEnd` set, `Install` of the update of `a`
returns no error although the post-failure path ran and `a` still holds the old bytes. -/
theorem Install_failInTheEnd_returns_nil :
    ((PackageInstaller.new oldTree.files true).Install (plainEnv newTree) updateDiff).map
        (fun r => (r.1, r.2.systemMessages.getLast?, r.2.installFiles "a"))
      = some (none, some "Cleaning up...", some "old")
    ∧ newTree.files "a" = some "new" := by
  decide

/-! ## Applier: rollback -/

/-- C2: in the rollback scenario (install tree with `a`, package with a new `a` and a
file `b` whose copy fails) `installPackage` returns the error without waiting for the
sender of the pair of `a`. When the pair is stored in time, `a` gets its old bytes
back and no backup is left. When the sender runs after the channel was closed the
process dies. When the sender does not run before the process exits, `Install` returns
the error with the new `a` in place and the old one left at `a.bak`. -/
theorem Install_rollback_races :
    diffOf treeA packageAB false false = some rollbackDiff
    ∧ ((PackageInstaller.new treeA.files false).Install
          (failingEnv packageAB Schedule.prompt) rollbackDiff).map
        (fun r => (r.1.isSome, r.2.installFiles "a", r.2.installFiles "a.bak",
          r.2.installFiles "b"))
      = some (true, some "A", none, none)
    ∧ ((PackageInstaller.new treeA.files false).applyDiff
          (failingEnv packageAB Schedule.late) rollbackDiff).2.backupsChan = [("a", "a.bak")]
    ∧ ((PackageInstaller.new treeA.files false).Install
          (failingEnv packageAB Schedule.late) rollbackDiff).isSome = false
    ∧ ((PackageInstaller.new treeA.files false).Install
          (failingEnv packageAB Schedule.never) rollbackDiff).map
        (fun r => (r.1.isSome, r.2.installFiles "a", r.2.installFiles "a.bak",
          r.2.installFiles "b"))
      = some (true, some "A2", some "A", none) := by
  decide

/-! ## Applier: a successful run -/

theorem mem_ancestorsAux (pre suf : List Char) :
    ∀ seen : List Char, String.mk (seen.reverse ++ pre) ∈ ancestorsAux seen (pre ++ '/' :: suf)
    := by
  induction pre with
  | nil =>
    intro seen
    simp [ancestorsAux]
  | cons c pre ih =>
    intro seen
    have h := ih (c :: seen)
    simp only [List.reverse_cons, List.append_assoc, List.singleton_append] at h
    simp only [List.cons_append, ancestorsAux]
    split
    · exact List.mem_cons_of_mem _ h
    · exact h

theorem mem_ancestors_of_isBelow (q p : String) (h : isBelow q p = true) : q ∈ ancestors p := by
  unfold isBelow at h
  rw [List.isPrefixOf_iff_prefix] at h
  obtain ⟨suf, hs⟩ := h
  unfold ancestors
  rw [← hs]
  have := mem_ancestorsAux q.data suf []
  simpa using this

theorem lookup_eq_some_mem (t : Tree) (p : String) (node : Node) (h : t.lookup p = some node) :
    (p, node) ∈ t := by
  induction t with
  | nil => simp [Tree.lookup] at h
  | cons e rest ih =>
    obtain ⟨q, n⟩ := e
    unfold Tree.lookup at h
    by_cases hq : q = p
    · simp only [hq, if_true, Option.some.injEq] at h
      rw [hq, h]
      exact List.mem_cons_self _ _
    · simp only [hq, if_false] at h
      exact List.mem_cons_of_mem _ (ih h)

theorem lookup_eq_of_mem (t : Tree) (hn : (t.map Prod.fst).Nodup) (p : String) (node : Node)
    (h : (p, node) ∈ t) : t.lookup p = some node := by
  induction t with
  | nil => simp at h
  | cons e rest ih =>
    obtain ⟨q, n⟩ := e
    simp only [List.map_cons, List.nodup_cons] at hn
    unfold Tree.lookup
    rcases List.mem_cons.mp h with h | h
    · simp only [Prod.mk.injEq] at h
      simp [h.1, h.2]
    · have hq : q ≠ p := by
        intro hq
        apply hn.1
        rw [hq]
        exact List.mem_map_of_mem Prod.fst h
      simp only [hq, if_false]
      exact ih hn.2 h

/-- The entry of a tree as the applier sees it. -/
theorem files_kind_of_mem (t : Tree) (hn : (t.map Prod.fst).Nodup) (p : String) (node : Node)
    (h : (p, node) ∈ t) :
    t.files.kind p = node.entry := by
  induction t with
  | nil => simp at h
  | cons e rest ih =>
    obtain ⟨q, n⟩ := e
    simp only [List.map_cons, List.nodup_cons] at hn
    rcases List.mem_cons.mp h with h | h
    · simp only [Prod.mk.injEq] at h
      obtain ⟨rfl, rfl⟩ := h
      cases node with
      | file c => simp [Tree.files, Files.kind, List.filterMap_cons, Node.entry]
      | dir s => simp [Tree.files, Files.kind, List.filterMap_cons, Node.entry]
      | other s =>
        simp only [Tree.files, Files.kind, List.filterMap_cons, Node.entry]
        cases hf : List.find? (fun e => decide (e.1 = p)) (List.filterMap (fun e =>
            match e.2 with
            | .file content => some (e.1, Entry.file content)
            | .dir _ => some (e.1, Entry.dir)
            | .other _ => none) rest) with
        | none => rfl
        | some x =>
          exfalso
          have h1 := List.find?_some hf
          have h2 := List.mem_of_find?_eq_some hf
          simp only [decide_eq_true_eq] at h1
          rw [List.mem_filterMap] at h2
          obtain ⟨a, ha, hax⟩ := h2
          apply hn.1
          have : a.1 = p := by
            cases hk : a.2 with
            | file c => rw [hk] at hax; simp only [Option.some.injEq] at hax; rw [← h1, ← hax]
            | dir c => rw [hk] at hax; simp only [Option.some.injEq] at hax; rw [← h1, ← hax]
            | other c => rw [hk] at hax; simp at hax
          rw [← this]
          exact List.mem_map_of_mem Prod.fst ha
    · have hq : q ≠ p := by
        intro hq
        apply hn.1
        rw [hq]
        exact List.mem_map_of_mem Prod.fst h
      have ih2 := ih hn.2 h
      simp only [Tree.files, Files.kind, List.filterMap_cons] at ih2 ⊢
      cases n with
      | file c => simp only [List.find?_cons, hq, decide_False]; exact ih2
      | dir c => simp only [List.find?_cons, hq, decide_False]; exact ih2
      | other c => exact ih2

theorem files_kind_mem (t : Tree) (p : String) (e : Entry) (h : t.files.kind p = some e) :
    ∃ node, (p, node) ∈ t ∧ node.entry = some e := by
  have h1 := mem_of_kind _ _ _ h
  simp only [Tree.files, List.mem_filterMap] at h1
  obtain ⟨a, ha, hax⟩ := h1
  obtain ⟨q, n⟩ := a
  cases n with
  | file c =>
    simp only [Option.some.injEq, Prod.mk.injEq] at hax
    exact ⟨.file c, by rw [← hax.1]; exact ha, by rw [← hax.2]; rfl⟩
  | dir c =>
    simp only [Option.some.injEq, Prod.mk.injEq] at hax
    exact ⟨.dir c, by rw [← hax.1]; exact ha, by rw [← hax.2]; rfl⟩
  | other c => simp at hax

/-- In a well-formed tree an entry with an entry below it is a directory. -/
theorem isDir_of_isBelow (t : Tree) (hw : t.WellFormed) (e : String × Node) (he : e ∈ t)
    (p : String) (node : Node) (hp : (p, node) ∈ t) (hb : isBelow e.1 p = true) :
    e.2.isDir = true := by
  have h1 := (hw.2 (p, node) hp).2 e.1 (mem_ancestors_of_isBelow _ _ hb)
  rw [lookup_eq_of_mem t hw.1 e.1 e.2 he] at h1
  simpa using h1

/-- The call `os.Stat` on an entry of a well-formed tree. -/
theorem stat_ok_of_mem (t : Tree) (hw : t.WellFormed) (p : String) (node : Node)
    (hp : (p, node) ∈ t) : stat t p = StatResult.ok node := by
  unfold stat
  have hany : t.any (fun e => !e.2.isDir && isBelow e.1 p) = false := by
    rw [List.any_eq_false]
    intro e he
    cases hb : isBelow e.1 p
    · simp
    · simp [isDir_of_isBelow t hw e he p node hp hb]
  rw [hany, lookup_eq_of_mem t hw.1 p node hp]
  rfl

/-- The call `os.Stat` in one tree on the path of an entry of the other tree does not
fail on a regular file in the way, when the two trees agree on what is a directory. -/
theorem stat_ne_failed (t1 t2 : Tree) (hw : t1.WellFormed)
    (hk : ∀ e ∈ t1, ∀ e2 ∈ t2, e.1 = e2.1 → e.2.isDir = e2.2.isDir)
    (p : String) (node : Node) (hp : (p, node) ∈ t1) : stat t2 p ≠ StatResult.failed := by
  unfold stat
  have hany : t2.any (fun e => !e.2.isDir && isBelow e.1 p) = false := by
    rw [List.any_eq_false]
    intro e he
    cases hb : isBelow e.1 p
    · simp
    · have h1 := (hw.2 (p, node) hp).2 e.1 (mem_ancestors_of_isBelow _ _ hb)
      cases hl : t1.lookup e.1 with
      | none => rw [hl] at h1; simp at h1
      | some n =>
        rw [hl] at h1
        simp only [Option.map_some', Option.some.injEq] at h1
        have h2 := hk (e.1, n) (lookup_eq_some_mem t1 e.1 n hl) e he rfl
        simp only [] at h2
        simp [← h2, h1]
  rw [hany]
  simp only [Bool.false_eq_true, if_false]
  split <;> exact fun hc => StatResult.noConfusion hc

theorem stat_notExist_lookup (t : Tree) (p : String) (h : stat t p = StatResult.notExist) :
    t.lookup p = none := by
  unfold stat at h
  split at h
  · exact StatResult.noConfusion h
  · cases hl : t.lookup p with
    | none => rfl
    | some n => rw [hl] at h; exact StatResult.noConfusion h

theorem files_content_none_of_lookup (t : Tree) (p : String) (h : t.lookup p = none) :
    t.files p = none := by
  rw [coe_eq_content]
  unfold Files.content
  cases hk : t.files.kind p with
  | none => rfl
  | some e =>
    obtain ⟨node, hm, _⟩ := files_kind_mem t p e hk
    exact absurd h (lookup_of_mem t p node hm)

theorem files_content_some (t : Tree) (p c : String) (h : t.files p = some c) :
    (p, Node.file c) ∈ t := by
  rw [content_eq_some_iff] at h
  obtain ⟨node, hm, hn⟩ := files_kind_mem t p _ h
  cases node with
  | file c2 =>
    simp only [Node.entry, Option.some.injEq, Entry.file.injEq] at hn
    rw [← hn]; exact hm
  | dir s => simp [Node.entry] at hn
  | other s => simp [Node.entry] at hn

theorem files_content_of_mem (t : Tree) (hn : (t.map Prod.fst).Nodup) (p c : String)
    (h : (p, Node.file c) ∈ t) : t.files p = some c := by
  rw [content_eq_some_iff, files_kind_of_mem t hn p _ h]
  rfl

theorem content_congr (fs1 fs2 : Files) (x : String) (h : fs1.kind x = fs2.kind x) :
    fs1 x = fs2 x := by
  rw [coe_eq_content, coe_eq_content]
  unfold Files.content
  rw [h]

/-- Without a fault `os.Remove` leaves nothing at the path, unless a directory that is
not empty is there. -/
theorem osRemove_at (flt : Faults) (p : String) (fs : Files) (hf : flt.remove p = false) :
    (osRemove flt p fs).2.kind p = none
    ∨ ((osRemove flt p fs).2 = fs ∧ fs.kind p = some .dir ∧ fs.hasChildren p = true) := by
  cases hc : fs.hasChildren p
  · exact Or.inl (osRemove_kind_same flt p fs hf hc)
  · have he : (fs.erase p).kind p = none := by rw [kind_erase, if_pos rfl]
    unfold osRemove
    rw [hf]
    simp only [Bool.false_eq_true, if_false]
    cases h : fs.kind p with
    | none => exact Or.inl h
    | some e =>
      cases e with
      | file c => exact Or.inl he
      | dir =>
        right
        simp [hc]

/-- How `os.Rename` of a path that holds no directory ends without a fault: the
source is missing, a directory is in the way, or the file has moved. -/
theorem osRename_file_cases (flt : Faults) (src dst : String) (fs : Files)
    (hf : flt.rename src dst = false) (hne : src ≠ dst) (hsrc : fs.kind src ≠ some .dir) :
    (fs.kind src = none ∧ ∃ e, osRename flt src dst fs = (some e, fs))
    ∨ (fs.kind dst = some .dir ∧ ∃ e, osRename flt src dst fs = (some e, fs))
    ∨ ∃ c, fs.kind src = some (.file c)
        ∧ osRename flt src dst fs = (none, (fs.erase src).put dst (.file c)) := by
  cases hs : fs.kind src with
  | none =>
    refine Or.inl ⟨rfl, "file does not exist", ?_⟩
    unfold osRename
    rw [hf, hs]
    simp
  | some e =>
    cases e with
    | dir => exact absurd hs hsrc
    | file c =>
      by_cases hd : fs.kind dst = some .dir
      · refine Or.inr (Or.inl ⟨hd, "file exists", ?_⟩)
        unfold osRename
        rw [hf, hs, hd]
        simp [hne]
      · exact Or.inr (Or.inr ⟨c, rfl, osRename_ok flt src dst c fs hf hs hne hd⟩)

/-- How `backupFile` of a path that holds no directory ends without a fault: no pair
is sent and nothing moves, because the path holds nothing or a directory sits at the
backup path, or the file moves to the backup path and the pair is sent. -/
theorem backupFile_cases (env : Env) (pi : PackageInstaller) (t : String)
    (hfr : ∀ a b, env.faults.rename a b = false)
    (hsrc : pi.installFiles.kind t ≠ some .dir) :
    ((pi.backupFile env t).2.backupsChan = pi.backupsChan
      ∧ (pi.backupFile env t).2.installFiles
          = (osRemove env.faults (t ++ BackupExt) pi.installFiles).2
      ∧ ((osRemove env.faults (t ++ BackupExt) pi.installFiles).2.kind t = none
        ∨ (osRemove env.faults (t ++ BackupExt) pi.installFiles).2.kind (t ++ BackupExt)
            = some .dir))
    ∨ ∃ c, (osRemove env.faults (t ++ BackupExt) pi.installFiles).2.kind t = some (.file c)
        ∧ (pi.backupFile env t).2.backupsChan = pi.backupsChan ++ [backupPair t]
        ∧ (pi.backupFile env t).2.installFiles
            = ((osRemove env.faults (t ++ BackupExt) pi.installFiles).2.erase t).put
                (t ++ BackupExt) (.file c) := by
  have hsrc1 : (osRemove env.faults (t ++ BackupExt) pi.installFiles).2.kind t ≠ some .dir :=
    fun h => hsrc (osRemove_kind_dir _ _ _ _ h)
  unfold PackageInstaller.backupFile
  simp only []
  rcases osRename_file_cases env.faults t (t ++ BackupExt) _ (hfr _ _) (bak_ne_self t).symm hsrc1
    with ⟨h1, e, h2⟩ | ⟨h1, e, h2⟩ | ⟨c, h1, h2⟩
  · rw [h2]
    exact Or.inl ⟨rfl, rfl, Or.inl h1⟩
  · rw [h2]
    exact Or.inl ⟨rfl, rfl, Or.inr h1⟩
  · rw [h2]
    exact Or.inr ⟨c, h1, rfl, rfl⟩

/-- What `backupFile` of a path that holds no directory does to the install directory
and to the pairs sent, without a fault. -/
theorem backupFile_facts (env : Env) (pi : PackageInstaller) (t : String)
    (hfr : ∀ a b, env.faults.rename a b = false) (hfm : ∀ p, env.faults.remove p = false)
    (hsrc : pi.installFiles.kind t ≠ some .dir) :
    (∀ x, x ≠ t → x ≠ t ++ BackupExt →
      (pi.backupFile env t).2.installFiles.kind x = pi.installFiles.kind x)
    ∧ (∀ kv ∈ pi.backupsChan, kv ∈ (pi.backupFile env t).2.backupsChan)
    ∧ (∀ kv ∈ (pi.backupFile env t).2.backupsChan, kv ∈ pi.backupsChan ∨ kv = backupPair t)
    ∧ ((pi.backupFile env t).2.installFiles (t ++ BackupExt) = none
      ∨ backupPair t ∈ (pi.backupFile env t).2.backupsChan)
    ∧ ((pi.backupFile env t).2.installFiles t = none
      ∨ (pi.backupFile env t).2.installFiles t = pi.installFiles t)
    ∧ ((pi.backupFile env t).2.installFiles t = none
      ∨ pi.installFiles.hasChildren (t ++ BackupExt) = true)
    ∧ (∀ x, (pi.backupFile env t).2.installFiles.kind x = some .dir →
        pi.installFiles.kind x = some .dir)
    ∧ (∀ x, (pi.backupFile env t).2.installFiles.kind x ≠ none →
        pi.installFiles.kind x ≠ none ∨ x = t ++ BackupExt) := by
  have hne : t ≠ t ++ BackupExt := (bak_ne_self t).symm
  have hk1 : ∀ x, x ≠ t ++ BackupExt →
      (osRemove env.faults (t ++ BackupExt) pi.installFiles).2.kind x = pi.installFiles.kind x :=
    fun x hx => osRemove_kind_other _ _ _ _ hx
  rcases backupFile_cases env pi t hfr hsrc with ⟨hc, hfs, hwhy⟩ | ⟨c, hk, hc, hfs⟩
  · rw [hc, hfs]
    refine ⟨fun x _ hx => hk1 x hx, fun kv h => h, fun kv h => Or.inl h,
      Or.inl (osRemove_same _ _ _ (hfm _)), Or.inr (osRemove_other _ _ _ _ hne), ?_,
      fun x h => osRemove_kind_dir _ _ _ _ h, ?_⟩
    · rcases hwhy with h | h
      · exact Or.inl (content_eq_none_of_kind_none _ _ h)
      · rcases osRemove_at env.faults (t ++ BackupExt) pi.installFiles (hfm _) with h2 | h2
        · rw [h2] at h
          exact Option.noConfusion h
        · exact Or.inr h2.2.2
    · intro x hx
      left
      by_cases hxb : x = t ++ BackupExt
      · rcases osRemove_at env.faults (t ++ BackupExt) pi.installFiles (hfm _) with h2 | h2
        · rw [hxb] at hx
          exact absurd h2 hx
        · rw [hxb, h2.2.1]
          exact fun h => Option.noConfusion h
      · rw [hk1 x hxb] at hx
        exact hx
  · rw [hc, hfs]
    have hcont : ∀ x, ((((osRemove env.faults (t ++ BackupExt) pi.installFiles).2.erase t).put
        (t ++ BackupExt) (.file c)).kind x)
        = if x = t ++ BackupExt then some (.file c)
          else if x = t then none
          else (osRemove env.faults (t ++ BackupExt) pi.installFiles).2.kind x := by
      intro x
      rw [kind_put, kind_erase]
    refine ⟨?_, fun kv h => List.mem_append_left _ h, ?_,
      Or.inr (List.mem_append_right _ (List.mem_singleton_self _)), Or.inl ?_, Or.inl ?_, ?_, ?_⟩
    · intro x hx hxb
      rw [hcont, if_neg hxb, if_neg hx]
      exact hk1 x hxb
    · intro kv h
      rcases List.mem_append.mp h with h | h
      · exact Or.inl h
      · exact Or.inr (List.mem_singleton.mp h)
    · apply content_eq_none_of_kind_none
      rw [hcont, if_neg hne, if_pos rfl]
    · apply content_eq_none_of_kind_none
      rw [hcont, if_neg hne, if_pos rfl]
    · intro x hx
      rw [hcont] at hx
      by_cases hxb : x = t ++ BackupExt
      · rw [if_pos hxb] at hx
        exact absurd hx (by simp)
      · rw [if_neg hxb] at hx
        by_cases hxt : x = t
        · rw [if_pos hxt] at hx
          exact Option.noConfusion hx
        · rw [if_neg hxt] at hx
          exact osRemove_kind_dir _ _ _ _ hx
    · intro x hx
      by_cases hxb : x = t ++ BackupExt
      · exact Or.inr hxb
      · left
        rw [hcont, if_neg hxb] at hx
        by_cases hxt : x = t
        · rw [if_pos hxt] at hx
          exact absurd rfl hx
        · rw [if_neg hxt, hk1 x hxb] at hx
          exact hx

theorem Accounted.weaken {fs1 fs2 : Files} {chan1 chan2 : List (String × String)} {x : String}
    (hfs : fs2 x = fs1 x) (hch : ∀ kv ∈ chan1, kv ∈ chan2) (h : Accounted fs1 chan1 x) :
    Accounted fs2 chan2 x := by
  rcases h with h | ⟨t, ht, hm⟩
  · exact Or.inl (hfs.trans h)
  · exact Or.inr ⟨t, ht, hch _ hm⟩

theorem Final.mono {P fs1 fs2 : Files} {chan1 chan2 : List (String × String)} {x : String}
    (hfs : fs2 x = fs1 x) (hch : ∀ kv ∈ chan1, kv ∈ chan2) (h : Final P fs1 chan1 x) :
    Final P fs2 chan2 x :=
  ⟨fun hp => (h.1 hp).weaken hfs hch, fun hp => hfs.trans (h.2 hp)⟩

/-- A path that is accounted for stays so when another path is backed up. -/
theorem backupFile_accounted (env : Env) (pi : PackageInstaller) (t : String)
    (hfr : ∀ a b, env.faults.rename a b = false) (hfm : ∀ p, env.faults.remove p = false)
    (hsrc : pi.installFiles.kind t ≠ some .dir) (x : String)
    (h : Accounted pi.installFiles pi.backupsChan x) :
    Accounted (pi.backupFile env t).2.installFiles (pi.backupFile env t).2.backupsChan x := by
  obtain ⟨f1, f2, _, f4, f5, _, _, _⟩ := backupFile_facts env pi t hfr hfm hsrc
  by_cases hxb : x = t ++ BackupExt
  · rcases f4 with h4 | h4
    · rw [hxb]
      exact Or.inl h4
    · exact Or.inr ⟨t, hxb, h4⟩
  · by_cases hxt : x = t
    · rcases f5 with h5 | h5
      · rw [hxt]
        exact Or.inl h5
      · refine h.weaken ?_ f2
        rw [hxt]
        exact h5
    · exact h.weaken (content_congr _ _ _ (f1 x hxt hxb)) f2

/-- A path that is final stays so when another path is backed up. -/
theorem backupFile_final (env : Env) (P : Files) (pi : PackageInstaller) (t : String)
    (hfr : ∀ a b, env.faults.rename a b = false) (hfm : ∀ p, env.faults.remove p = false)
    (hsrc : pi.installFiles.kind t ≠ some .dir) (hbak : P (t ++ BackupExt) = none)
    (x : String) (hx : x ≠ t ∨ P t = none)
    (h : Final P pi.installFiles pi.backupsChan x) :
    Final P (pi.backupFile env t).2.installFiles (pi.backupFile env t).2.backupsChan x := by
  refine ⟨fun hp => backupFile_accounted env pi t hfr hfm hsrc x (h.1 hp), ?_⟩
  intro hp
  have hxb : x ≠ t ++ BackupExt := by
    intro hxb
    rw [hxb] at hp
    exact hp hbak
  have hxt : x ≠ t := by
    rcases hx with hx | hx
    · exact hx
    · intro hxt
      rw [hxt] at hp
      exact hp hx
  obtain ⟨f1, _⟩ := backupFile_facts env pi t hfr hfm hsrc
  exact (content_congr _ _ _ (f1 x hxt hxb)).trans (h.2 hp)

theorem removeFiles_cons (env : Env) (pi : PackageInstaller) (fi : UpdateFileInfo)
    (rest : List UpdateFileInfo) :
    ∃ pi2 : PackageInstaller, pi.removeFiles env (fi :: rest) = pi2.removeFiles env rest
      ∧ pi2.installFiles = (pi.backupFile env fi.Filepath).2.installFiles
      ∧ pi2.backupsChan = (pi.backupFile env fi.Filepath).2.backupsChan
      ∧ pi2.backups = pi.backups := by
  refine ⟨{ (pi.backupFile env fi.Filepath).2.logIf (pi.backupFile env fi.Filepath).1
      (.removeFailed fi.Filepath) with
    progressReporter := ((pi.backupFile env fi.Filepath).2.logIf (pi.backupFile env fi.Filepath).1
      (.removeFailed fi.Filepath)).progressReporter.accountRemove fi.FileSize }, rfl, ?_, ?_, ?_⟩
  · exact (logIf_fields _ _ _).2.2.2.1
  · exact (logIf_fields _ _ _).2.2.2.2.2.1
  · exact (logIf_fields _ _ _).2.2.2.2.1.trans (backupFile_fields env pi fi.Filepath).2.2.2.2.2

theorem updateFiles_cons_ok (env : Env) (pi : PackageInstaller) (fi : UpdateFileInfo)
    (rest : List UpdateFileInfo) (h : (pi.updateFiles env (fi :: rest)).1 = none) :
    ∃ pi3 : PackageInstaller, pi.updateFiles env (fi :: rest) = pi3.updateFiles env rest
      ∧ (copyFile env fi.Filepath
          (osRemove env.faults fi.Filepath (pi.backupFile env fi.Filepath).2.installFiles).2).1
          = none
      ∧ pi3.installFiles = (copyFile env fi.Filepath
          (osRemove env.faults fi.Filepath (pi.backupFile env fi.Filepath).2.installFiles).2).2
      ∧ pi3.backupsChan = (pi.backupFile env fi.Filepath).2.backupsChan
      ∧ pi3.backups = pi.backups := by
  have hl := logIf_fields (pi.backupFile env fi.Filepath).2 (pi.backupFile env fi.Filepath).1
    (.backupFailed fi.Filepath)
  have hstep : pi.updateFiles env (fi :: rest)
      = match (copyFile env fi.Filepath (osRemove env.faults fi.Filepath
          ((pi.backupFile env fi.Filepath).2.logIf (pi.backupFile env fi.Filepath).1
            (.backupFailed fi.Filepath)).installFiles).2) with
        | (err, fs3) =>
          match err with
          | some e => (some e, PackageInstaller.logIf
              { (pi.backupFile env fi.Filepath).2.logIf (pi.backupFile env fi.Filepath).1
                  (.backupFailed fi.Filepath) with
                installFiles := fs3,
                progressReporter := ((pi.backupFile env fi.Filepath).2.logIf
                  (pi.backupFile env fi.Filepath).1
                  (.backupFailed fi.Filepath)).progressReporter.accountUpdate fi.FileSize }
              err (.updateFailed fi.Filepath))
          | none => PackageInstaller.updateFiles env
              { (pi.backupFile env fi.Filepath).2.logIf (pi.backupFile env fi.Filepath).1
                  (.backupFailed fi.Filepath) with
                installFiles := fs3,
                progressReporter := ((pi.backupFile env fi.Filepath).2.logIf
                  (pi.backupFile env fi.Filepath).1
                  (.backupFailed fi.Filepath)).progressReporter.accountUpdate fi.FileSize }
              rest := rfl
  rw [hstep] at h ⊢
  rw [hl.2.2.2.1] at h ⊢
  cases hc : copyFile env fi.Filepath
      (osRemove env.faults fi.Filepath (pi.backupFile env fi.Filepath).2.installFiles).2 with
  | mk err fs3 =>
    rw [hc] at h
    cases err with
    | none =>
      exact ⟨_, rfl, rfl, rfl, hl.2.2.2.2.2.1,
        hl.2.2.2.2.1.trans (backupFile_fields env pi fi.Filepath).2.2.2.2.2⟩
    | some e => simp at h

theorem addFiles_cons_ok (env : Env) (pi : PackageInstaller) (fi : UpdateFileInfo)
    (rest : List UpdateFileInfo) (h : (pi.addFiles env (fi :: rest)).1 = none) :
    ∃ pi1 : PackageInstaller, pi.addFiles env (fi :: rest) = pi1.addFiles env rest
      ∧ (copyFile env fi.Filepath (ensureDirExists fi.Filepath pi.installFiles)).1 = none
      ∧ pi1.installFiles
          = (copyFile env fi.Filepath (ensureDirExists fi.Filepath pi.installFiles)).2
      ∧ pi1.backupsChan = pi.backupsChan
      ∧ pi1.backups = pi.backups := by
  have hstep : pi.addFiles env (fi :: rest)
      = match copyFile env fi.Filepath (ensureDirExists fi.Filepath pi.installFiles) with
        | (some e, fs1) =>
          (some e, { pi with installFiles := fs1, log := pi.log ++ [.addFailed fi.Filepath] })
        | (none, fs1) =>
          PackageInstaller.addFiles env
            { pi with installFiles := fs1,
                      progressReporter := pi.progressReporter.accountAdd fi.FileSize } rest :=
    rfl
  rw [hstep] at h ⊢
  cases hc : copyFile env fi.Filepath (ensureDirExists fi.Filepath pi.installFiles) with
  | mk err fs1 =>
    rw [hc] at h
    cases err with
    | none => exact ⟨_, rfl, rfl, rfl, rfl, rfl⟩
    | some e => simp at h

/-- The remove phase without faults: every path that was final or is removed is final
afterwards, and each pair sent records a file of the list. -/
theorem removeFiles_final (env : Env) (P install : Files) (removed : List UpdateFileInfo)
    (hfr : ∀ a b, env.faults.rename a b = false) (hfm : ∀ p, env.faults.remove p = false) :
    ∀ (l : List UpdateFileInfo) (pi : PackageInstaller),
      (∀ fi ∈ l, fi ∈ removed) →
      (∀ fi ∈ l, P fi.Filepath = none ∧ P (fi.Filepath ++ BackupExt) = none
        ∧ install.kind fi.Filepath ≠ some .dir
        ∧ ∀ x, isBelow (fi.Filepath ++ BackupExt) x = true →
            install.kind x = none ∧ ∀ fi2 ∈ removed, x ≠ fi2.Filepath ++ BackupExt) →
      NoNewDirs install pi.installFiles → NoNewEntries install pi.installFiles removed →
      NoNewDirs install (pi.removeFiles env l).2.installFiles
      ∧ (∀ x, (Final P pi.installFiles pi.backupsChan x ∨ x ∈ l.map (fun fi => fi.Filepath)) →
          Final P (pi.removeFiles env l).2.installFiles (pi.removeFiles env l).2.backupsChan x)
      ∧ (∀ kv ∈ (pi.removeFiles env l).2.backupsChan,
          kv ∈ pi.backupsChan ∨ ∃ fi ∈ l, kv = backupPair fi.Filepath)
      ∧ (pi.removeFiles env l).2.backups = pi.backups := by
  intro l
  induction l with
  | nil =>
    intro pi _ _ hd _
    refine ⟨hd, ?_, fun kv h => Or.inl h, rfl⟩
    intro x hx
    rcases hx with hx | hx
    · exact hx
    · simp at hx
  | cons fi rest ih =>
    intro pi hsub hl hd hn
    obtain ⟨pi2, hstep, hfs, hch, hbk⟩ := removeFiles_cons env pi fi rest
    obtain ⟨hP, hPb, hkind, hclear⟩ := hl fi (List.mem_cons_self _ _)
    have hsrc : pi.installFiles.kind fi.Filepath ≠ some .dir := fun h => hkind (hd _ h)
    obtain ⟨f1, f2, f3, f4, f5, f6, f7, f8⟩ :=
      backupFile_facts env pi fi.Filepath hfr hfm hsrc
    have hd2 : NoNewDirs install pi2.installFiles := by
      intro x hx
      rw [hfs] at hx
      exact hd x (f7 x hx)
    have hn2 : NoNewEntries install pi2.installFiles removed := by
      intro x hx
      rw [hfs] at hx
      rcases f8 x hx with h | h
      · exact hn x h
      · exact Or.inr ⟨fi, hsub fi (List.mem_cons_self _ _), h⟩
    have hgone : pi2.installFiles fi.Filepath = none := by
      rw [hfs]
      rcases f6 with h | h
      · exact h
      · exfalso
        unfold Files.hasChildren at h
        rw [List.any_eq_true] at h
        obtain ⟨e, he, hb⟩ := h
        obtain ⟨c1, c2⟩ := hclear e.1 hb
        rcases hn e.1 (kind_ne_none_of_mem _ e he) with h1 | ⟨fi2, h2, h3⟩
        · exact h1 c1
        · exact c2 fi2 h2 h3
    obtain ⟨i1, i2, i3, i4⟩ := ih pi2 (fun f hf => hsub f (List.mem_cons_of_mem _ hf))
      (fun f hf => hl f (List.mem_cons_of_mem _ hf)) hd2 hn2
    rw [hstep]
    refine ⟨i1, ?_, ?_, i4.trans hbk⟩
    · intro x hx
      apply i2 x
      by_cases hxt : x = fi.Filepath
      · left
        rw [hxt]
        refine ⟨fun _ => Or.inl hgone, fun hp => absurd hP hp⟩
      · rcases hx with hx | hx
        · left
          rw [hfs, hch]
          exact backupFile_final env P pi fi.Filepath hfr hfm hsrc hPb x (Or.inl hxt) hx
        · right
          simp only [List.map_cons, List.mem_cons] at hx
          rcases hx with hx | hx
          · exact absurd hx hxt
          · exact hx
    · intro kv hkv
      rcases i3 kv hkv with h | ⟨f, hf, h⟩
      · rw [hch] at h
        rcases f3 kv h with h | h
        · exact Or.inl h
        · exact Or.inr ⟨fi, List.mem_cons_self _ _, h⟩
      · exact Or.inr ⟨f, List.mem_cons_of_mem _ hf, h⟩

/-- The update phase without faults, when every copy succeeds: every path that was
final or is updated is final afterwards, and each pair sent records a file of the
list. -/
theorem updateFiles_final (env : Env) (P install : Files)
    (hfr : ∀ a b, env.faults.rename a b = false) (hfm : ∀ p, env.faults.remove p = false)
    (hpkg : env.packageFiles = P) :
    ∀ (l : List UpdateFileInfo) (pi : PackageInstaller),
      (pi.updateFiles env l).1 = none →
      (∀ fi ∈ l, P (fi.Filepath ++ BackupExt) = none
        ∧ install.kind fi.Filepath ≠ some .dir) →
      NoNewDirs install pi.installFiles →
      (∀ x, (Final P pi.installFiles pi.backupsChan x ∨ x ∈ l.map (fun fi => fi.Filepath)) →
          Final P (pi.updateFiles env l).2.installFiles (pi.updateFiles env l).2.backupsChan x)
      ∧ (∀ kv ∈ (pi.updateFiles env l).2.backupsChan,
          kv ∈ pi.backupsChan ∨ ∃ fi ∈ l, kv = backupPair fi.Filepath)
      ∧ (pi.updateFiles env l).2.backups = pi.backups := by
  intro l
  induction l with
  | nil =>
    intro pi _ _ _
    refine ⟨?_, fun kv h => Or.inl h, rfl⟩
    intro x hx
    rcases hx with hx | hx
    · exact hx
    · simp at hx
  | cons fi rest ih =>
    intro pi hok hl hd
    obtain ⟨pi3, hstep, hcopy, hfs, hch, hbk⟩ := updateFiles_cons_ok env pi fi rest hok
    obtain ⟨hPb, hkind⟩ := hl fi (List.mem_cons_self _ _)
    have hsrc : pi.installFiles.kind fi.Filepath ≠ some .dir := fun h => hkind (hd _ h)
    obtain ⟨f1, f2, f3, f4, f5, f6, f7, f8⟩ :=
      backupFile_facts env pi fi.Filepath hfr hfm hsrc
    obtain ⟨c, hc1, hc2⟩ := copyFile_ok env fi.Filepath _ hcopy
    rw [hpkg] at hc1
    have hPu : P fi.Filepath = some c := (content_eq_some_iff _ _ _).mpr hc1
    have hd3 : NoNewDirs install pi3.installFiles := by
      intro x hx
      rw [hfs] at hx
      exact hd x (f7 x (osRemove_kind_dir _ _ _ _ (copyFile_kind_dir _ _ _ _ hx)))
    rw [hstep] at hok ⊢
    obtain ⟨i1, i2, i3⟩ := ih pi3 hok (fun f hf => hl f (List.mem_cons_of_mem _ hf)) hd3
    refine ⟨?_, ?_, i3.trans hbk⟩
    · intro x hx
      apply i1 x
      by_cases hxt : x = fi.Filepath
      · left
        rw [hxt, hfs, hc2]
        refine ⟨fun hp => ?_, fun _ => ?_⟩
        · rw [hPu] at hp
          exact Option.noConfusion hp
        · rw [content_put_file, if_pos rfl, hPu]
      · rcases hx with hx | hx
        · left
          rw [hch]
          refine (backupFile_final env P pi fi.Filepath hfr hfm hsrc hPb x (Or.inl hxt) hx).mono
            ?_ (fun kv h => h)
          rw [hfs, copyFile_other env fi.Filepath x _ hxt]
          exact osRemove_other _ _ _ _ hxt
        · right
          simp only [List.map_cons, List.mem_cons] at hx
          rcases hx with hx | hx
          · exact absurd hx hxt
          · exact hx
    · intro kv hkv
      rcases i2 kv hkv with h | ⟨f, hf, h⟩
      · rw [hch] at h
        rcases f3 kv h with h | h
        · exact Or.inl h
        · exact Or.inr ⟨fi, List.mem_cons_self _ _, h⟩
      · exact Or.inr ⟨f, List.mem_cons_of_mem _ hf, h⟩

/-- The add phase when every copy succeeds: every path that was final or is added is
final afterwards, and no pair is sent. -/
theorem addFiles_final (env : Env) (P : Files) (hpkg : env.packageFiles = P) :
    ∀ (l : List UpdateFileInfo) (pi : PackageInstaller),
      (pi.addFiles env l).1 = none →
      (∀ x, (Final P pi.installFiles pi.backupsChan x ∨ x ∈ l.map (fun fi => fi.Filepath)) →
          Final P (pi.addFiles env l).2.installFiles (pi.addFiles env l).2.backupsChan x)
      ∧ (pi.addFiles env l).2.backupsChan = pi.backupsChan
      ∧ (pi.addFiles env l).2.backups = pi.backups := by
  intro l
  induction l with
  | nil =>
    intro pi _
    refine ⟨?_, rfl, rfl⟩
    intro x hx
    rcases hx with hx | hx
    · exact hx
    · simp at hx
  | cons fi rest ih =>
    intro pi hok
    obtain ⟨pi1, hstep, hcopy, hfs, hch, hbk⟩ := addFiles_cons_ok env pi fi rest hok
    obtain ⟨c, hc1, hc2⟩ := copyFile_ok env fi.Filepath _ hcopy
    rw [hpkg] at hc1
    have hPu : P fi.Filepath = some c := (content_eq_some_iff _ _ _).mpr hc1
    rw [hstep] at hok ⊢
    obtain ⟨i1, i2, i3⟩ := ih pi1 hok
    refine ⟨?_, i2.trans hch, i3.trans hbk⟩
    intro x hx
    apply i1 x
    by_cases hxt : x = fi.Filepath
    · left
      rw [hxt, hfs, hc2]
      refine ⟨fun hp => ?_, fun _ => ?_⟩
      · rw [hPu] at hp
        exact Option.noConfusion hp
      · rw [content_put_file, if_pos rfl, hPu]
    · rcases hx with hx | hx
      · left
        rw [hch]
        refine hx.mono ?_ (fun kv h => h)
        rw [hfs, copyFile_other env fi.Filepath x _ hxt]
        exact ensureDirExists_content _ _ _
      · right
        simp only [List.map_cons, List.mem_cons] at hx
        rcases hx with hx | hx
        · exact absurd hx hxt
        · exact hx

theorem mapSet_mem (m : List (String × String)) (k v : String) (kv : String × String)
    (h : kv ∈ mapSet m k v) : kv ∈ m ∨ kv = (k, v) := by
  induction m with
  | nil =>
    simp only [mapSet, List.mem_singleton] at h
    exact Or.inr h
  | cons e rest ih =>
    obtain ⟨k2, v2⟩ := e
    unfold mapSet at h
    by_cases hk : k2 = k
    · simp only [hk, if_true, List.mem_cons] at h
      rcases h with h | h
      · exact Or.inr h
      · exact Or.inl (List.mem_cons_of_mem _ h)
    · simp only [hk, if_false, List.mem_cons] at h
      rcases h with h | h
      · exact Or.inl (by rw [h]; exact List.mem_cons_self _ _)
      · rcases ih h with h | h
        · exact Or.inl (List.mem_cons_of_mem _ h)
        · exact Or.inr h

/-- Storing a pair in a ledger that pairs every path with one backup path keeps every
entry. -/
theorem mem_mapSet (m : List (String × String)) (k v : String)
    (hm : ∀ kv ∈ m, kv.1 = k → kv.2 = v) :
    (k, v) ∈ mapSet m k v ∧ ∀ kv ∈ m, kv ∈ mapSet m k v := by
  induction m with
  | nil => exact ⟨by simp [mapSet], fun kv h => absurd h (List.not_mem_nil _)⟩
  | cons e rest ih =>
    obtain ⟨k2, v2⟩ := e
    unfold mapSet
    by_cases hk : k2 = k
    · simp only [hk, if_true]
      refine ⟨List.mem_cons_self _ _, ?_⟩
      intro kv h
      rcases List.mem_cons.mp h with h | h
      · have := hm (k2, v2) (List.mem_cons_self _ _) hk
        simp only [] at this
        rw [h, this]
        exact List.mem_cons_self _ _
      · exact List.mem_cons_of_mem _ h
    · simp only [hk, if_false]
      obtain ⟨i1, i2⟩ := ih (fun kv h => hm kv (List.mem_cons_of_mem _ h))
      refine ⟨List.mem_cons_of_mem _ i1, ?_⟩
      intro kv h
      rcases List.mem_cons.mp h with h | h
      · rw [h]
        exact List.mem_cons_self _ _
      · exact List.mem_cons_of_mem _ (i2 kv h)

/-- The pairs `accountBackups` stores, when each path is paired with its backup path. -/
theorem mem_accountBackups :
    ∀ (chan acc : List (String × String)),
      (∀ kv ∈ acc, kv = backupPair kv.1) → (∀ kv ∈ chan, kv = backupPair kv.1) →
      ∀ kv, kv ∈ chan.foldl (fun m bp => mapSet m bp.1 bp.2) acc ↔ (kv ∈ acc ∨ kv ∈ chan) := by
  intro chan
  induction chan with
  | nil => intro acc _ _ kv; simp
  | cons bp rest ih =>
    intro acc hacc hchan kv
    have hbp := hchan bp (List.mem_cons_self _ _)
    have hfun : ∀ kv ∈ acc, kv.1 = bp.1 → kv.2 = bp.2 := by
      intro kv hkv hk
      rw [hacc kv hkv, hbp]
      simp only [backupPair]
      rw [hk]
    obtain ⟨m1, m2⟩ := mem_mapSet acc bp.1 bp.2 hfun
    have hacc2 : ∀ kv ∈ mapSet acc bp.1 bp.2, kv = backupPair kv.1 := by
      intro kv hkv
      rcases mapSet_mem acc bp.1 bp.2 kv hkv with h | h
      · exact hacc kv h
      · rw [h]
        exact hbp
    rw [List.foldl_cons, ih (mapSet acc bp.1 bp.2) hacc2
      (fun kv h => hchan kv (List.mem_cons_of_mem _ h)) kv]
    constructor
    · rintro (h | h)
      · rcases mapSet_mem acc bp.1 bp.2 kv h with h | h
        · exact Or.inl h
        · exact Or.inr (by rw [h]; exact List.mem_cons_self _ _)
      · exact Or.inr (List.mem_cons_of_mem _ h)
    · rintro (h | h)
      · exact Or.inl (m2 kv h)
      · rcases List.mem_cons.mp h with h | h
        · exact Or.inl (by rw [h]; exact m1)
        · exact Or.inr h

theorem mapGet_eq_none (m : List (String × String)) (k : String) (h : ∀ kv ∈ m, kv.1 ≠ k) :
    mapGet m k = none := by
  induction m with
  | nil => rfl
  | cons e rest ih =>
    obtain ⟨k2, v2⟩ := e
    unfold mapGet
    have hk : k2 ≠ k := h (k2, v2) (List.mem_cons_self _ _)
    simp only [hk, if_false]
    exact ih (fun kv hkv => h kv (List.mem_cons_of_mem _ hkv))

theorem ledgerWithoutSelf_eq (env : Env) (ledger : List (String × String))
    (h : ∀ sp, env.selfpath = some sp → ∀ kv ∈ ledger, kv.1 ≠ sp) :
    ledgerWithoutSelf env ledger = ledger := by
  unfold ledgerWithoutSelf
  cases hs : env.selfpath with
  | none => rfl
  | some sp =>
    simp only []
    rw [mapGet_eq_none ledger sp (h sp hs)]

/-- The three phases when `installPackage` returns no error. -/
theorem installPackage_ok (env : Env) (pi : PackageInstaller) (d : DiffResult)
    (h : (pi.installPackage env d).1 = none) :
    ∃ pi2 pi4 pi6 : PackageInstaller,
      (pi.sendSystemMessage "Removing components...").removeFiles env d.filesToRemove
        = (none, pi2)
      ∧ (pi2.sendSystemMessage "Updating components...").updateFiles env d.filesToUpdate
        = (none, pi4)
      ∧ (pi4.sendSystemMessage "Adding components...").addFiles env d.filesToAdd = (none, pi6)
      ∧ (pi.installPackage env d).2 = pi6.waitBackups := by
  unfold PackageInstaller.installPackage at h ⊢
  simp only [] at h ⊢
  cases h1 : (pi.sendSystemMessage "Removing components...").removeFiles env d.filesToRemove with
  | mk e1 pi2 =>
    rw [h1] at h
    cases e1 with
    | some e => simp at h
    | none =>
      simp only [] at h ⊢
      cases h2 : (pi2.sendSystemMessage "Updating components...").updateFiles env
          d.filesToUpdate with
      | mk e2 pi4 =>
        rw [h2] at h
        cases e2 with
        | some e => simp at h
        | none =>
          simp only [] at h ⊢
          cases h3 : (pi4.sendSystemMessage "Adding components...").addFiles env
              d.filesToAdd with
          | mk e3 pi6 =>
            rw [h3] at h
            cases e3 with
            | some e => simp at h
            | none => exact ⟨pi2, pi4, pi6, rfl, h2, h3, rfl⟩

theorem GenerateDiffs_lists (install package : Tree)
    (installHashes packageHashes : String → String) (keepMissing forceUpdate : Bool)
    (d : DiffResult)
    (h : GenerateDiffs install package installHashes packageHashes keepMissing forceUpdate
      = some d) :
    d.filesToAdd = sentToAdd install package packageHashes
    ∧ d.filesToRemove = sentToRemove install package installHashes keepMissing
    ∧ d.filesToUpdate = sentToUpdate install package installHashes packageHashes forceUpdate
    := by
  rw [GenerateDiffs_eq] at h
  split at h
  · exact Option.noConfusion h
  · simp only [Option.some.injEq] at h
    rw [← h]
    exact ⟨rfl, rfl, rfl⟩

theorem SameKinds.symm {install package : Tree} (h : SameKinds install package) :
    ∀ e ∈ package, ∀ e2 ∈ install, e.1 = e2.1 → e.2.isDir = e2.2.isDir :=
  fun e he e2 he2 h12 => (h e2 he2 e he h12.symm).symm

theorem regular_of_not_dir (t : Tree) (hw : t.WellFormed) (p : String) (node : Node)
    (hm : (p, node) ∈ t) (hd : node.isDir = false) : ∃ c, node = Node.file c := by
  cases node with
  | file c => exact ⟨c, rfl⟩
  | dir s => simp [Node.isDir] at hd
  | other s =>
    have := (hw.2 _ hm).1
    simp [Node.isRegular, Node.isDir] at this

/-- A regular file of the package is added, updated, or lies unchanged in the install
tree. -/
theorem package_file_cases (install package : Tree)
    (installHashes packageHashes : String → String) (forceUpdate : Bool)
    (hI : install.WellFormed) (hP : package.WellFormed) (hk : SameKinds install package)
    (hhash : ∀ p c c2, install.files p = some c → package.files p = some c2 →
      installHashes p = packageHashes p → c2 = c)
    (x c : String) (hx : package.files x = some c) :
    x ∈ (sentToAdd install package packageHashes).map (fun fi => fi.Filepath)
    ∨ x ∈ (sentToUpdate install package installHashes packageHashes forceUpdate).map
        (fun fi => fi.Filepath)
    ∨ (forceUpdate = false ∧ install.files x = some c) := by
  have hm := files_content_some package x c hx
  have hnf := stat_ne_failed package install hP hk.symm x _ hm
  have hst := stat_eq_of_not_failed install x hnf
  cases hl : install.lookup x with
  | none =>
    rw [hl] at hst
    left
    rw [List.mem_map]
    refine ⟨{ Filepath := x, Sha1 := packageHashes x, FileSize := (Node.file c).size }, ?_, rfl⟩
    rw [mem_sentToAdd]
    exact ⟨Node.file c, hm, rfl, hst, rfl, rfl⟩
  | some node =>
    have hmi := lookup_eq_some_mem install x node hl
    have hd : node.isDir = false := hk (x, node) hmi (x, Node.file c) hm rfl
    obtain ⟨c0, rfl⟩ := regular_of_not_dir install hI x node hmi hd
    right
    by_cases hu : packageHashes x ≠ installHashes x ∨ forceUpdate = true
    · left
      rw [List.mem_map]
      refine ⟨{ Filepath := x, Sha1 := installHashes x, FileSize := (Node.file c).size }, ?_,
        rfl⟩
      rw [mem_sentToUpdate]
      exact ⟨Node.file c0, Node.file c, hmi, rfl, stat_ok_of_mem package hP x _ hm, hu, rfl,
        rfl⟩
    · right
      have hu1 : packageHashes x = installHashes x := by
        by_contra h
        exact hu (Or.inl h)
      have hu2 : forceUpdate = false := by
        cases forceUpdate
        · rfl
        · exact absurd (Or.inr rfl) hu
      have hc0 := files_content_of_mem install hI.1 x c0 hmi
      have := hhash x c0 c hc0 hx hu1.symm
      rw [this]
      exact ⟨hu2, hc0⟩

/-- A regular file of the install tree at a path where the package has none is
removed. -/
theorem install_file_cases (install package : Tree) (installHashes : String → String)
    (hI : install.WellFormed) (hP : package.WellFormed) (hk : SameKinds install package)
    (x c0 : String) (hx : install.files x = some c0) (hp : package.files x = none) :
    x ∈ (sentToRemove install package installHashes false).map (fun fi => fi.Filepath) := by
  have hm := files_content_some install x c0 hx
  have hnf := stat_ne_failed install package hI hk x _ hm
  have hst := stat_eq_of_not_failed package x hnf
  cases hl : package.lookup x with
  | none =>
    rw [hl] at hst
    rw [List.mem_map]
    refine ⟨{ Filepath := x, Sha1 := installHashes x, FileSize := (Node.file c0).size }, ?_,
      rfl⟩
    rw [mem_sentToRemove]
    exact ⟨rfl, Node.file c0, hm, rfl, hst, rfl, rfl⟩
  | some node =>
    exfalso
    have hmp := lookup_eq_some_mem package x node hl
    have hd : node.isDir = false := (hk (x, Node.file c0) hm (x, node) hmp rfl).symm
    obtain ⟨c, rfl⟩ := regular_of_not_dir package hP x node hmp hd
    rw [files_content_of_mem package hP.1 x c hmp] at hp
    exact Option.noConfusion hp

/-- The install directory `beforeInstall` leaves: the stale backup of the running
executable is gone, nothing else has changed. -/
theorem beforeInstall_files (env : Env) (pi : PackageInstaller) :
    (∀ x, pi.installFiles x = none → (pi.beforeInstall env).installFiles x = none)
    ∧ (∀ x, (∀ sp, env.selfpath = some sp → x ≠ sp ++ BackupExt) →
        (pi.beforeInstall env).installFiles x = pi.installFiles x)
    ∧ (∀ x, (pi.beforeInstall env).installFiles.kind x = some .dir →
        pi.installFiles.kind x = some .dir)
    ∧ (∀ x, (pi.beforeInstall env).installFiles.kind x ≠ none → pi.installFiles.kind x ≠ none)
    := by
  unfold PackageInstaller.beforeInstall PackageInstaller.removeOldBackups
  cases hs : env.selfpath with
  | none => exact ⟨fun x h => h, fun x _ => rfl, fun x h => h, fun x h => h⟩
  | some sp =>
    simp only []
    refine ⟨fun x h => osRemove_keeps_none _ _ _ _ h,
      fun x h => osRemove_other _ _ _ _ (h sp rfl), fun x h => osRemove_kind_dir _ _ _ _ h, ?_⟩
    intro x hx
    cases hkx : (osRemove env.faults (sp ++ BackupExt) pi.installFiles).2.kind x with
    | none => exact absurd hkx hx
    | some n => exact kind_ne_none_of_mem _ (x, n) (osRemove_mem _ _ _ _ (mem_of_kind _ _ _ hkx))

/-- C1 (amended): for well-formed trees of regular files and directories that agree on
which paths are directories, hash maps that give equal digests only to equal bytes,
`keep_missing` false and the diff of `GenerateDiffs`: if the package has no file at the
backup path of a file to remove or update, no entry of the install tree lies below the
backup path of a file to remove, the running executable is not removed or updated and
its stale backup is not a file both trees hold with the same bytes (unless
`force_update` is set), and no rename or removal is made to fail, then after `Install`
returns success every path holds in the install directory the regular file it holds
in the package, or none where the package has none. -/
theorem Install_matches_package (install package : Tree)
    (installHashes packageHashes : String → String) (forceUpdate : Bool) (env : Env)
    (d : DiffResult) (pi2 : PackageInstaller)
    (hI : install.WellFormed) (hP : package.WellFormed) (hk : SameKinds install package)
    (hhash : ∀ p c c2, install.files p = some c → package.files p = some c2 →
      installHashes p = packageHashes p → c2 = c)
    (hdiff : GenerateDiffs install package installHashes packageHashes false forceUpdate
      = some d)
    (hbak : ∀ p ∈ d.targets, package.files (p ++ BackupExt) = none)
    (hbakdir : ∀ fi ∈ d.filesToRemove, ∀ e ∈ install,
      isBelow (fi.Filepath ++ BackupExt) e.1 = false)
    (hself1 : ∀ sp, env.selfpath = some sp → sp ∉ d.targets)
    (hself2 : ∀ sp c, env.selfpath = some sp → forceUpdate = false →
      install.files (sp ++ BackupExt) = some c → package.files (sp ++ BackupExt) ≠ some c)
    (hpkg : env.packageFiles = package.files)
    (hfr : ∀ a b, env.faults.rename a b = false) (hfm : ∀ p, env.faults.remove p = false)
    (hrun : (PackageInstaller.new install.files false).Install env d = some (none, pi2)) :
    ∀ p, pi2.installFiles p = package.files p := by
  obtain ⟨hA, hR, hU⟩ := GenerateDiffs_lists _ _ _ _ _ _ _ hdiff
  -- the run: the phases succeed and `afterSuccess` follows
  obtain ⟨he, ht⟩ := Install_eq_some env _ d none pi2 hrun
  have hfiles := (teardown_fields _ _ ht).2.1
  have hflag := phases_failInTheEnd env (PackageInstaller.new install.files false) d
  rw [applyDiff_eq] at he hfiles
  have hc : ((PackageInstaller.new install.files false).phases env d).1 = none
      ∧ ((PackageInstaller.new install.files false).phases env d).2.failInTheEnd = false := by
    refine ⟨?_, hflag⟩
    by_cases hc : ((PackageInstaller.new install.files false).phases env d).1 = none
      ∧ ((PackageInstaller.new install.files false).phases env d).2.failInTheEnd = false
    · exact hc.1
    · rw [if_neg hc] at he
      exact he.symm
  rw [if_pos hc] at hfiles
  simp only [] at hfiles
  -- the state before the phases
  obtain ⟨b1, b2, b3, b4⟩ := beforeInstall_files env
    { PackageInstaller.new install.files false with
      progressReporter := { (PackageInstaller.new install.files false).progressReporter with
        grandTotal := calculateGrandTotals d } }
  obtain ⟨_, _, bk, bc, _⟩ := beforeInstall_fields env
    { PackageInstaller.new install.files false with
      progressReporter := { (PackageInstaller.new install.files false).progressReporter with
        grandTotal := calculateGrandTotals d } }
  have hph : (PackageInstaller.new install.files false).phases env d
      = PackageInstaller.installPackage env
        (PackageInstaller.beforeInstall env
          { PackageInstaller.new install.files false with
            progressReporter :=
              { (PackageInstaller.new install.files false).progressReporter with
                grandTotal := calculateGrandTotals d } }) d := rfl
  rw [hph] at hc hfiles
  generalize PackageInstaller.beforeInstall env
    { PackageInstaller.new install.files false with
      progressReporter := { (PackageInstaller.new install.files false).progressReporter with
        grandTotal := calculateGrandTotals d } } = piB at b1 b2 b3 b4 bk bc hc hfiles
  simp only [PackageInstaller.new] at b1 b2 b3 b4 bk bc
  -- every path is final or a path of the diff
  have hinit : ∀ x, Final package.files piB.installFiles piB.backupsChan x
      ∨ x ∈ d.filesToRemove.map (fun fi => fi.Filepath)
      ∨ x ∈ d.filesToUpdate.map (fun fi => fi.Filepath)
      ∨ x ∈ d.filesToAdd.map (fun fi => fi.Filepath) := by
    intro x
    cases hp : package.files x with
    | none =>
      cases hi : install.files x with
      | none => exact Or.inl ⟨fun _ => Or.inl (b1 x hi), fun h => absurd hp h⟩
      | some c0 =>
        right; left
        rw [hR]
        exact install_file_cases install package installHashes hI hP hk x c0 hi hp
    | some c =>
      rcases package_file_cases install package installHashes packageHashes forceUpdate hI hP hk
        hhash x c hp with h | h | ⟨hf, hi⟩
      · right; right; right
        rw [hA]
        exact h
      · right; right; left
        rw [hU]
        exact h
      · left
        have hb : piB.installFiles x = install.files x := by
          apply b2
          intro sp hsp hx
          rw [hx] at hi hp
          exact hself2 sp c hsp hf hi hp
        refine ⟨fun h => ?_, fun _ => ?_⟩
        · rw [hp] at h
          exact Option.noConfusion h
        · rw [hb, hi, hp]
  -- the files to remove and to update
  have hinst : ∀ fi, fi ∈ d.filesToRemove ∨ fi ∈ d.filesToUpdate →
      ∃ node, (fi.Filepath, node) ∈ install ∧ node.isRegular = true := by
    intro fi hfi
    rcases hfi with hfi | hfi
    · rw [hR, mem_sentToRemove] at hfi
      obtain ⟨_, node, hm, hreg, _⟩ := hfi
      exact ⟨node, hm, hreg⟩
    · rw [hU, mem_sentToUpdate] at hfi
      obtain ⟨node, _, hm, hreg, _⟩ := hfi
      exact ⟨node, hm, hreg⟩
  have hnotdir : ∀ fi, fi ∈ d.filesToRemove ∨ fi ∈ d.filesToUpdate →
      install.files.kind fi.Filepath ≠ some .dir := by
    intro fi hfi
    obtain ⟨node, hm, hreg⟩ := hinst fi hfi
    rw [files_kind_of_mem install hI.1 _ node hm]
    cases node with
    | file c => simp [Node.entry]
    | dir s => simp [Node.isRegular] at hreg
    | other s => simp [Node.entry]
  have htarget : ∀ fi, fi ∈ d.filesToRemove ∨ fi ∈ d.filesToUpdate →
      fi.Filepath ∈ d.targets := by
    intro fi hfi
    unfold DiffResult.targets
    rw [List.mem_map]
    exact ⟨fi, List.mem_append.mpr hfi, rfl⟩
  have hsideR : ∀ fi ∈ d.filesToRemove, package.files fi.Filepath = none
      ∧ package.files (fi.Filepath ++ BackupExt) = none
      ∧ install.files.kind fi.Filepath ≠ some .dir
      ∧ ∀ x, isBelow (fi.Filepath ++ BackupExt) x = true →
          install.files.kind x = none
          ∧ ∀ fi2 ∈ d.filesToRemove, x ≠ fi2.Filepath ++ BackupExt := by
    intro fi hfi
    refine ⟨?_, hbak _ (htarget fi (Or.inl hfi)), hnotdir fi (Or.inl hfi), ?_⟩
    · have h := hfi
      rw [hR, mem_sentToRemove] at h
      obtain ⟨_, _, _, _, hst, _⟩ := h
      exact files_content_none_of_lookup package _ (stat_notExist_lookup package _ hst)
    · intro x hx
      refine ⟨?_, ?_⟩
      · cases hkx : install.files.kind x with
        | none => rfl
        | some n =>
          exfalso
          obtain ⟨node, hm, _⟩ := files_kind_mem install x n hkx
          have := hbakdir fi hfi (x, node) hm
          simp only [] at this
          rw [hx] at this
          exact Bool.noConfusion this
      · intro fi2 hfi2 hx2
        rw [hx2] at hx
        obtain ⟨node, hm, _⟩ := hinst fi2 (Or.inl hfi2)
        have := hbakdir fi hfi (fi2.Filepath, node) hm
        simp only [] at this
        rw [isBelow_of_isBelow_bak _ _ hx] at this
        exact Bool.noConfusion this
  have hsideU : ∀ fi ∈ d.filesToUpdate, package.files (fi.Filepath ++ BackupExt) = none
      ∧ install.files.kind fi.Filepath ≠ some .dir :=
    fun fi hfi => ⟨hbak _ (htarget fi (Or.inr hfi)), hnotdir fi (Or.inr hfi)⟩
  -- the three phases
  obtain ⟨p2, p4, p6, h1, h2, h3, h4⟩ := installPackage_ok env piB d hc.1
  obtain ⟨r1, r2, r3, r4⟩ := removeFiles_final env package.files install.files d.filesToRemove
    hfr hfm d.filesToRemove (piB.sendSystemMessage "Removing components...") (fun _ h => h)
    hsideR b3 (fun x hx => Or.inl (b4 x hx))
  rw [h1] at r1 r2 r3 r4
  simp only [] at r1 r2 r3 r4
  obtain ⟨u1, u2, u3⟩ := updateFiles_final env package.files install.files hfr hfm hpkg
    d.filesToUpdate (p2.sendSystemMessage "Updating components...") (by rw [h2]) hsideU r1
  rw [h2] at u1 u2 u3
  simp only [] at u1 u2 u3
  obtain ⟨a1, a2, a3⟩ := addFiles_final env package.files hpkg d.filesToAdd
    (p4.sendSystemMessage "Adding components...") (by rw [h3])
  rw [h3] at a1 a2 a3
  simp only [] at a1 a2 a3
  have hfinal : ∀ x, Final package.files p6.installFiles p6.backupsChan x := by
    intro x
    apply a1 x
    by_cases hxa : x ∈ d.filesToAdd.map (fun fi => fi.Filepath)
    · exact Or.inr hxa
    · left
      apply u1 x
      by_cases hxu : x ∈ d.filesToUpdate.map (fun fi => fi.Filepath)
      · exact Or.inr hxu
      · left
        apply r2 x
        rcases hinit x with h | h | h | h
        · exact Or.inl h
        · exact Or.inr h
        · exact absurd h hxu
        · exact absurd h hxa
  have hchan : ∀ kv ∈ p6.backupsChan, ∃ t ∈ d.targets, kv = backupPair t := by
    intro kv hkv
    rw [a2] at hkv
    rcases u2 kv hkv with h | ⟨fi, hfi, h⟩
    · rcases r3 kv h with h | ⟨fi, hfi, h⟩
      · have h0 : kv ∈ piB.backupsChan := h
        rw [bc] at h0
        exact absurd h0 (List.not_mem_nil _)
      · exact ⟨fi.Filepath, htarget fi (Or.inl hfi), h⟩
    · exact ⟨fi.Filepath, htarget fi (Or.inr hfi), h⟩
  have hbackups : p6.backups = [] := by
    rw [a3]
    show p4.backups = []
    rw [u3]
    show p2.backups = []
    rw [r4]
    exact bk
  -- the ledger
  have hledger : ∀ kv, kv ∈ p6.waitBackups.backups ↔ kv ∈ p6.backupsChan := by
    intro kv
    have := mem_accountBackups p6.backupsChan [] (fun kv h => absurd h (List.not_mem_nil _))
      (fun kv h => by obtain ⟨t, _, ht⟩ := hchan kv h; rw [ht]; rfl) kv
    simp only [List.not_mem_nil, false_or] at this
    rw [← this]
    unfold PackageInstaller.waitBackups PackageInstaller.accountBackups
    simp only []
    rw [hbackups]
  have hnoself : ledgerWithoutSelf env p6.waitBackups.backups = p6.waitBackups.backups := by
    apply ledgerWithoutSelf_eq
    intro sp hsp kv hkv hkey
    obtain ⟨t, ht, hkvt⟩ := hchan kv ((hledger kv).mp hkv)
    rw [hkvt] at hkey
    simp only [backupPair] at hkey
    rw [hkey] at ht
    exact hself1 sp hsp ht
  rw [h4] at hfiles
  obtain ⟨_, s2, s3, s4⟩ := afterSuccess_ledger env p6.waitBackups
  rw [hnoself] at s2 s3
  have hwf : p6.waitBackups.installFiles = p6.installFiles := (waitBackups_fields p6).2.2.2.1
  intro p
  rw [hfiles]
  cases hp : package.files p with
  | none =>
    rcases (hfinal p).1 hp with h | ⟨t, hpt, hm⟩
    · apply s4
      rw [hwf]
      exact h
    · have := s2 hfm (backupPair t) ((hledger _).mpr hm)
      simp only [backupPair] at this
      rw [hpt]
      exact this
  | some c =>
    have hne : package.files p ≠ none := by rw [hp]; simp
    rw [s3 p, hwf, (hfinal p).2 hne, hp]
    intro kv hkv hpkv
    obtain ⟨t, ht, hkvt⟩ := hchan kv ((hledger kv).mp hkv)
    rw [hkvt] at hpkv
    simp only [backupPair] at hpkv
    rw [hpkv] at hne
    exact hne (hbak t ht)

/-- The hash maps of an injective digest give equal digests only to equal bytes. -/
theorem CalculateHashes_distinguishes (digest : String → String)
    (hinj : Function.Injective digest) (install package : Tree)
    (hn1 : (install.map Prod.fst).Nodup) (hn2 : (package.map Prod.fst).Nodup) :
    ∀ p c c2, install.files p = some c → package.files p = some c2 →
      CalculateHashes digest install p = CalculateHashes digest package p → c2 = c := by
  intro p c c2 h1 h2 h
  unfold CalculateHashes at h
  rw [lookup_eq_of_mem install hn1 p _ (files_content_some install p c h1),
    lookup_eq_of_mem package hn2 p _ (files_content_some package p c2 h2)] at h
  exact (hinj h).symm

/-- C1 (amended) on a concrete run: one file to update, one to remove, one to add in a
new directory, and the running executable, which lies unchanged in a directory of the
install tree. -/
theorem Install_matches_package_witness :
    mixedInstall.WellFormed ∧ mixedPackage.WellFormed ∧ SameKinds mixedInstall mixedPackage
    ∧ GenerateDiffs mixedInstall mixedPackage (CalculateHashes id mixedInstall)
        (CalculateHashes id mixedPackage) false false = some mixedDiff
    ∧ (PackageInstaller.new mixedInstall.files false).Install (selfEnv mixedPackage "d/x")
          mixedDiff
        = some (none, (PackageInstaller.new mixedInstall.files false).installed
            (selfEnv mixedPackage "d/x") mixedDiff)
    ∧ ∀ p, ((PackageInstaller.new mixedInstall.files false).installed
          (selfEnv mixedPackage "d/x") mixedDiff).installFiles p = mixedPackage.files p :=
  ⟨by decide, by decide, by decide, by decide, rfl,
    Install_matches_package mixedInstall mixedPackage (CalculateHashes id mixedInstall)
      (CalculateHashes id mixedPackage) false (selfEnv mixedPackage "d/x") mixedDiff _
      (by decide) (by decide) (by decide)
      (CalculateHashes_distinguishes id Function.injective_id mixedInstall mixedPackage
        (by decide) (by decide))
      (by decide) (by decide) (by decide)
      (fun sp h => by
        have hsp : sp = "d/x" := (Option.some.inj h).symm
        rw [hsp]
        decide)
      (fun sp c h _ hi => by
        have hsp : sp = "d/x" := (Option.some.inj h).symm
        rw [hsp] at hi
        have hnone : mixedInstall.files ("d/x" ++ BackupExt) = none := by decide
        rw [hnone] at hi
        exact Option.noConfusion hi)
      rfl (fun _ _ => rfl) (fun _ => rfl) rfl⟩

/-- C1 (as stated) fails: install `{a: "A", a.bak: "K"}`, package `{a.bak: "K"}`,
`keep_missing = false`, no operation made to fail: the diff removes `a`, `Install`
returns success, and `a.bak`, which the package holds, is gone from the install tree. -/
theorem Install_drops_bak_file :
    diffOf bakTree bakPackage false false
      = some { filesToAdd := [],
               filesToRemove := [{ Filepath := "a", Sha1 := "A", FileSize := 1 }],
               filesToUpdate := [] }
    ∧ ((PackageInstaller.new bakTree.files false).Install (plainEnv bakPackage)
          { filesToAdd := [], filesToRemove := [{ Filepath := "a", Sha1 := "A", FileSize := 1 }],
            filesToUpdate := [] }).map
        (fun r => (r.1, r.2.installFiles "a", r.2.installFiles "a.bak"))
      = some (none, none, none)
    ∧ bakPackage.files "a.bak" = some "K" := by
  decide

/-- Why the amended C1 needs its other premises: successful runs after which the
install directory differs from the package. A directory that is not empty sits at the
backup path of the file `a` to remove, and `a` stays. The running executable is
updated, and its backup stays. A stale backup of the running executable that both
trees hold is removed. The package has a regular file where the install tree has a
directory, and the file is not added. The hash maps give the old and the new bytes of
`a` the same digest, and `a` is not updated. The install tree has a regular file where
the package has a directory, the hash maps give the two the same digest, and the file
below the directory is not added. -/
theorem Install_success_differs_from_package :
    (diffOf bakDirTree [] false false
        = some { filesToAdd := [],
                 filesToRemove := [{ Filepath := "a", Sha1 := "A", FileSize := 1 },
                   { Filepath := "a.bak/x", Sha1 := "X", FileSize := 1 }],
                 filesToUpdate := [] }
      ∧ ((PackageInstaller.new bakDirTree.files false).Install (plainEnv [])
            { filesToAdd := [],
              filesToRemove := [{ Filepath := "a", Sha1 := "A", FileSize := 1 },
                { Filepath := "a.bak/x", Sha1 := "X", FileSize := 1 }],
              filesToUpdate := [] }).map
          (fun r => (r.1, r.2.installFiles "a", r.2.log))
        = some (none, some "A", [LogLine.removeFailed "a"]))
    ∧ (diffOf oldTree newTree false false = some updateDiff
      ∧ ((PackageInstaller.new oldTree.files false).Install (selfEnv newTree "a")
            updateDiff).map
          (fun r => (r.1, r.2.installFiles "a", r.2.installFiles "a.bak"))
        = some (none, some "new", some "old")
      ∧ newTree.files "a.bak" = none)
    ∧ (diffOf staleTree staleTree false false = some emptyDiff
      ∧ ((PackageInstaller.new staleTree.files false).Install (selfEnv staleTree "exe")
            emptyDiff).map
          (fun r => (r.1, r.2.installFiles "exe.bak"))
        = some (none, none)
      ∧ staleTree.files "exe.bak" = some "S")
    ∧ (diffOf emptyDirTree fileAtDirTree false false = some emptyDiff
      ∧ ((PackageInstaller.new emptyDirTree.files false).Install (plainEnv fileAtDirTree)
            emptyDiff).map
          (fun r => (r.1, r.2.installFiles "d"))
        = some (none, none)
      ∧ fileAtDirTree.files "d" = some "X")
    ∧ (GenerateDiffs oldTree newTree (fun _ => "h") (fun _ => "h") false false = some emptyDiff
      ∧ ((PackageInstaller.new oldTree.files false).Install (plainEnv newTree) emptyDiff).map
          (fun r => (r.1, r.2.installFiles "a"))
        = some (none, some "old")
      ∧ newTree.files "a" = some "new")
    ∧ (GenerateDiffs subFileTree subDirTree (fun _ => "h") (fun _ => "h") false false
        = some emptyDiff
      ∧ ((PackageInstaller.new subFileTree.files false).Install (plainEnv subDirTree)
            emptyDiff).map
          (fun r => (r.1, r.2.installFiles "sub/b.txt"))
        = some (none, none)
      ∧ subDirTree.files "sub/b.txt" = some "B") := by
  decide

end Ministaller
